import Mathlib

/-!
# go-blobs2gzip: blobs to concatenated gzip members and back

A verification development for `blobs2gzip.go`.

* `BlobsToWriter` and `GzipToBlobsLimited` are embedded as they are written, over
  records of the library operations they call (`compress/gzip` writer and reader,
  `io.LimitedReader`, `io.Copy` into a `bytes.Buffer`, `errors.Join`).
* `Lib` is a model of those library operations over an in-memory sink and source.
  A gzip member is a 10-byte header, a DEFLATE body and an 8-byte trailer.  The
  DEFLATE body is modelled in its stored-block fragment (the coding
  `compress/flate` produces at level `NoCompression`): at the default level the
  bits of the data blocks differ, the member structure and the control flow of
  reader and writer are the same. What is stated of the bytes of a stream is
  meant of its members and their order, not of the bits inside a member.
* The reader is lazy, as the library is: the decompressor copies into a window of
  32768 bytes and hands the window over when it is full or the final block is
  met; `Read` reports `io.EOF` (after checking the trailer) together with the
  bytes that empty the last hand-over, and not before. The source is a
  `*bufio.Reader`, which `compress/gzip` and `compress/flate` read byte by byte
  without a buffer of their own, so nothing is read ahead of what is decoded.

* The command `jsonlogs2asn1gzip` (`cmd/jsonlogs2asn1gzip/main.go`) is embedded
  with its iterators as push iterators that pass the state of the caller through
  the calls of `yield`; `encoding/json`, `encoding/asn1` and `fmt` enter as the
  functions the code calls. A Go map used as a key set is the list of its keys in
  the order in which `range` enumerates them on one run.

Conventions: a byte is a natural number (real bytes are the values below 256),
a Go `error` is an `Option Error` (`none` is `nil`), a possibly-nil slice is an
`Option Blob`.
-/

namespace Blobs2Gzip

/-! ## Data model -/

abbrev Byte := Nat

/-- Opaque data (`type Blob []byte`). -/
abbrev Blob := List Byte

/-- Error values that can reach the code: the sentinels of `io`, `compress/gzip`
and `compress/flate`, errors of the caller-supplied source, sink or producer
(`other`), and the values built by `errors.Join` (`join1`, `join2`).
`huffmanBlock` is not a Go error: the model reader stops with it at a
Huffman-coded DEFLATE block, which it does not decode. `CorruptInput` stands for
every `flate.CorruptInputError`, whatever its offset. -/
inductive Error where
  | EOF
  | ErrUnexpectedEOF
  | ErrHeader
  | ErrChecksum
  | CorruptInput
  | huffmanBlock
  | ErrNoProgress
  | other (code : Nat)
  | join1 (e : Error)
  | join2 (e1 e2 : Error)
  deriving DecidableEq, Repr

/-- The two-argument `errors.Join`: nil arguments are dropped, and the result is
nil when nothing is left. -/
def errorsJoin : Option Error → Option Error → Option Error
  | none, none => none
  | some a, none => some (Error.join1 a)
  | none, some b => some (Error.join1 b)
  | some a, some b => some (Error.join2 a b)

/-- The relation `errors.Is err target`: `err` is `target`, or a joined error one
of whose members is. -/
def errorsIs : Error → Error → Bool
  | Error.join1 e, t => decide (Error.join1 e = t) || errorsIs e t
  | Error.join2 a b, t => decide (Error.join2 a b = t) || errorsIs a t || errorsIs b t
  | e, t => decide (e = t)

/-- One element of a `Blobs` sequence (`iter.Seq2[Blob, error]`): the pair handed
to the `yield` callback. -/
structure Elt where
  blob : Option Blob
  err : Option Error
  deriving DecidableEq, Repr

/-- The element `yield(b, nil)`. -/
def Elt.ok (b : Blob) : Elt := ⟨some b, none⟩

/-- The element `yield(nil, e)`. -/
def Elt.failed (e : Error) : Elt := ⟨none, some e⟩

/-! ## Encoder: `BlobsToWriter` -/

/-- The operations of `*gzip.Writer` that `BlobsToWriter` calls, as functions on
a world `ω` that holds the writer and the sink behind it. `σ` is the sink handed
to `gzip.NewWriter`. -/
structure GzipWriter (σ ω : Type) where
  newWriter : σ → ω
  write : ω → Blob → ω × Option Error
  close : ω → ω × Option Error
  reset : ω → ω

/-- What a call of `BlobsToWriter(wtr)(blobs)` leaves behind: the returned error,
the world, and how many elements were pulled from `blobs`. -/
structure EncodeResult (ω : Type) where
  err : Option Error
  world : ω
  consumed : Nat

/-- The `for blob, e := range blobs` loop of `BlobsToWriter`. -/
def encodeLoop {σ ω : Type} (gw : GzipWriter σ ω) : ω → List Elt → EncodeResult ω
  | w, [] => ⟨none, w, 0⟩
  | w, x :: rest =>
    match x.err with
    | some e => ⟨some e, w, 1⟩
    | none =>
      match gw.write w (x.blob.getD []) with
      | (w1, some e) =>
        let c := gw.close w1
        ⟨errorsJoin (some e) c.2, c.1, 1⟩
      | (w1, none) =>
        match gw.close w1 with
        | (w2, some e) => ⟨some e, w2, 1⟩
        | (w2, none) =>
          let r := encodeLoop gw (gw.reset w2) rest
          ⟨r.err, r.world, r.consumed + 1⟩

/-- Writes all blobs to the writer (`BlobsToWriter`). The sequence is the list of
pairs its producer hands over, in order, for as long as it is asked to go on. -/
def BlobsToWriter {σ ω : Type} (gw : GzipWriter σ ω) (wtr : σ) (blobs : List Elt) :
    EncodeResult ω :=
  encodeLoop gw (gw.newWriter wtr) blobs

/-! ## Decoder: `GzipToBlobsLimited` -/

/-- The outcome of one `Read(p)` with a non-empty `p`: either `n ≥ 1` bytes, with
or without an error, or no byte and an error. (`gzip.Reader.Read` does not return
`0, nil` for a non-empty `p`.) -/
inductive ReadOut (ω : Type) where
  | bytes (b : Byte) (bs : List Byte) (err : Option Error) (next : ω)
  | fail (err : Error) (next : ω)

/-- The operations of `*gzip.Reader` that `GzipToBlobsLimited` calls, as functions
on a world `ω` that holds the reader and the `*bufio.Reader` behind it. `σ` is the
source handed to `gzip.NewReader`. -/
structure GzipReader (σ ω : Type) where
  newReader : σ → ω × Option Error
  multistream : ω → Bool → ω
  read : ω → Nat → ReadOut ω
  reset : ω → ω × Option Error
  close : ω → ω

/-- The call `io.Copy(&buf, &io.LimitedReader{R: zr, N: n})` on a buffer holding
`buf`: reads until the limited reader reports `io.EOF` (the copy returns nil) or
another error (the copy returns it). `LimitedReader.Read` answers `io.EOF` without
touching `zr` once `N` is used up, cuts the request to `N` bytes otherwise, and
passes on what `zr.Read` returns. `bytes.Buffer.ReadFrom` offers at least 512 free
bytes to every call; the model offers the whole of `N`. The first argument bounds
the number of calls; `n` is enough, as every call that goes on takes a byte. -/
def copyLimited {ω : Type} (rd : ω → Nat → ReadOut ω) :
    Nat → Nat → ω → List Byte → List Byte × Option Error × ω
  | 0, _, w, buf => (buf, none, w)
  | fuel + 1, n, w, buf =>
    if n = 0 then (buf, none, w)
    else
      match rd w n with
      | ReadOut.fail e w1 => if e = Error.EOF then (buf, none, w1) else (buf, some e, w1)
      | ReadOut.bytes b bs err w1 =>
        let chunk := (b :: bs).take n
        match err with
        | some e =>
          if e = Error.EOF then (buf ++ chunk, none, w1) else (buf ++ chunk, some e, w1)
        | none => copyLimited rd fuel (n - chunk.length) w1 (buf ++ chunk)

/-- The consumer of a sequence: the `yield` callback. It is asked with all the
elements delivered so far, the current one last, and answers whether to go on. -/
abbrev Consumer := List Elt → Bool

/-- What iterating `GzipToBlobsLimited(limit)(rdr)` leaves behind: the elements
handed to `yield`, in order; the world; and whether the function returned
(`false`: the bound on the number of members was reached first). -/
structure DecodeResult (ω : Type) where
  trace : List Elt
  world : ω
  returned : Bool

/-- The `for` loop of `GzipToBlobsLimited`, entered with the elements yielded so
far. The first argument bounds the number of iterations. -/
def decodeLoop {σ ω : Type} (zr : GzipReader σ ω) (limit : Int) (yield : Consumer) :
    Nat → ω → List Elt → DecodeResult ω
  | 0, w, tr => ⟨tr, w, false⟩
  | fuel + 1, w, tr =>
    let w1 := zr.multistream w false
    match copyLimited zr.read limit.toNat limit.toNat w1 [] with
    | (_, some e, w2) => ⟨tr ++ [Elt.failed e], zr.close w2, true⟩
    | (buf, none, w2) =>
      if yield (tr ++ [Elt.ok buf]) then
        match zr.reset w2 with
        | (w3, none) => decodeLoop zr limit yield fuel w3 (tr ++ [Elt.ok buf])
        | (w3, some e) =>
          if e = Error.EOF then ⟨tr ++ [Elt.ok buf], zr.close w3, true⟩
          else ⟨tr ++ [Elt.ok buf] ++ [Elt.failed e], zr.close w3, true⟩
      else ⟨tr ++ [Elt.ok buf], zr.close w2, true⟩

/-- Reads concatenated gzips as blobs (`GzipToBlobsLimited`), iterated with the
callback `yield`. A limit of zero or less makes the limited reader answer
`io.EOF` at once, so it counts as zero. -/
def GzipToBlobsLimited {σ ω : Type} (zr : GzipReader σ ω) (limit : Int) (fuel : Nat)
    (rdr : σ) (yield : Consumer) : DecodeResult ω :=
  match zr.newReader rdr with
  | (w, some e) =>
    if e = Error.EOF then ⟨[], w, true⟩ else ⟨[Elt.failed e], w, true⟩
  | (w, none) => decodeLoop zr limit yield fuel w []

/-! ## The library: writing a gzip member -/

namespace Lib

/-- One bit step of the reflected CRC-32 (IEEE polynomial `0xedb88320`). -/
def crcStep (c : Nat) : Nat :=
  if c % 2 = 1 then (c / 2) ^^^ 0xedb88320 else c / 2

/-- Feeds one byte to the CRC register. -/
def crcByte (c : Nat) (b : Byte) : Nat :=
  Nat.iterate crcStep 8 (c ^^^ (b % 256))

/-- The checksum `crc32.ChecksumIEEE`. -/
def crc32 (data : List Byte) : Nat :=
  (data.foldl crcByte 0xffffffff) ^^^ 0xffffffff

/-- Four bytes, little endian (`binary.LittleEndian.PutUint32`). -/
def le32 (x : Nat) : List Byte :=
  [x % 256, x / 256 % 256, x / 65536 % 256, x / 16777216 % 256]

/-- The header `gzip.Writer` writes for a zero `Header`: magic `1f 8b`, method 8
(deflate), no flags, no modification time, no extra flags, operating system 255
(unknown). -/
def gzipHeader : List Byte := [0x1f, 0x8b, 8, 0, 0, 0, 0, 0, 0, 255]

/-- The trailer of a member: CRC-32 and length modulo `2^32` of the body. -/
def gzipTrailer (body : List Byte) : List Byte :=
  le32 (crc32 body) ++ le32 (body.length % 4294967296)

/-- The largest stored block (`maxStoreBlockSize`). -/
def maxStoreBlockSize : Nat := 65535

/-- A stored block that is not the last: block header byte 0, `LEN`, `NLEN`, and
the raw bytes. -/
def storedBlock (c : List Byte) : List Byte :=
  [0, c.length % 256, c.length / 256, (65535 - c.length) % 256, (65535 - c.length) / 256] ++ c

/-- The empty stored block with the final bit set, which `flate.Writer.Close`
writes last. -/
def finalBlock : List Byte := [1, 0, 0, 255, 255]

/-- The sink: an `io.Writer` that keeps what it is given. With `room = none` it is
a `bytes.Buffer` (it never fails); with `room = some n` it takes `n` more bytes
and then fails every write with `fault`, keeping the bytes that still fit. -/
structure Sink where
  data : List Byte
  room : Option Nat
  fault : Error
  deriving DecidableEq, Repr

/-- The empty `bytes.Buffer`. -/
def Sink.buffer : Sink := ⟨[], none, Error.other 0⟩

/-- The method `Write` of the sink. -/
def Sink.write (s : Sink) (p : List Byte) : Sink × Option Error :=
  match s.room with
  | none => ({ s with data := s.data ++ p }, none)
  | some r =>
    if p.length ≤ r then ({ s with data := s.data ++ p, room := some (r - p.length) }, none)
    else ({ s with data := s.data ++ p.take r, room := some 0 }, some s.fault)

/-- The state of a `gzip.Writer` and the sink it writes to: `window` holds the
bytes the compressor has taken and not yet written out, `body` all the bytes of
the member so far (for the digest and the size), `err` the sticky error. -/
structure Writer where
  sink : Sink
  wroteHeader : Bool
  closed : Bool
  window : List Byte
  body : List Byte
  err : Option Error
  deriving DecidableEq, Repr

/-- The call `gzip.NewWriter(w)`: nothing is written yet. -/
def Writer.new (w : Sink) : Writer := ⟨w, false, false, [], [], none⟩

/-- The compressor step `store`: writes the window out as one stored block when
it is full, or when `sync` is set and it is not empty. -/
def Writer.store (z : Writer) (sync : Bool) : Writer :=
  if z.window ≠ [] ∧ (z.window.length = maxStoreBlockSize ∨ sync = true) then
    let r := z.sink.write (storedBlock z.window)
    { z with sink := r.1, err := r.2, window := [] }
  else z

/-- The compressor method `write`: while bytes are left, run the step, then move
as many bytes as fit into the window; stop at an error. The first argument bounds
the number of rounds; the length of the input is enough. -/
def Writer.deflate : Nat → Writer → List Byte → Writer
  | 0, z, _ => z
  | fuel + 1, z, b =>
    if b = [] then z
    else
      let z1 := z.store false
      let n := min (maxStoreBlockSize - z1.window.length) b.length
      let z2 := { z1 with window := z1.window ++ b.take n }
      if z2.err.isSome then z2 else Writer.deflate fuel z2 (b.drop n)

/-- The method `gzip.Writer.Write`: a sticky error is returned as it is; the
header is written before the first bytes; the bytes go to the compressor. -/
def Writer.write (z : Writer) (p : Blob) : Writer × Option Error :=
  match z.err with
  | some e => (z, some e)
  | none =>
    let z1 :=
      if z.wroteHeader then z
      else
        let r := z.sink.write gzipHeader
        { z with wroteHeader := true, sink := r.1, err := r.2 }
    match z1.err with
    | some e => (z1, some e)
    | none =>
      let z2 := Writer.deflate p.length { z1 with body := z1.body ++ p } p
      (z2, z2.err)

/-- The method `gzip.Writer.Close`: a sticky error is returned as it is; a closed
writer returns nil; otherwise the header is written if it was not, the compressor
is closed (the window is written out, then the final empty block), and the
trailer is written. The data blocks and the final block are those of the
stored-block coding; `gzip.NewWriter` compresses at the default level, whose
blocks hold other bytes between the same header and trailer. -/
def Writer.close (z : Writer) : Writer × Option Error :=
  match z.err with
  | some e => (z, some e)
  | none =>
    if z.closed then (z, none)
    else
      let z0 := { z with closed := true }
      let z1 := if z0.wroteHeader then z0 else (z0.write []).1
      match z1.err with
      | some e => (z1, some e)
      | none =>
        let z2 := z1.store true
        match z2.err with
        | some e => (z2, some e)
        | none =>
          let r := z2.sink.write finalBlock
          match r.2 with
          | some e => ({ z2 with sink := r.1, err := some e }, some e)
          | none =>
            let t := r.1.write (gzipTrailer z2.body)
            ({ z2 with sink := t.1, err := t.2 }, t.2)

/-- The method `gzip.Writer.Reset(w)` with the sink the writer already has: a
fresh writer over it. -/
def Writer.reset (z : Writer) : Writer := Writer.new z.sink

/-- The writer operations `BlobsToWriter` runs on. -/
def gzipWriter : GzipWriter Sink Writer :=
  ⟨Writer.new, Writer.write, Writer.close, Writer.reset⟩

/-! ## The library: reading a gzip member -/

/-- Reads a NUL-terminated header string (`readString`): at most 512 bytes, the
size of the scratch buffer. Returns the bytes taken, the rest of the source and
the error. -/
def readString : Nat → List Byte → List Byte → List Byte × List Byte × Option Error
  | 0, acc, s => (acc, s, some Error.ErrHeader)
  | _ + 1, acc, [] => (acc, [], some Error.ErrUnexpectedEOF)
  | n + 1, acc, c :: s =>
    if c = 0 then (acc ++ [0], s, none) else readString n (acc ++ [c]) s

/-- The optional header fields that follow the ten fixed bytes `hdr`: extra
field (flag 4), name (flag 8), comment (flag 16), header CRC (flag 2). A source
that ends inside them gives `io.ErrUnexpectedEOF`. -/
def readHeaderFields (hdr : List Byte) (src : List Byte) : List Byte × Option Error :=
  let flg := hdr.getD 3 0
  let extra : List Byte × List Byte × Option Error :=
    if flg / 4 % 2 = 1 then
      if src.length < 2 then (hdr, [], some Error.ErrUnexpectedEOF)
      else
        let n := src.getD 0 0 + 256 * src.getD 1 0
        if src.length < 2 + n then (hdr, [], some Error.ErrUnexpectedEOF)
        else (hdr ++ src.take (2 + n), src.drop (2 + n), none)
    else (hdr, src, none)
  match extra with
  | (_, s, some e) => (s, some e)
  | (h1, s1, none) =>
    match (if flg / 8 % 2 = 1 then readString 512 h1 s1 else (h1, s1, none)) with
    | (_, s, some e) => (s, some e)
    | (h2, s2, none) =>
      match (if flg / 16 % 2 = 1 then readString 512 h2 s2 else (h2, s2, none)) with
      | (_, s, some e) => (s, some e)
      | (h3, s3, none) =>
        if flg / 2 % 2 = 1 then
          if s3.length < 2 then ([], some Error.ErrUnexpectedEOF)
          else if s3.getD 0 0 + 256 * s3.getD 1 0 ≠ crc32 h3 % 65536 then
            (s3.drop 2, some Error.ErrHeader)
          else (s3.drop 2, none)
        else (s3, none)

/-- The method `readHeader` of `gzip.Reader` on the unread bytes of the source:
the bytes left unread and the error. A source with no byte at all gives `io.EOF`
(a stream is zero or more members); a source that ends inside the ten fixed bytes
gives `io.ErrUnexpectedEOF`; a wrong magic number or method gives `ErrHeader`. -/
def readHeader (src : List Byte) : List Byte × Option Error :=
  if src = [] then ([], some Error.EOF)
  else if src.length < 10 then ([], some Error.ErrUnexpectedEOF)
  else if src.getD 0 0 ≠ 0x1f ∨ src.getD 1 0 ≠ 0x8b ∨ src.getD 2 0 ≠ 8 then
    (src.drop 10, some Error.ErrHeader)
  else readHeaderFields (src.take 10) (src.drop 10)

/-- The size of the window of the decompressor (`maxMatchOffset`). -/
def windowSize : Nat := 32768

/-- The next thing the decompressor does: read a block header, or go on copying
the stored block it is in. -/
inductive FlateStep where
  | nextBlock
  | copyData
  deriving DecidableEq, Repr

/-- The state of a `gzip.Reader`, of its decompressor, and of the `*bufio.Reader`
they read from. `src` is what the source has left; `err` the sticky error of the
gzip reader; `seen` the bytes of the member handed out so far (digest and size).
Of the decompressor: `step`, the final-block flag, the bytes still to copy of the
block, the write position in the window, the bytes written to the window and not
yet handed over (`pend`), the bytes handed over and not yet read (`toRead`), and
its sticky error `ferr`. -/
structure Reader where
  src : List Byte
  err : Option Error
  multistream : Bool
  seen : List Byte
  step : FlateStep
  final : Bool
  copyLen : Nat
  wrPos : Nat
  pend : List Byte
  toRead : List Byte
  ferr : Option Error
  deriving DecidableEq, Repr

/-- The window method `readFlush`: hands over what was written since the last
flush, and wraps the write position when the window is full. -/
def Reader.readFlush (z : Reader) : Reader :=
  { z with toRead := z.pend, pend := [], wrPos := if z.wrPos = windowSize then 0 else z.wrPos }

/-- The decompressor method `finishBlock`: after the final block the rest of the
window is handed over and the error becomes `io.EOF`. -/
def Reader.finishBlock (z : Reader) : Reader :=
  let z1 := if z.final then
      { (if z.pend ≠ [] then z.readFlush else z) with ferr := some Error.EOF }
    else z
  { z1 with step := FlateStep.nextBlock }

/-- The decompressor method `copyData`: copies from the source into the window
as much of the stored block as fits; hands the window over when it is full or the
block is not finished, and finishes the block otherwise. -/
def Reader.copyData (z : Reader) : Reader :=
  let k := min (windowSize - z.wrPos) z.copyLen
  if z.src.length < k then
    { z with pend := z.pend ++ z.src, wrPos := z.wrPos + z.src.length,
             copyLen := z.copyLen - z.src.length, src := [],
             ferr := some Error.ErrUnexpectedEOF }
  else
    let z1 := { z with pend := z.pend ++ z.src.take k, wrPos := z.wrPos + k,
                       copyLen := z.copyLen - k, src := z.src.drop k }
    if z1.wrPos = windowSize ∨ 0 < z1.copyLen then
      { z1.readFlush with step := FlateStep.copyData }
    else z1.finishBlock

/-- The decompressor method `dataBlock`: reads `LEN` and `NLEN` of a stored
block; an empty block hands the window over and is finished at once. -/
def Reader.dataBlock (z : Reader) : Reader :=
  if z.src.length < 4 then { z with src := [], ferr := some Error.ErrUnexpectedEOF }
  else
    let n := z.src.getD 0 0 + 256 * z.src.getD 1 0
    let nn := z.src.getD 2 0 + 256 * z.src.getD 3 0
    let z1 := { z with src := z.src.drop 4 }
    if nn % 65536 ≠ 65535 - n % 65536 then { z1 with ferr := some Error.CorruptInput }
    else if n = 0 then z1.readFlush.finishBlock
    else Reader.copyData { z1 with copyLen := n }

/-- The decompressor method `nextBlock`: one byte holds the final bit and the
block type (the reader is at a byte boundary, as stored blocks end on one). -/
def Reader.nextBlock (z : Reader) : Reader :=
  match z.src with
  | [] => { z with ferr := some Error.ErrUnexpectedEOF }
  | c :: rest =>
    let z1 := { z with src := rest, final := decide (c % 2 = 1) }
    if c / 2 % 4 = 0 then z1.dataBlock
    else if c / 2 % 4 = 3 then { z1 with ferr := some Error.CorruptInput }
    else { z1 with ferr := some Error.huffmanBlock }

/-- One call of `f.step(f)`. -/
def Reader.flateStep (z : Reader) : Reader :=
  match z.step with
  | FlateStep.nextBlock => z.nextBlock
  | FlateStep.copyData => z.copyData

/-- The loop of the decompressor method `Read` up to the point where it has bytes
to hand out or an error: run the step; at an error hand over what the window
still holds. The first argument bounds the number of steps. -/
def Reader.fill : Nat → Reader → Reader
  | 0, z => z
  | fuel + 1, z =>
    if z.toRead ≠ [] ∨ z.ferr ≠ none then z
    else
      let z1 := z.flateStep
      Reader.fill fuel (if z1.ferr ≠ none ∧ z1.toRead = [] then z1.readFlush else z1)

/-- The number of steps after which `fill` has surely stopped: a step takes a byte
from the source, but for one that only leaves a finished block. -/
def Reader.fillFuel (z : Reader) : Nat := 2 * z.src.length + 3

/-- The decompressor method `Read` with room for `k` bytes: hands out the bytes
that are ready, filling first when there are none; the error of the decompressor
comes with the bytes that empty `toRead`, and alone when there is no byte. -/
def Reader.flateRead (z : Reader) (k : Nat) : List Byte × Option Error × Reader :=
  let z1 := Reader.fill z.fillFuel z
  if z1.toRead ≠ [] then
    (z1.toRead.take k, if z1.toRead.drop k = [] then z1.ferr else none,
      { z1 with toRead := z1.toRead.drop k })
  else ([], z1.ferr, z1)

/-- A reader in the state `Reset` leaves it in: multistream mode on, digest and
size zero, the decompressor reset. -/
def Reader.fresh (src : List Byte) (err : Option Error) : Reader :=
  ⟨src, err, true, [], FlateStep.nextBlock, false, 0, 0, [], [], none⟩

/-- The method `gzip.Reader.Reset(rdr)` with the source the reader already has:
the reader starts afresh and reads a member header. -/
def Reader.reset (z : Reader) : Reader × Option Error :=
  let h := readHeader z.src
  (Reader.fresh h.1 h.2, h.2)

/-- The call `gzip.NewReader(rdr)` on a source with the bytes `src`. -/
def Reader.new (src : List Byte) : Reader × Option Error :=
  Reader.reset (Reader.fresh src none)

/-- The loop of `gzip.Reader.Read` (`for n == 0`): reads from the decompressor;
at its `io.EOF` reads the trailer and compares digest and size; then, outside
multistream mode, returns `io.EOF`, and in multistream mode reads the next header
and goes on while it has no byte. The first argument bounds the number of
rounds. -/
def Reader.readLoop : Nat → Reader → Nat → List Byte × Option Error × Reader
  | 0, z, _ => ([], some Error.ErrNoProgress, z)
  | fuel + 1, z, k =>
    let r := z.flateRead k
    let z2 := { r.2.2 with seen := r.2.2.seen ++ r.1, err := r.2.1 }
    if r.2.1 ≠ some Error.EOF then (r.1, r.2.1, z2)
    else if z2.src.length < 8 then
      (r.1, some Error.ErrUnexpectedEOF,
        { z2 with src := [], err := some Error.ErrUnexpectedEOF })
    else if z2.src.take 8 ≠ gzipTrailer z2.seen then
      (r.1, some Error.ErrChecksum,
        { z2 with src := z2.src.drop 8, err := some Error.ErrChecksum })
    else if z2.multistream = false then
      (r.1, some Error.EOF, { z2 with src := z2.src.drop 8, seen := [] })
    else
      let h := readHeader (z2.src.drop 8)
      let z4 := { Reader.fresh h.1 h.2 with multistream := true }
      match h.2 with
      | some e => (r.1, some e, z4)
      | none => if r.1 = [] then Reader.readLoop fuel z4 k else (r.1, none, z4)

/-- The method `gzip.Reader.Read` with room for `k ≥ 1` bytes. A sticky error is
returned as it is. (`ErrNoProgress` stands for a call that would return no byte
and no error.) -/
def Reader.read (z : Reader) (k : Nat) : ReadOut Reader :=
  match z.err with
  | some e => ReadOut.fail e z
  | none =>
    match Reader.readLoop (z.src.length + 1) z k with
    | (b :: bs, e, z1) => ReadOut.bytes b bs e z1
    | ([], some e, z1) => ReadOut.fail e z1
    | ([], none, z1) => ReadOut.fail Error.ErrNoProgress z1

/-- The reader operations `GzipToBlobsLimited` runs on. `Close` of the reader
releases nothing that is modelled. -/
def gzipReader : GzipReader (List Byte) Reader :=
  ⟨Reader.new, fun z b => { z with multistream := b }, Reader.read, Reader.reset, id⟩

end Lib

/-! ## The codec over the library -/

/-- The bytes `BlobsToWriter` leaves in an empty `bytes.Buffer`. -/
def encode (blobs : List Elt) : List Byte :=
  (BlobsToWriter Lib.gzipWriter Lib.Sink.buffer blobs).world.sink.data

/-- Iterating `GzipToBlobsLimited(limit)` over a source holding `src`. A member
takes at least ten bytes, so the bound on the number of members is never met. -/
def decode (limit : Int) (src : List Byte) (yield : Consumer) : DecodeResult Lib.Reader :=
  GzipToBlobsLimited Lib.gzipReader limit (src.length + 1) src yield

/-- The consumer that never stops (`for blob, e := range blobs` with a body that
does not leave the loop). -/
def drain : Consumer := fun _ => true

/-! ## The wire format -/

/-- The data blocks of a body: stored blocks of `maxStoreBlockSize` bytes, the
last one shorter; none for the empty body. The first argument bounds the number
of blocks. -/
def blocksAux : Nat → List Byte → List Byte
  | 0, _ => []
  | fuel + 1, b =>
    if b = [] then []
    else Lib.storedBlock (b.take Lib.maxStoreBlockSize) ++
      blocksAux fuel (b.drop Lib.maxStoreBlockSize)

/-- The data blocks of a body. -/
def blocks (b : List Byte) : List Byte := blocksAux b.length b

/-- The member of a blob: header, data blocks, final empty block, trailer. -/
def member (b : Blob) : List Byte :=
  Lib.gzipHeader ++ (blocks b ++ (Lib.finalBlock ++ Lib.gzipTrailer b))

/-- The stream of a list of blobs: their members, back to back. -/
def stream (bs : List Blob) : List Byte := (bs.map member).flatten

/-- The reader inside a member, outside multistream mode, with no error: `d` are
the bytes handed out so far, `p` the bytes in the window, `t` the bytes handed
over by the decompressor, `c` the bytes left of the stored block. -/
def Lib.Reader.mid (st : Lib.FlateStep) (d p t : List Byte) (c : Nat) (src : List Byte) :
    Lib.Reader :=
  ⟨src, none, false, d, st, false, c, p.length, p, t, none⟩

/-- The reader whose decompressor has met the final block: `t` are the last
bytes, handed over with `io.EOF`. -/
def Lib.Reader.ended (d t : List Byte) (wr : Nat) (src : List Byte) : Lib.Reader :=
  ⟨src, none, false, d, Lib.FlateStep.nextBlock, true, 0, wr, [], t, some Error.EOF⟩

/-- The reader at a point inside the body of a member: the bytes `b` of the body
are still in the source, followed by the final block and `T`; the window is
empty; the decompressor is about to read a block header, or has `c` bytes of a
stored block left. -/
def Lib.Reader.AtBody (d t b T : List Byte) (z : Lib.Reader) : Prop :=
  z = Lib.Reader.mid Lib.FlateStep.nextBlock d [] t 0 (blocks b ++ (Lib.finalBlock ++ T)) ∨
  ∃ c, c ≤ b.length ∧
    z = Lib.Reader.mid Lib.FlateStep.copyData d [] t c
      (b.take c ++ (blocks (b.drop c) ++ (Lib.finalBlock ++ T)))

/-- The part of a member that follows its header. -/
def memberBody (b : Blob) : List Byte :=
  blocks b ++ (Lib.finalBlock ++ Lib.gzipTrailer b)

/-- The elements that end a decoded sequence when reading the next member header
gave the error `e`: none at `io.EOF`, the error otherwise. -/
def closing (e : Error) : List Elt :=
  if e = Error.EOF then [] else [Elt.failed e]

/-- A blob that `GzipToBlobsLimited` with a limit of `n` bytes reads to the end of
its member: it is shorter than the limit, or as long as the limit and not a whole
number of windows of the decompressor. -/
def Fits (n : Nat) (b : Blob) : Prop :=
  b.length < n ∨ (b.length = n ∧ b.length % Lib.windowSize ≠ 0)

instance (n : Nat) (b : Blob) : Decidable (Fits n b) := by
  unfold Fits; infer_instance

/-! ## Decoder: the storage of the buffer

`GzipToBlobsLimited` yields `buf.Bytes()`: a slice of the storage of the one
`bytes.Buffer` the loop reuses. The definitions below are `copyLimited` and
`decodeLoop` again, with that storage made explicit: a heap of backing arrays, the
buffer as a window on one of them, and a yielded blob as a slice. -/

/-- The backing arrays allocated so far; an array is named by its index. -/
abbrev Heap := List (List Byte)

/-- A slice `arr[0:len]` of a backing array (`buf.Bytes()`: the buffer is never
read from, so its contents start at offset 0). -/
structure Slice where
  arr : Nat
  len : Nat
  deriving DecidableEq, Repr

/-- The bytes a slice shows in a heap. -/
def Heap.view (h : Heap) (s : Slice) : List Byte := (h.getD s.arr []).take s.len

/-- A `bytes.Buffer` that is only written to: its backing array (none for the
zero buffer), the capacity and the length of its slice. -/
structure Buffer where
  arr : Option Nat
  cap : Nat
  len : Nat
  deriving DecidableEq, Repr

/-- The declaration `var buf bytes.Buffer`. -/
def Buffer.zero : Buffer := ⟨none, 0, 0⟩

/-- The method `Reset`: the length becomes zero, the storage is kept. -/
def Buffer.reset (b : Buffer) : Buffer := { b with len := 0 }

/-- The call `grow(MinRead)` of `ReadFrom`: nothing happens while 512 bytes are
free; otherwise a new array is allocated, of the capacity asked for (the larger
of `len + 512` and twice the old capacity; the allocator may round it up), and
the contents are copied to it. -/
def Buffer.grow (h : Heap) (b : Buffer) : Heap × Buffer :=
  if 512 ≤ b.cap - b.len then (h, b)
  else
    let c := max (b.len + 512) (2 * b.cap)
    let old := match b.arr with
      | none => []
      | some a => (h.getD a []).take b.len
    (h ++ [old ++ List.replicate (c - b.len) 0], ⟨some h.length, c, b.len⟩)

/-- Storing what a `Read` returned in the free part of the buffer. -/
def Buffer.store (h : Heap) (b : Buffer) (chunk : List Byte) : Heap × Buffer :=
  match b.arr with
  | none => (h, b)
  | some a =>
    (h.set a ((h.getD a []).take b.len ++ chunk ++ (h.getD a []).drop (b.len + chunk.length)),
      { b with len := b.len + chunk.length })

/-- The method `Bytes`: the slice of the contents. -/
def Buffer.bytes (b : Buffer) : Option Slice := b.arr.map fun a => ⟨a, b.len⟩

/-- The call `io.Copy(&buf, &io.LimitedReader{R: zr, N: n})`, that is
`buf.ReadFrom` of the limited reader: every round grows the buffer to 512 free
bytes, then reads into the free part, cut to `n` bytes. -/
def readFromLimited {ω : Type} (rd : ω → Nat → ReadOut ω) :
    Nat → Nat → ω → Heap → Buffer → Heap × Buffer × Option Error × ω
  | 0, _, w, h, b => (h, b, none, w)
  | fuel + 1, n, w, h, b =>
    let g := b.grow h
    if n = 0 then (g.1, g.2, none, w)
    else
      match rd w (min (g.2.cap - g.2.len) n) with
      | ReadOut.fail e w1 =>
        if e = Error.EOF then (g.1, g.2, none, w1) else (g.1, g.2, some e, w1)
      | ReadOut.bytes x xs err w1 =>
        let chunk := (x :: xs).take (min (g.2.cap - g.2.len) n)
        let s := g.2.store g.1 chunk
        match err with
        | some e => if e = Error.EOF then (s.1, s.2, none, w1) else (s.1, s.2, some e, w1)
        | none => readFromLimited rd fuel (n - chunk.length) w1 s.1 s.2

/-- One call of `yield`, with the storage as it is when the callback is entered:
the slice handed over (none: a nil blob), the error, the heap. -/
structure Yield where
  blob : Option Slice
  err : Option Error
  heap : Heap
  deriving DecidableEq, Repr

/-- What a yielded pair shows to the consumer at the time of the call. -/
def Yield.elt (y : Yield) : Elt := ⟨y.blob.map y.heap.view, y.err⟩

/-- The `for` loop of `GzipToBlobsLimited` with the storage of `buf`. -/
def decodeLoopShared {σ ω : Type} (zr : GzipReader σ ω) (limit : Int) (yield : Consumer) :
    Nat → ω → Heap → Buffer → List Yield → List Yield × ω × Bool
  | 0, w, _, _, tr => (tr, w, false)
  | fuel + 1, w, h, b, tr =>
    let w1 := zr.multistream w false
    match readFromLimited zr.read (limit.toNat + 1) limit.toNat w1 h b.reset with
    | (h2, _, some e, w2) => (tr ++ [Yield.mk none (some e) h2], zr.close w2, true)
    | (h2, b2, none, w2) =>
      if yield ((tr ++ [Yield.mk b2.bytes none h2]).map Yield.elt) then
        match zr.reset w2 with
        | (w3, none) =>
          decodeLoopShared zr limit yield fuel w3 h2 b2 (tr ++ [Yield.mk b2.bytes none h2])
        | (w3, some e) =>
          if e = Error.EOF then (tr ++ [Yield.mk b2.bytes none h2], zr.close w3, true)
          else (tr ++ [Yield.mk b2.bytes none h2] ++ [Yield.mk none (some e) h2], zr.close w3, true)
      else (tr ++ [Yield.mk b2.bytes none h2], zr.close w2, true)

/-- The function `GzipToBlobsLimited` with the storage of `buf`, over a source
holding `src`: the calls of `yield`. -/
def decodeShared (limit : Int) (src : List Byte) (yield : Consumer) : List Yield :=
  match Lib.gzipReader.newReader src with
  | (_, some e) => if e = Error.EOF then [] else [Yield.mk none (some e) []]
  | (w, none) =>
    (decodeLoopShared Lib.gzipReader limit yield (src.length + 1) w [] Buffer.zero []).1

/-- The shape of what the loop hands to the consumer: blobs of at most
`limit` bytes with nil errors, then at most one element, which has a nil blob
and an error. -/
def Shape (limit : Int) (tr : List Elt) : Prop :=
  ∃ (oks : List Blob) (last : List Elt),
    tr = oks.map Elt.ok ++ last ∧ (∀ b ∈ oks, b.length ≤ limit.toNat) ∧
    (last = [] ∨ ∃ e, last = [Elt.failed e])

/-- The writer as `BlobsToWriter` holds it after the element `x` was written,
finalized with `Close` and reset with `Reset`. -/
def GzipWriter.finish {σ ω : Type} (gw : GzipWriter σ ω) (w : ω) (x : Elt) : ω :=
  gw.reset (gw.close (gw.write w (x.blob.getD [])).1).1

/-- The element `x`, met with the writer in state `w`, carries no error, and both
the body write and the member finalization succeed. -/
def EltSucceeds {σ ω : Type} (gw : GzipWriter σ ω) (w : ω) (x : Elt) : Prop :=
  x.err = none ∧ (gw.write w (x.blob.getD [])).2 = none ∧
    (gw.close (gw.write w (x.blob.getD [])).1).2 = none

instance {σ ω : Type} (gw : GzipWriter σ ω) (w : ω) (x : Elt) :
    Decidable (EltSucceeds gw w x) := by
  unfold EltSucceeds; infer_instance

/-- Every element of the sequence succeeds, the k-th one with the writer as the
k elements before it left it. -/
def AllSucceed {σ ω : Type} (gw : GzipWriter σ ω) (w : ω) (blobs : List Elt) : Prop :=
  ∀ (k : Nat) (h : k < blobs.length),
    EltSucceeds gw ((blobs.take k).foldl gw.finish w) (blobs.get ⟨k, h⟩)

instance {σ ω : Type} (gw : GzipWriter σ ω) (w : ω) (blobs : List Elt) :
    Decidable (AllSucceed gw w blobs) := by
  unfold AllSucceed; infer_instance

/-- The constant `BlobSizeMaxDefault`. -/
def BlobSizeMaxDefault : Int := 1048576

/-- Reads concatenated gzips as blobs using the default limit (`GzipToBlobs`). -/
def GzipToBlobs {σ ω : Type} (zr : GzipReader σ ω) (fuel : Nat) (rdr : σ)
    (yield : Consumer) : DecodeResult ω :=
  GzipToBlobsLimited zr BlobSizeMaxDefault fuel rdr yield

/-! ## The command `jsonlogs2asn1gzip`: records -/

/-- A Go `string`: its bytes. -/
abbrev GoString := List Byte

/-- A `float64`: its 64 bits (sign, 11 bits of exponent, 52 bits of fraction). -/
abbrev Float64 := Nat

/-- The conversion `int64(s)` of a `float64`: the value with its fraction dropped.
For a value outside the range of `int64`, an infinity or a NaN the language leaves
the result to the implementation; the smallest `int64` is what amd64 gives. -/
def int64OfFloat64 (x : Float64) : Int :=
  let sign := x / 2 ^ 63 % 2
  let e := x / 2 ^ 52 % 2048
  let m := x % 2 ^ 52
  if e = 0 then 0
  else if e = 2047 then -(2 ^ 63 : Int)
  else
    let mag : Nat :=
      if 1075 ≤ e then (2 ^ 52 + m) * 2 ^ (e - 1075) else (2 ^ 52 + m) / 2 ^ (1075 - e)
    let v : Int := if sign = 1 then -(mag : Int) else (mag : Int)
    if -(2 ^ 63 : Int) ≤ v ∧ v < (2 ^ 63 : Int) then v else -(2 ^ 63 : Int)

/-- What `json.Unmarshal` stores in an `any`: nil, `bool`, `float64`, `string`,
`[]any` or `map[string]any`. -/
inductive JVal where
  | null
  | bool (b : Bool)
  | num (x : Float64)
  | str (s : GoString)
  | arr (xs : List JVal)
  | obj (kvs : List (GoString × JVal))

/-- The type `Severity` (`asn1.Enumerated`). -/
abbrev Severity := Int

/-- The constant `SeverityUnspecified`. -/
def SeverityUnspecified : Severity := 0

/-- The constant `SeverityInfo`. -/
def SeverityInfo : Severity := 9

/-- The constant `SeverityError`. -/
def SeverityError : Severity := 17

/-- The function `SeverityStringToEnumFromMap`; the map is given by its lookup
`val, found := m[s]`. -/
def SeverityStringToEnumFromMap (m : GoString → Option Severity) : GoString → Severity :=
  fun s =>
    match m s with
    | some val => val
    | none => SeverityUnspecified

/-- The type `KeyValS`. -/
structure KeyValS where
  Key : GoString
  Val : GoString
  deriving DecidableEq, Repr

/-- The type `KeyValI`. -/
structure KeyValI where
  Key : GoString
  Val : Int
  deriving DecidableEq, Repr

/-- The type `KeyValB`. -/
structure KeyValB where
  Key : GoString
  Val : Bool
  deriving DecidableEq, Repr

/-- The type `Attributes`; a nil slice is the empty list. -/
structure Attributes where
  Strs : List KeyValS
  Ints : List KeyValI
  Bools : List KeyValB
  deriving DecidableEq, Repr

/-- The type `Resource`. -/
structure Resource where
  Strs : List KeyValS
  Ints : List KeyValI
  Bools : List KeyValB
  deriving DecidableEq, Repr

/-- The type `LogItem`. -/
structure LogItem where
  Timestamp : Int
  Severity : Severity
  Message : GoString
  Resource : Resource
  Attributes : Attributes
  deriving DecidableEq, Repr

/-- The zero value of `LogItem` (`var empty LogItem`). -/
def LogItem.zero : LogItem := ⟨0, 0, [], ⟨[], [], []⟩, ⟨[], [], []⟩⟩

/-- The method `LogItem.WithMessage`; `sprintv` is `fmt.Sprintf("%v", msg)`. -/
def LogItem.WithMessage (sprintv : JVal → GoString) (l : LogItem) (msg : JVal) : LogItem :=
  match msg with
  | JVal.str s => { l with Message := s }
  | _ => { l with Message := sprintv msg }

/-- The method `LogItem.WithTime`. -/
def LogItem.WithTime (l : LogItem) (unixtime : Int) : LogItem :=
  { l with Timestamp := unixtime }

/-- The method `LogItem.WithSeverity`. -/
def LogItem.WithSeverity (l : LogItem) (severity : Blobs2Gzip.Severity) : LogItem :=
  { l with Severity := severity }

/-- The type `FlatLog` (`map[string]any`): the nil map, or a map given by its
lookup. -/
def FlatLog : Type := Option (GoString → Option JVal)

/-- The lookup `val, found := f[key]`. -/
def FlatLog.get (f : FlatLog) (key : GoString) : Option JVal :=
  match f with
  | none => none
  | some m => m key

/-- The lookup `f[key]`: nil when the key is absent. -/
def FlatLog.index (f : FlatLog) (key : GoString) : JVal :=
  (f.get key).getD JVal.null

/-- The builtin `clear(buf)`: a nil map stays nil. -/
def FlatLog.clear (f : FlatLog) : FlatLog :=
  match f with
  | none => none
  | some _ => some fun _ => none

/-- The assignment `m[key] = val`. -/
def FlatLog.set (m : GoString → Option JVal) (key : GoString) (val : JVal) :
    GoString → Option JVal :=
  fun k => if k = key then some val else m k

/-- The type `ResourceKeys` (`map[string]struct{}`): the keys, in the order in
which `for key := range r` enumerates them on this run. -/
structure ResourceKeys where
  order : List GoString
  deriving DecidableEq, Repr

/-- The method `ResourceKeys.SetStr`. -/
def ResourceKeys.SetStr (_r : ResourceKeys) (key val : GoString) (i : LogItem) : LogItem :=
  { i with Resource := { i.Resource with Strs := i.Resource.Strs ++ [⟨key, val⟩] } }

/-- The method `ResourceKeys.SetInt`. -/
def ResourceKeys.SetInt (_r : ResourceKeys) (key : GoString) (val : Int) (i : LogItem) :
    LogItem :=
  { i with Resource := { i.Resource with Ints := i.Resource.Ints ++ [⟨key, val⟩] } }

/-- The method `ResourceKeys.SetBool`. -/
def ResourceKeys.SetBool (_r : ResourceKeys) (key : GoString) (val : Bool) (i : LogItem) :
    LogItem :=
  { i with Resource := { i.Resource with Bools := i.Resource.Bools ++ [⟨key, val⟩] } }

/-- The method `ResourceKeys.SetResource`. -/
def ResourceKeys.SetResource (r : ResourceKeys) (f : FlatLog) (i : LogItem) : LogItem :=
  r.order.foldl (fun i key =>
    match f.get key with
    | none => i
    | some (JVal.str s) => r.SetStr key s i
    | some (JVal.num s) => r.SetInt key (int64OfFloat64 s) i
    | some (JVal.bool s) => r.SetBool key s i
    | some _ => i) i

/-- The type `AttributeKeys` (`map[string]struct{}`): the keys, in the order in
which `for key := range a` enumerates them on this run. -/
structure AttributeKeys where
  order : List GoString
  deriving DecidableEq, Repr

/-- The method `AttributeKeys.SetStr`. -/
def AttributeKeys.SetStr (_a : AttributeKeys) (key val : GoString) (i : LogItem) : LogItem :=
  { i with Attributes := { i.Attributes with Strs := i.Attributes.Strs ++ [⟨key, val⟩] } }

/-- The method `AttributeKeys.SetInt`. -/
def AttributeKeys.SetInt (_a : AttributeKeys) (key : GoString) (val : Int) (i : LogItem) :
    LogItem :=
  { i with Attributes := { i.Attributes with Ints := i.Attributes.Ints ++ [⟨key, val⟩] } }

/-- The method `AttributeKeys.SetBool`. -/
def AttributeKeys.SetBool (_a : AttributeKeys) (key : GoString) (val : Bool) (i : LogItem) :
    LogItem :=
  { i with Attributes := { i.Attributes with Bools := i.Attributes.Bools ++ [⟨key, val⟩] } }

/-- The method `AttributeKeys.SetAttrs`. -/
def AttributeKeys.SetAttrs (a : AttributeKeys) (f : FlatLog) (i : LogItem) : LogItem :=
  a.order.foldl (fun i key =>
    match f.get key with
    | none => i
    | some (JVal.str s) => a.SetStr key s i
    | some (JVal.num s) => a.SetInt key (int64OfFloat64 s) i
    | some (JVal.bool s) => a.SetBool key s i
    | some _ => i) i

/-- A `time.Time`, given by what its method `UnixMicro` returns. -/
abbrev Time := Int

/-- The type `LogToTime`. -/
abbrev LogToTime := FlatLog → Time × Option Error

/-- The method `LogToTime.SetTime`. -/
def LogToTime.SetTime (l : LogToTime) (f : FlatLog) (i : LogItem) : LogItem :=
  match l f with
  | (t, none) => i.WithTime t
  | (_, some _) => i

/-- The type `LogToSev`. -/
abbrev LogToSev := FlatLog → Severity

/-- The method `LogToSev.SetSeverity`. -/
def LogToSev.SetSeverity (l : LogToSev) (f : FlatLog) (i : LogItem) : LogItem :=
  i.WithSeverity (l f)

/-- The method `SeverityStringToEnum.LogToSeverity`. -/
def LogToSeverity (c : GoString → Severity) (k : GoString) : LogToSev :=
  fun f =>
    match f.index k with
    | JVal.str s => c s
    | _ => SeverityUnspecified

/-- The method `MessageKey.SetMsg`. -/
def SetMsg (sprintv : JVal → GoString) (m : GoString) (f : FlatLog) (l : LogItem) : LogItem :=
  l.WithMessage sprintv (f.index m)

/-- The type `FlatToAsn1`. -/
structure FlatToAsn1 where
  MessageKey : GoString
  ResourceKeys : ResourceKeys
  AttributeKeys : AttributeKeys
  LogToTime : LogToTime
  LogToSev : LogToSev

/-- The method `FlatToAsn1.Convert`: the five setters in turn, from the zero
item. -/
def FlatToAsn1.Convert (sprintv : JVal → GoString) (c : FlatToAsn1) (f : FlatLog) : LogItem :=
  [LogToTime.SetTime c.LogToTime, LogToSev.SetSeverity c.LogToSev, SetMsg sprintv c.MessageKey,
    c.ResourceKeys.SetResource, c.AttributeKeys.SetAttrs].foldl (fun i fn => fn f i) LogItem.zero

/-- Following the spec: one entry for each enumerated key that `f` holds with a
string value, with that key and value. -/
def copiedStrs (f : FlatLog) (keys : List GoString) : List KeyValS :=
  keys.filterMap fun key =>
    match f.get key with
    | some (JVal.str s) => some ⟨key, s⟩
    | _ => none

/-- Following the spec: one entry for each enumerated key that `f` holds with a
number, with that key and the number converted to a 64-bit integer. -/
def copiedInts (f : FlatLog) (keys : List GoString) : List KeyValI :=
  keys.filterMap fun key =>
    match f.get key with
    | some (JVal.num x) => some ⟨key, int64OfFloat64 x⟩
    | _ => none

/-- Following the spec: one entry for each enumerated key that `f` holds with a
boolean value, with that key and value. -/
def copiedBools (f : FlatLog) (keys : List GoString) : List KeyValB :=
  keys.filterMap fun key =>
    match f.get key with
    | some (JVal.bool b) => some ⟨key, b⟩
    | _ => none

/-- The method `LogItem.ToDerBytes`; `marshal` gives the bytes `asn1.Marshal`
writes for a `LogItem`. The error is nil: every field of a `LogItem` is exported
and is an integer, an enumerated, a boolean, a string tagged `utf8`, or a struct
or slice of these, and `asn1.Marshal` has no error path for such a value. -/
def LogItem.ToDerBytes (marshal : LogItem → Blob) (l : LogItem) :
    Option Blob × Option Error :=
  (some (marshal l), none)

/-! ## The command `jsonlogs2asn1gzip`: sequences -/

/-- A push iterator (`iter.Seq`, and `iter.Seq2` with the pair as element): the
function that calls `yield` on the elements in turn and returns when `yield`
answers false. The state `σ` of the caller is passed through the calls; the body
of a `for ... range` loop is such a `yield`, answering false when it returns. -/
def Iter (α : Type) : Type 1 := (σ : Type) → (σ → α → σ × Bool) → σ → σ

/-- Calls `yield` on the elements of a list in turn, until it answers false. -/
def forEach {α σ : Type} (yield : σ → α → σ × Bool) : σ → List α → σ
  | s, [] => s
  | s, x :: xs =>
    match yield s x with
    | (s1, true) => forEach yield s1 xs
    | (s1, false) => s1

/-- The sequence that yields the elements of a list and stops when told to, as
the iterator over the scanned lines in `StdinToLinesToBlobsToStdout` does. -/
def Iter.ofList {α : Type} (l : List α) : Iter α :=
  fun _ yield s => forEach yield s l

/-- Iterating a sequence with a consumer that answers from the elements it has
received so far: the elements delivered, in order. -/
def Iter.run {α : Type} (seq : Iter α) (yield : List α → Bool) : List α :=
  seq (List α) (fun tr x => (tr ++ [x], yield (tr ++ [x]))) []

/-- The method `LogItems.ToBlobs`. -/
def LogItems.ToBlobs (marshal : LogItem → Blob)
    (l : Iter (LogItem × Option Error)) : Iter Elt :=
  fun _ yield s =>
    l _ (fun s x =>
      match x.2 with
      | some e => ((yield s ⟨none, some e⟩).1, false)
      | none => yield s ⟨(x.1.ToDerBytes marshal).1, (x.1.ToDerBytes marshal).2⟩) s

/-- The method `FlatToAsn1.FlatLogsToItems`. -/
def FlatToAsn1.FlatLogsToItems (sprintv : JVal → GoString) (c : FlatToAsn1)
    (f : Iter (FlatLog × Option Error)) : Iter (LogItem × Option Error) :=
  fun _ yield s =>
    f _ (fun s x =>
      match x.2 with
      | some e => ((yield s (LogItem.zero, some e)).1, false)
      | none => yield s (c.Convert sprintv x.1, none)) s

/-- The function `LinesToFlatLogs`; `unmarshal line buf` is `json.Unmarshal(line,
&buf)`: the map `buf` afterwards, and the error. The loop keeps `buf` from one
line to the next. -/
def LinesToFlatLogs (unmarshal : List Byte → FlatLog → FlatLog × Option Error)
    (lines : Iter (List Byte)) : Iter (FlatLog × Option Error) :=
  fun σ yield s =>
    (lines (σ × FlatLog) (fun sb line =>
      (((yield sb.1 (unmarshal line sb.2.clear)).1, (unmarshal line sb.2.clear).1),
        (yield sb.1 (unmarshal line sb.2.clear)).2)) (s, none)).1

/-- The method `FlatToAsn1.LinesToBlobs`. -/
def FlatToAsn1.LinesToBlobs (sprintv : JVal → GoString)
    (marshal : LogItem → Blob)
    (unmarshal : List Byte → FlatLog → FlatLog × Option Error) (c : FlatToAsn1)
    (lines : Iter (List Byte)) : Iter Elt :=
  LogItems.ToBlobs marshal (c.FlatLogsToItems sprintv (LinesToFlatLogs unmarshal lines))

/-- The text of a JSON value, as the decoder of `encoding/json` scans it. A number
is given by the `float64` that `strconv.ParseFloat` makes of its literal or, when
the literal is out of the range of `float64`, by the `*json.UnmarshalTypeError`
that reports it. -/
inductive JText where
  | null
  | bool (b : Bool)
  | num (x : Float64)
  | bigNum (e : Error)
  | str (s : GoString)
  | arr (xs : List JText)
  | obj (kvs : List (GoString × JText))

mutual
/-- Decoding a JSON value into an `any`: the value stored, and the error the
decoder saves. A number that does not fit `float64` is stored as nil and its error
is saved; the decoder goes on and keeps the first error. -/
def decodeValue : JText → JVal × Option Error
  | JText.null => (JVal.null, none)
  | JText.bool b => (JVal.bool b, none)
  | JText.num x => (JVal.num x, none)
  | JText.bigNum e => (JVal.null, some e)
  | JText.str s => (JVal.str s, none)
  | JText.arr xs => (JVal.arr (decodeElems xs).1, (decodeElems xs).2)
  | JText.obj kvs => (JVal.obj (decodeMembers kvs).1, (decodeMembers kvs).2)
/-- Decoding the elements of an array, in order. -/
def decodeElems : List JText → List JVal × Option Error
  | [] => ([], none)
  | x :: xs => ((decodeValue x).1 :: (decodeElems xs).1, (decodeValue x).2.or (decodeElems xs).2)
/-- Decoding the members of an object, in order. -/
def decodeMembers : List (GoString × JText) → List (GoString × JVal) × Option Error
  | [] => ([], none)
  | (k, v) :: kvs =>
    ((k, (decodeValue v).1) :: (decodeMembers kvs).1, (decodeValue v).2.or (decodeMembers kvs).2)
end

mutual
/-- Every number in the value fits `float64`. -/
def fitsValue : JText → Bool
  | JText.null => true
  | JText.bool _ => true
  | JText.num _ => true
  | JText.bigNum _ => false
  | JText.str _ => true
  | JText.arr xs => fitsElems xs
  | JText.obj kvs => fitsMembers kvs
/-- Every number in the elements fits `float64`. -/
def fitsElems : List JText → Bool
  | [] => true
  | x :: xs => fitsValue x && fitsElems xs
/-- Every number in the members fits `float64`. -/
def fitsMembers : List (GoString × JText) → Bool
  | [] => true
  | (_, v) :: kvs => fitsValue v && fitsMembers kvs
end

/-- What the text of a line is to `json.Unmarshal`: not valid JSON (`e` is the
syntax error), the literal `null`, a JSON object with its members in the order of
the text, or another JSON value (`e` is the `*json.UnmarshalTypeError` for a
target that is a map). -/
inductive Parsed where
  | invalid (e : Error)
  | null
  | object (members : List (GoString × JText))
  | other (e : Error)

/-- The entries of a map; none for the nil map. -/
def FlatLog.entries (f : FlatLog) : GoString → Option JVal :=
  match f with
  | none => fun _ => none
  | some m => m

/-- Stores the members of an object in a map, in order. -/
def storeAll (m : GoString → Option JVal) (kvs : List (GoString × JVal)) :
    GoString → Option JVal :=
  kvs.foldl (fun m kv => FlatLog.set m kv.1 kv.2) m

/-- The call `json.Unmarshal(line, &buf)` of the library, `parse` giving the text
of the line: for text that is not valid JSON, or is a value other than an object
and `null`, the map is left alone and the error returned; `null` sets the map to
nil; for an object a nil map is allocated, a map that is not nil is reused and
keeps its entries, the decoded members are stored in order, and the saved error
is returned. -/
def jsonUnmarshal (parse : List Byte → Parsed) (line : List Byte) (buf : FlatLog) :
    FlatLog × Option Error :=
  match parse line with
  | Parsed.invalid e => (buf, some e)
  | Parsed.null => (none, none)
  | Parsed.object members =>
    (some (storeAll buf.entries (decodeMembers members).1), (decodeMembers members).2)
  | Parsed.other e => (buf, some e)

/-- Following the spec: the record with exactly the keys and values of one JSON
object, a repeated key holding its last value. -/
def objectMap (members : List (GoString × JText)) : FlatLog :=
  some (storeAll (fun _ => none) (members.map fun kv => (kv.1, (decodeValue kv.2).1)))

/-- The line `{"b":1e999,"c":3}`. -/
def lineBigNumber : List Byte :=
  [123, 34, 98, 34, 58, 49, 101, 57, 57, 57, 44, 34, 99, 34, 58, 51, 125]

/-- The members of the object in `lineBigNumber`: `1e999` does not fit `float64`
(the error of the decoder for it is `Error.other 1`), `3` is the `float64` with
the bits `0x4008000000000000`. -/
def membersBigNumber : List (GoString × JText) :=
  [([98], JText.bigNum (Error.other 1)), ([99], JText.num 0x4008000000000000)]

/-- A reading of lines that knows the line `lineBigNumber` and the line `{}`. -/
def parseBigNumber (line : List Byte) : Parsed :=
  if line = lineBigNumber then Parsed.object membersBigNumber
  else if line = [123, 125] then Parsed.object []
  else Parsed.invalid (Error.other 0)

/-- The elements `LinesToFlatLogs` yields for a list of lines when it is never
told to stop, from the buffer `buf`. -/
def yieldedLogs (unmarshal : List Byte → FlatLog → FlatLog × Option Error) :
    FlatLog → List (List Byte) → List (FlatLog × Option Error)
  | _, [] => []
  | buf, line :: rest =>
    unmarshal line buf.clear :: yieldedLogs unmarshal (unmarshal line buf.clear).1 rest

/-- The elements `FlatLogsToItems` yields for a list of records when it is never
told to stop: it returns after the first element that carries an error. -/
def yieldedItems (sprintv : JVal → GoString) (c : FlatToAsn1) :
    List (FlatLog × Option Error) → List (LogItem × Option Error)
  | [] => []
  | (f, none) :: rest => (c.Convert sprintv f, none) :: yieldedItems sprintv c rest
  | (_, some e) :: _ => [(LogItem.zero, some e)]

/-! ## Encoder: what is written -/

theorem blocksAux_congr (f : Nat) : ∀ (g : Nat) (b : List Byte), b.length ≤ f →
    b.length ≤ g → blocksAux f b = blocksAux g b := by
  induction f with
  | zero =>
    intro g b hb _
    have : b = [] := List.length_eq_zero.mp (Nat.le_zero.mp hb)
    subst this
    cases g <;> rfl
  | succ f ih =>
    intro g b hb hg
    cases b with
    | nil => cases g <;> rfl
    | cons x xs =>
      cases g with
      | zero => simp at hg
      | succ g =>
        have h1 : ((x :: xs).drop Lib.maxStoreBlockSize).length ≤ f := by
          simp [Lib.maxStoreBlockSize] at hb ⊢; omega
        have h2 : ((x :: xs).drop Lib.maxStoreBlockSize).length ≤ g := by
          simp [Lib.maxStoreBlockSize] at hg ⊢; omega
        simp only [blocksAux, if_neg (List.cons_ne_nil x xs)]
        rw [ih g _ h1 h2]

theorem blocks_nil : blocks [] = [] := rfl

theorem blocks_of_ne_nil (b : List Byte) (hb : b ≠ []) :
    blocks b = Lib.storedBlock (b.take Lib.maxStoreBlockSize) ++
      blocks (b.drop Lib.maxStoreBlockSize) := by
  cases b with
  | nil => exact absurd rfl hb
  | cons x xs =>
    have h2 : ((x :: xs).drop Lib.maxStoreBlockSize).length ≤ xs.length := by
      simp [Lib.maxStoreBlockSize]
    simp only [blocks, List.length_cons, blocksAux, if_neg (List.cons_ne_nil x xs)]
    rw [blocksAux_congr _ _ _ h2 (le_refl _)]

theorem blocks_of_short (b : List Byte) (hb : b ≠ []) (hl : b.length ≤ Lib.maxStoreBlockSize) :
    blocks b = Lib.storedBlock b := by
  rw [blocks_of_ne_nil b hb, List.take_of_length_le hl, List.drop_of_length_le hl, blocks_nil,
    List.append_nil]

theorem Lib.Sink.write_buffer (s : Lib.Sink) (p : List Byte) (h : s.room = none) :
    s.write p = ({ s with data := s.data ++ p }, none) := by
  simp [Lib.Sink.write, h]

theorem blocks_full_append (w b : List Byte) (hw : w.length = Lib.maxStoreBlockSize) :
    blocks (w ++ b) = Lib.storedBlock w ++ blocks b := by
  have hne : w ++ b ≠ [] := by
    intro h
    have := congrArg List.length h
    simp [hw, Lib.maxStoreBlockSize] at this
  rw [blocks_of_ne_nil _ hne, List.take_left' hw, List.drop_left' hw]

/-- What the compressor does with the bytes of one `Write` when the sink does not
fail: the blocks written out, followed by the blocks of the window, are the
blocks of the old window followed by the new bytes. -/
theorem Lib.Writer.deflate_spec (fuel : Nat) : ∀ (z : Lib.Writer) (b : List Byte),
    b.length ≤ fuel → z.sink.room = none → z.err = none →
    z.window.length ≤ Lib.maxStoreBlockSize →
    (Lib.Writer.deflate fuel z b).err = none ∧
    (Lib.Writer.deflate fuel z b).sink.room = none ∧
    (Lib.Writer.deflate fuel z b).sink.fault = z.sink.fault ∧
    (Lib.Writer.deflate fuel z b).wroteHeader = z.wroteHeader ∧
    (Lib.Writer.deflate fuel z b).closed = z.closed ∧
    (Lib.Writer.deflate fuel z b).body = z.body ∧
    (Lib.Writer.deflate fuel z b).window.length ≤ Lib.maxStoreBlockSize ∧
    (Lib.Writer.deflate fuel z b).sink.data ++ blocks (Lib.Writer.deflate fuel z b).window =
      z.sink.data ++ blocks (z.window ++ b) := by
  induction fuel with
  | zero =>
    intro z b hb hr he hw
    have : b = [] := List.length_eq_zero.mp (Nat.le_zero.mp hb)
    subst this
    simp [Lib.Writer.deflate, he, hw, hr]
  | succ fuel ih =>
    intro z b hb hr he hw
    obtain ⟨sink, wh, cl, win, body, err⟩ := z
    simp only at hr he hw
    subst he
    cases b with
    | nil => simp [Lib.Writer.deflate, hw, hr]
    | cons x xs =>
      by_cases hfull : win.length = Lib.maxStoreBlockSize
      · -- the window is full: it is written out, then filled anew
        have hne : win ≠ [] := by
          intro h; rw [h] at hfull; simp [Lib.maxStoreBlockSize] at hfull
        have hst : (⟨sink, wh, cl, win, body, none⟩ : Lib.Writer).store false = { (⟨sink, wh, cl, win, body, none⟩ : Lib.Writer) with
            sink := { sink with data := sink.data ++ Lib.storedBlock win },
            err := none, window := [] } := by
          simp [Lib.Writer.store, hne, hfull, Lib.Sink.write_buffer _ _ hr]
        have hn : min (Lib.maxStoreBlockSize - 0) (x :: xs).length ≠ 0 := by
          simp [Lib.maxStoreBlockSize]
        simp only [Lib.Writer.deflate, if_neg (List.cons_ne_nil x xs), hst, List.length_nil,
          List.nil_append, Option.isSome_none, Bool.false_eq_true, if_false]
        have hrec := ih { (⟨sink, wh, cl, win, body, none⟩ : Lib.Writer) with
            sink := { sink with data := sink.data ++ Lib.storedBlock win },
            err := none,
            window := (x :: xs).take (min (Lib.maxStoreBlockSize - 0) (x :: xs).length) }
          ((x :: xs).drop (min (Lib.maxStoreBlockSize - 0) (x :: xs).length))
          (by simp only [List.length_drop, List.length_cons] at hb ⊢
              simp only [List.length_cons] at hn; omega)
          hr rfl (by simp [List.length_take])
        obtain ⟨h1, h2, h3, h4, h5, h6, h7, h8⟩ := hrec
        refine ⟨h1, h2, h3, h4, h5, h6, h7, ?_⟩
        rw [h8, List.take_append_drop, blocks_full_append _ _ hfull, List.append_assoc]
      · -- the window has room
        have hst : (⟨sink, wh, cl, win, body, none⟩ : Lib.Writer).store false = ⟨sink, wh, cl, win, body, none⟩ := by
          simp [Lib.Writer.store, hfull]
        have hlt : win.length < Lib.maxStoreBlockSize := lt_of_le_of_ne hw hfull
        have hn : min (Lib.maxStoreBlockSize - win.length) (x :: xs).length ≠ 0 := by
          simp only [List.length_cons]; omega
        simp only [Lib.Writer.deflate, if_neg (List.cons_ne_nil x xs), hst,
          Option.isSome_none, Bool.false_eq_true, if_false]
        have hrec := ih { (⟨sink, wh, cl, win, body, none⟩ : Lib.Writer) with
            window := win ++
              (x :: xs).take (min (Lib.maxStoreBlockSize - win.length) (x :: xs).length) }
          ((x :: xs).drop (min (Lib.maxStoreBlockSize - win.length) (x :: xs).length))
          (by simp only [List.length_drop, List.length_cons] at hb ⊢
              simp only [List.length_cons] at hn; omega)
          hr rfl (by simp only [List.length_append, List.length_take]; omega)
        obtain ⟨h1, h2, h3, h4, h5, h6, h7, h8⟩ := hrec
        refine ⟨h1, h2, h3, h4, h5, h6, h7, ?_⟩
        rw [h8, List.append_assoc win, List.take_append_drop]

/-- Closing a writer whose header is out, over a sink that does not fail: the
window goes out as a block, then the final block and the trailer. -/
theorem Lib.Writer.close_spec (z : Lib.Writer) (he : z.err = none) (hc : z.closed = false)
    (hh : z.wroteHeader = true) (hr : z.sink.room = none)
    (hw : z.window.length ≤ Lib.maxStoreBlockSize) :
    z.close.2 = none ∧
    z.close.1.sink = { z.sink with data :=
      z.sink.data ++ (blocks z.window ++ (Lib.finalBlock ++ Lib.gzipTrailer z.body)) } := by
  obtain ⟨sink, wh, cl, win, body, err⟩ := z
  simp only at he hc hh hr hw
  subst he hc hh
  by_cases hwin : win = []
  · subst hwin
    simp [Lib.Writer.close, Lib.Writer.store, Lib.Sink.write_buffer, hr, blocks_nil]
  · simp [Lib.Writer.close, Lib.Writer.store, Lib.Sink.write_buffer, hr, hwin,
      blocks_of_short win hwin hw]

/-- One blob through `gw.Write`, `gw.Close` on a fresh writer over a sink that
does not fail: both return nil and the sink gains the member of the blob. -/
theorem Lib.Writer.member_written (s : Lib.Sink) (b : Blob) (hr : s.room = none) :
    ((Lib.Writer.new s).write b).2 = none ∧
    ((Lib.Writer.new s).write b).1.close.2 = none ∧
    ((Lib.Writer.new s).write b).1.close.1.sink = { s with data := s.data ++ member b } := by
  have hd := Lib.Writer.deflate_spec b.length
    ⟨{ s with data := s.data ++ Lib.gzipHeader }, true, false, [], b, none⟩ b (le_refl _) hr rfl
    (by simp)
  obtain ⟨h1, h2, h3, h4, h5, h6, h7, h8⟩ := hd
  have hwr : (Lib.Writer.new s).write b =
      (Lib.Writer.deflate b.length
        ⟨{ s with data := s.data ++ Lib.gzipHeader }, true, false, [], b, none⟩ b, none) := by
    simp [Lib.Writer.write, Lib.Writer.new, Lib.Sink.write_buffer _ _ hr, h1]
  have hcl := Lib.Writer.close_spec _ h1 h5 h4 h2 h7
  rw [hwr]
  refine ⟨rfl, hcl.1, ?_⟩
  rw [hcl.2]
  simp only at h8 h6 h3 h2
  have hs : ∀ (x : Lib.Sink) (d : List Byte), x.room = none → x.fault = s.fault →
      ({ x with data := d } : Lib.Sink) = { s with data := d } := by
    intro x d hx hf
    cases x; cases s
    simp_all
  rw [hs _ _ h2 h3, h6, member]
  simp only [List.nil_append] at h8
  rw [← List.append_assoc, h8, List.append_assoc, List.append_assoc]

theorem stream_nil : stream [] = [] := rfl

theorem stream_cons (b : Blob) (bs : List Blob) : stream (b :: bs) = member b ++ stream bs := by
  simp [stream]

/-- The loop of `BlobsToWriter` over blobs without errors, on a sink that does not
fail: every blob is written as its member, and the loop goes on with what
follows. -/
theorem encodeLoop_oks (bs : List Blob) : ∀ (s : Lib.Sink) (rest : List Elt), s.room = none →
    encodeLoop Lib.gzipWriter (Lib.Writer.new s) (bs.map Elt.ok ++ rest) =
      ⟨(encodeLoop Lib.gzipWriter
          (Lib.Writer.new { s with data := s.data ++ stream bs }) rest).err,
       (encodeLoop Lib.gzipWriter
          (Lib.Writer.new { s with data := s.data ++ stream bs }) rest).world,
       (encodeLoop Lib.gzipWriter
          (Lib.Writer.new { s with data := s.data ++ stream bs }) rest).consumed + bs.length⟩ := by
  induction bs with
  | nil => intro s rest _; simp [stream_nil]
  | cons b bs ih =>
    intro s rest hr
    obtain ⟨h1, h2, h3⟩ := Lib.Writer.member_written s b hr
    have hw : Lib.gzipWriter.write (Lib.Writer.new s) b =
        (((Lib.Writer.new s).write b).1, none) := by
      show (Lib.Writer.new s).write b = _
      rw [← h1]
    have hc : Lib.gzipWriter.close ((Lib.Writer.new s).write b).1 =
        (((Lib.Writer.new s).write b).1.close.1, none) := by
      show ((Lib.Writer.new s).write b).1.close = _
      rw [← h2]
    have hrs : Lib.gzipWriter.reset ((Lib.Writer.new s).write b).1.close.1 =
        Lib.Writer.new { s with data := s.data ++ member b } := by
      show Lib.Writer.reset _ = _
      rw [Lib.Writer.reset, h3]
    simp only [List.map_cons, List.cons_append, encodeLoop, Elt.ok, Option.getD_some, hw, hc, hrs,
      List.append_eq]
    have ih2 := ih { s with data := s.data ++ member b } rest hr
    simp only [Elt.ok] at ih2
    rw [ih2]
    simp only [stream_cons, List.append_assoc, List.length_cons, EncodeResult.mk.injEq,
      true_and]
    omega

/-- The bytes written for blobs without errors are their stream, the result is
nil and every element is pulled. -/
theorem BlobsToWriter_oks (bs : List Blob) :
    (BlobsToWriter Lib.gzipWriter Lib.Sink.buffer (bs.map Elt.ok)).err = none ∧
    encode (bs.map Elt.ok) = stream bs ∧
    (BlobsToWriter Lib.gzipWriter Lib.Sink.buffer (bs.map Elt.ok)).consumed = bs.length := by
  have h := encodeLoop_oks bs Lib.Sink.buffer [] rfl
  simp only [List.append_nil] at h
  have hn : Lib.gzipWriter.newWriter Lib.Sink.buffer = Lib.Writer.new Lib.Sink.buffer := rfl
  simp only [encode, BlobsToWriter, hn, h]
  simp [encodeLoop, Lib.Writer.new, Lib.Sink.buffer]

/-! ## Decoder: reading a member -/

theorem Lib.Reader.copyData_flush (st : Lib.FlateStep) (d p : List Byte) (c : Nat)
    (src : List Byte) (hp : p.length < Lib.windowSize) (hc : Lib.windowSize ≤ p.length + c)
    (hs : Lib.windowSize - p.length ≤ src.length) :
    (Lib.Reader.mid st d p [] c src).copyData =
      Lib.Reader.mid Lib.FlateStep.copyData d [] (p ++ src.take (Lib.windowSize - p.length))
        (c - (Lib.windowSize - p.length)) (src.drop (Lib.windowSize - p.length)) := by
  have hk : min (Lib.windowSize - p.length) c = Lib.windowSize - p.length := by omega
  have hw : p.length + (Lib.windowSize - p.length) = Lib.windowSize := by omega
  simp [Lib.Reader.copyData, Lib.Reader.mid, Lib.Reader.readFlush, hk, hw, Nat.not_lt.mpr hs]

theorem Lib.Reader.copyData_finish (st : Lib.FlateStep) (d p : List Byte) (c : Nat)
    (src : List Byte) (hc : p.length + c < Lib.windowSize) (hs : c ≤ src.length) :
    (Lib.Reader.mid st d p [] c src).copyData =
      Lib.Reader.mid Lib.FlateStep.nextBlock d (p ++ src.take c) [] 0 (src.drop c) := by
  have hk : min (Lib.windowSize - p.length) c = c := by omega
  have hw : ¬ p.length + c = Lib.windowSize := by omega
  simp [Lib.Reader.copyData, Lib.Reader.mid, Lib.Reader.finishBlock, hk, hw, Nat.not_lt.mpr hs,
    List.length_take, Nat.min_eq_left hs]

theorem len_bytes (n : Nat) (_h : n ≤ 65535) : n % 256 + 256 * (n / 256) = n := by omega

theorem nlen_bytes (n : Nat) (h : n ≤ 65535) :
    ((65535 - n) % 256 + 256 * ((65535 - n) / 256)) % 65536 = 65535 - n % 65536 := by omega

theorem Lib.Reader.nextBlock_stored (d p chunk S : List Byte) (h0 : chunk ≠ [])
    (hl : chunk.length ≤ Lib.maxStoreBlockSize) :
    (Lib.Reader.mid Lib.FlateStep.nextBlock d p [] 0 (Lib.storedBlock chunk ++ S)).nextBlock =
      (Lib.Reader.mid Lib.FlateStep.nextBlock d p [] chunk.length (chunk ++ S)).copyData := by
  have hpos : chunk.length ≠ 0 := fun h => h0 (List.length_eq_zero.mp h)
  have e1 := len_bytes _ hl
  have e2 := nlen_bytes _ hl
  simp only [Lib.storedBlock, Lib.Reader.mid, Lib.Reader.nextBlock, List.cons_append,
    List.nil_append, Lib.Reader.dataBlock, List.length_cons, List.getD_cons_zero,
    List.getD_cons_succ, List.drop_succ_cons, List.drop_zero, e1, e2]
  have h4 : ¬ ((chunk ++ S).length + 1 + 1 + 1 + 1 < 4) := by omega
  have hd : decide (0 % 2 = 1) = false := rfl
  rw [if_pos trivial, if_neg h4, if_neg (fun h => h rfl), if_neg hpos, hd]

theorem Lib.Reader.nextBlock_final (d p T : List Byte) (hp : p.length < Lib.windowSize) :
    (Lib.Reader.mid Lib.FlateStep.nextBlock d p [] 0 (Lib.finalBlock ++ T)).nextBlock =
      Lib.Reader.ended d p p.length T := by
  have hw : ¬ p.length = Lib.windowSize := Nat.ne_of_lt hp
  simp only [Lib.finalBlock, Lib.Reader.mid, Lib.Reader.nextBlock, Lib.Reader.dataBlock, List.cons_append, List.nil_append, List.length_cons, List.getD_cons_zero,
    List.getD_cons_succ, List.drop_succ_cons, List.drop_zero]
  have h4 : ¬ (T.length + 1 + 1 + 1 + 1 < 4) := by omega
  have hn : ¬ ((255 + 256 * 255) % 65536 ≠ 65535 - (0 + 256 * 0) % 65536) := by norm_num
  rw [if_pos trivial, if_neg h4, if_neg hn, if_pos trivial]
  simp only [Lib.Reader.readFlush, Lib.Reader.finishBlock, Lib.Reader.ended, if_neg hw, decide_True, if_true, ne_eq, not_true_eq_false, if_false]
theorem Lib.Reader.fill_done (fuel : Nat) (z : Lib.Reader)
    (h : z.toRead ≠ [] ∨ z.ferr ≠ none) : Lib.Reader.fill fuel z = z := by
  cases fuel with
  | zero => rfl
  | succ f => simp only [Lib.Reader.fill, if_pos h]

/-- Filling at the final block: the window is handed over with `io.EOF`. -/
theorem Lib.Reader.fill_final (fuel : Nat) (d p T : List Byte) (hp : p.length < Lib.windowSize) :
    Lib.Reader.fill (fuel + 1)
        (Lib.Reader.mid Lib.FlateStep.nextBlock d p [] 0 (Lib.finalBlock ++ T)) =
      Lib.Reader.ended d p p.length T := by
  have hs : (Lib.Reader.mid Lib.FlateStep.nextBlock d p [] 0 (Lib.finalBlock ++ T)).flateStep =
      Lib.Reader.ended d p p.length T := by
    rw [← Lib.Reader.nextBlock_final d p T hp]; rfl
  have hw : ¬ p.length = Lib.windowSize := Nat.ne_of_lt hp
  have hf : (Lib.Reader.ended d p p.length T).readFlush = Lib.Reader.ended d [] p.length T := by
    simp [Lib.Reader.readFlush, Lib.Reader.ended, hw]
  simp only [Lib.Reader.fill, hs]
  by_cases hpn : p = []
  · subst hpn
    rw [if_neg (by simp [Lib.Reader.mid]), if_pos (by simp [Lib.Reader.ended]), hf]
    exact Lib.Reader.fill_done _ _ (Or.inr (by simp [Lib.Reader.ended]))
  · rw [if_neg (by simp [Lib.Reader.mid]), if_neg (by simp [Lib.Reader.ended, hpn])]
    exact Lib.Reader.fill_done _ _ (Or.inr (by simp [Lib.Reader.ended]))

theorem Lib.Reader.fill_step (fuel : Nat) (z : Lib.Reader) (h1 : z.toRead = [])
    (h2 : z.ferr = none) (h3 : z.flateStep.ferr = none) :
    Lib.Reader.fill (fuel + 1) z = Lib.Reader.fill fuel z.flateStep := by
  simp [Lib.Reader.fill, h1, h2, h3]

/-- Filling at a block header with `p` in the window: when window and body
together stay below the window size, all of it is handed over with `io.EOF`;
otherwise a full window is handed over and the reader is inside the body. -/
theorem Lib.Reader.fill_header (fuel : Nat) (d p b T : List Byte)
    (hp : p.length < Lib.windowSize) :
    (p.length + b.length < Lib.windowSize →
      Lib.Reader.fill (fuel + 2)
          (Lib.Reader.mid Lib.FlateStep.nextBlock d p [] 0 (blocks b ++ (Lib.finalBlock ++ T))) =
        Lib.Reader.ended d (p ++ b) (p.length + b.length) T) ∧
    (Lib.windowSize ≤ p.length + b.length →
      Lib.Reader.AtBody d (p ++ b.take (Lib.windowSize - p.length))
        (b.drop (Lib.windowSize - p.length)) T
        (Lib.Reader.fill (fuel + 2)
          (Lib.Reader.mid Lib.FlateStep.nextBlock d p [] 0
            (blocks b ++ (Lib.finalBlock ++ T))))) := by
  have hW : Lib.windowSize = 32768 := rfl
  have hM : Lib.maxStoreBlockSize = 65535 := rfl
  by_cases hb : b = []
  · subst hb
    refine ⟨fun _ => ?_, fun h => ?_⟩
    · rw [blocks_nil, List.nil_append, Lib.Reader.fill_final _ _ _ _ hp]
      simp
    · simp only [List.length_nil] at h; omega
  · -- the first block holds `chunk`
    have hstep : ∀ (chunk R : List Byte), chunk ≠ [] → chunk.length ≤ Lib.maxStoreBlockSize →
        (Lib.Reader.mid Lib.FlateStep.nextBlock d p [] 0 (Lib.storedBlock chunk ++ R)).flateStep =
          (Lib.Reader.mid Lib.FlateStep.nextBlock d p [] chunk.length (chunk ++ R)).copyData := by
      intro chunk R h0 hl
      rw [← Lib.Reader.nextBlock_stored d p chunk R h0 hl]; rfl
    have hflush : ∀ (chunk R : List Byte), chunk ≠ [] → chunk.length ≤ Lib.maxStoreBlockSize →
        Lib.windowSize ≤ p.length + chunk.length →
        Lib.Reader.fill (fuel + 2)
            (Lib.Reader.mid Lib.FlateStep.nextBlock d p [] 0 (Lib.storedBlock chunk ++ R)) =
          Lib.Reader.mid Lib.FlateStep.copyData d []
            (p ++ chunk.take (Lib.windowSize - p.length))
            (chunk.length - (Lib.windowSize - p.length))
            (chunk.drop (Lib.windowSize - p.length) ++ R) := by
      intro chunk R h0 hl hc
      have hk : Lib.windowSize - p.length ≤ chunk.length := by omega
      have hcd := Lib.Reader.copyData_flush Lib.FlateStep.nextBlock d p chunk.length (chunk ++ R)
        hp hc (by rw [List.length_append]; omega)
      rw [List.take_append_of_le_length hk, List.drop_append_of_le_length hk] at hcd
      rw [Lib.Reader.fill_step _ _ rfl rfl (by rw [hstep chunk R h0 hl, hcd]; rfl),
        hstep chunk R h0 hl, hcd]
      apply Lib.Reader.fill_done
      left
      show p ++ chunk.take (Lib.windowSize - p.length) ≠ []
      intro h
      have := congrArg List.length h
      simp only [List.length_append, List.length_take, List.length_nil] at this
      omega
    by_cases hshort : b.length ≤ Lib.maxStoreBlockSize
    · rw [blocks_of_short b hb hshort]
      refine ⟨fun h => ?_, fun h => ?_⟩
      · have hcd := Lib.Reader.copyData_finish Lib.FlateStep.nextBlock d p b.length
          (b ++ (Lib.finalBlock ++ T)) h (by rw [List.length_append]; omega)
        rw [List.take_left, List.drop_left] at hcd
        rw [Lib.Reader.fill_step _ _ rfl rfl (by rw [hstep b _ hb hshort, hcd]; rfl),
          hstep b _ hb hshort, hcd,
          Lib.Reader.fill_final _ _ _ _ (by rw [List.length_append]; omega), List.length_append]
      · rw [hflush b _ hb hshort h]
        right
        refine ⟨b.length - (Lib.windowSize - p.length), by rw [List.length_drop], ?_⟩
        have e1 : (b.drop (Lib.windowSize - p.length)).take
            (b.length - (Lib.windowSize - p.length)) = b.drop (Lib.windowSize - p.length) :=
          List.take_of_length_le (by rw [List.length_drop])
        have e2 : (b.drop (Lib.windowSize - p.length)).drop
            (b.length - (Lib.windowSize - p.length)) = [] :=
          List.drop_of_length_le (by rw [List.length_drop])
        rw [e1, e2, blocks_nil, List.nil_append]
    · have hlong : Lib.maxStoreBlockSize < b.length := Nat.lt_of_not_le hshort
      have hcl : (b.take Lib.maxStoreBlockSize).length = Lib.maxStoreBlockSize := by
        rw [List.length_take]; omega
      have hcn : b.take Lib.maxStoreBlockSize ≠ [] := by
        intro h; rw [h] at hcl; simp only [List.length_nil] at hcl; omega
      rw [blocks_of_ne_nil b hb, List.append_assoc]
      refine ⟨fun h => by omega, fun _ => ?_⟩
      rw [hflush _ _ hcn (le_of_eq hcl) (by omega), hcl]
      right
      refine ⟨Lib.maxStoreBlockSize - (Lib.windowSize - p.length),
        by rw [List.length_drop]; omega, ?_⟩
      have e1 : (b.take Lib.maxStoreBlockSize).take (Lib.windowSize - p.length) =
          b.take (Lib.windowSize - p.length) := by
        rw [List.take_take, Nat.min_eq_left (by omega)]
      have e2 : (b.drop (Lib.windowSize - p.length)).drop
          (Lib.maxStoreBlockSize - (Lib.windowSize - p.length)) = b.drop Lib.maxStoreBlockSize := by
        rw [List.drop_drop]; congr 1; omega
      rw [e1, e2, List.drop_take]

/-- Filling inside the body of a member, with an empty window: a body shorter
than the window is handed over whole with `io.EOF`; of a longer one the first
window is handed over, and the reader is again inside the body. -/
theorem Lib.Reader.fill_body (fuel : Nat) (d b T : List Byte) (z : Lib.Reader)
    (hz : Lib.Reader.AtBody d [] b T z) :
    (b.length < Lib.windowSize →
      Lib.Reader.fill (fuel + 3) z = Lib.Reader.ended d b b.length T) ∧
    (Lib.windowSize ≤ b.length →
      Lib.Reader.AtBody d (b.take Lib.windowSize) (b.drop Lib.windowSize) T
        (Lib.Reader.fill (fuel + 3) z)) := by
  have hW : Lib.windowSize = 32768 := rfl
  rcases hz with hz | ⟨c, hc, hz⟩
  · subst hz
    have h := Lib.Reader.fill_header (fuel + 1) d [] b T (by simp [hW])
    simpa using h
  · subst hz
    have hl : (b.take c).length = c := by rw [List.length_take]; omega
    by_cases hcw : Lib.windowSize ≤ c
    · have hcd := Lib.Reader.copyData_flush Lib.FlateStep.copyData d [] c
        (b.take c ++ (blocks (b.drop c) ++ (Lib.finalBlock ++ T))) (by simp [hW])
        (by simpa using hcw) (by simp only [List.length_nil, List.length_append, hl]; omega)
      simp only [List.length_nil, Nat.sub_zero, List.nil_append] at hcd
      rw [List.take_append_of_le_length (by omega), List.drop_append_of_le_length (by omega),
        List.take_take, Nat.min_eq_left hcw, List.drop_take] at hcd
      have hfill : Lib.Reader.fill (fuel + 3)
          (Lib.Reader.mid Lib.FlateStep.copyData d [] [] c
            (b.take c ++ (blocks (b.drop c) ++ (Lib.finalBlock ++ T)))) =
          Lib.Reader.mid Lib.FlateStep.copyData d [] (b.take Lib.windowSize)
            (c - Lib.windowSize)
            ((b.drop Lib.windowSize).take (c - Lib.windowSize) ++
              (blocks (b.drop c) ++ (Lib.finalBlock ++ T))) := by
        rw [Lib.Reader.fill_step _ _ rfl rfl (by
          show (Lib.Reader.copyData _).ferr = none
          rw [hcd]; rfl)]
        show Lib.Reader.fill (fuel + 2) (Lib.Reader.copyData _) = _
        rw [hcd]
        exact Lib.Reader.fill_done _ _ (Or.inl (by
          show b.take Lib.windowSize ≠ []
          intro h
          have := congrArg List.length h
          simp only [List.length_take, List.length_nil] at this
          omega))
      refine ⟨fun h => by omega, fun _ => ?_⟩
      rw [hfill]
      right
      refine ⟨c - Lib.windowSize, by rw [List.length_drop]; omega, ?_⟩
      have e2 : (b.drop Lib.windowSize).drop (c - Lib.windowSize) = b.drop c := by
        rw [List.drop_drop, Nat.add_sub_cancel' hcw]
      rw [e2]
    · have hcw2 : c < Lib.windowSize := Nat.lt_of_not_le hcw
      have hcd := Lib.Reader.copyData_finish Lib.FlateStep.copyData d [] c
        (b.take c ++ (blocks (b.drop c) ++ (Lib.finalBlock ++ T)))
        (by simpa using hcw2) (by simp only [List.length_append, hl]; omega)
      simp only [List.nil_append] at hcd
      rw [List.take_left' hl, List.drop_left' hl] at hcd
      have hfill : Lib.Reader.fill (fuel + 3)
          (Lib.Reader.mid Lib.FlateStep.copyData d [] [] c
            (b.take c ++ (blocks (b.drop c) ++ (Lib.finalBlock ++ T)))) =
          Lib.Reader.fill (fuel + 2)
            (Lib.Reader.mid Lib.FlateStep.nextBlock d (b.take c) [] 0
              (blocks (b.drop c) ++ (Lib.finalBlock ++ T))) := by
        rw [Lib.Reader.fill_step _ _ rfl rfl (by
          show (Lib.Reader.copyData _).ferr = none
          rw [hcd]; rfl)]
        show Lib.Reader.fill (fuel + 2) (Lib.Reader.copyData _) = _
        rw [hcd]
      have h := Lib.Reader.fill_header fuel d (b.take c) (b.drop c) T (by rw [hl]; exact hcw2)
      rw [hl, List.take_append_drop, List.length_drop] at h
      rw [hfill]
      refine ⟨fun hs => ?_, fun hb => ?_⟩
      · have := h.1 (by omega)
        rw [this, Nat.add_sub_cancel' hc]
      · have := h.2 (by omega)
        have e1 : b.take c ++ (b.drop c).take (Lib.windowSize - c) = b.take Lib.windowSize := by
          rw [← List.take_add, Nat.add_sub_cancel' (Nat.le_of_lt hcw2)]
        have e2 : (b.drop c).drop (Lib.windowSize - c) = b.drop Lib.windowSize := by
          rw [List.drop_drop, Nat.add_sub_cancel' (Nat.le_of_lt hcw2)]
        rw [e1, e2] at this
        exact this

theorem Lib.gzipTrailer_length (body : List Byte) : (Lib.gzipTrailer body).length = 8 := by
  simp [Lib.gzipTrailer, Lib.le32]

/-- A `Read` that finds the decompressor at the end of the member with no byte
left: the trailer is checked and `io.EOF` returned. -/
theorem Lib.Reader.read_ended_nil (z : Lib.Reader) (k wr : Nat) (d rest : List Byte)
    (hz : z.err = none)
    (hf : Lib.Reader.fill z.fillFuel z =
      Lib.Reader.ended d [] wr (Lib.gzipTrailer d ++ rest)) :
    ∃ z1, z.read k = ReadOut.fail Error.EOF z1 ∧ z1.src = rest := by
  have h8 := Lib.gzipTrailer_length d
  have ht : (Lib.gzipTrailer d ++ rest).take 8 = Lib.gzipTrailer d := List.take_left' h8
  have hd : (Lib.gzipTrailer d ++ rest).drop 8 = rest := List.drop_left' h8
  have hl : ¬ (Lib.gzipTrailer d ++ rest).length < 8 := by
    rw [List.length_append, h8]; omega
  simp only [Lib.Reader.read, hz, Lib.Reader.readLoop, Lib.Reader.flateRead, hf]
  simp only [Lib.Reader.ended, ne_eq, not_true_eq_false, if_false, List.append_nil, hl, ht, hd]
  exact ⟨_, rfl, rfl⟩

/-- A `Read` with room for all the bytes the decompressor hands over at the end
of the member: they come with `io.EOF`, after the trailer is checked. -/
theorem Lib.Reader.read_ended_all (z : Lib.Reader) (k wr : Nat) (d rest : List Byte)
    (x : Byte) (xs : List Byte) (hz : z.err = none) (hk : (x :: xs).length ≤ k)
    (hf : Lib.Reader.fill z.fillFuel z =
      Lib.Reader.ended d (x :: xs) wr (Lib.gzipTrailer (d ++ x :: xs) ++ rest)) :
    ∃ z1, z.read k = ReadOut.bytes x xs (some Error.EOF) z1 ∧ z1.src = rest := by
  have h8 := Lib.gzipTrailer_length (d ++ x :: xs)
  have ht : (Lib.gzipTrailer (d ++ x :: xs) ++ rest).take 8 = Lib.gzipTrailer (d ++ x :: xs) :=
    List.take_left' h8
  have hd : (Lib.gzipTrailer (d ++ x :: xs) ++ rest).drop 8 = rest := List.drop_left' h8
  have hl : ¬ (Lib.gzipTrailer (d ++ x :: xs) ++ rest).length < 8 := by
    rw [List.length_append, h8]; omega
  have htk : (x :: xs).take k = x :: xs := List.take_of_length_le hk
  have hdk : (x :: xs).drop k = [] := List.drop_of_length_le hk
  simp only [Lib.Reader.read, hz, Lib.Reader.readLoop, Lib.Reader.flateRead, hf]
  simp only [Lib.Reader.ended, ne_eq, List.cons_ne_nil, not_false_eq_true, if_true, htk, hdk,
    not_true_eq_false, if_false, hl, ht, hd]
  exact ⟨_, rfl, rfl⟩

theorem take_eq_cons (k : Nat) (t : List Byte) (hk : 1 ≤ k) (ht : t ≠ []) :
    ∃ x xs, t.take k = x :: xs := by
  cases t with
  | nil => exact absurd rfl ht
  | cons x xs =>
    cases k with
    | zero => omega
    | succ k => exact ⟨x, xs.take k, rfl⟩

/-- A `Read` with room for only a part of the last bytes of the member: no error
yet, and the trailer stays unread. -/
theorem Lib.Reader.read_ended_some (z : Lib.Reader) (k wr : Nat) (d t T : List Byte)
    (hz : z.err = none) (hk : 1 ≤ k) (hkt : k < t.length)
    (hf : Lib.Reader.fill z.fillFuel z = Lib.Reader.ended d t wr T) :
    ∃ x xs z1, t.take k = x :: xs ∧ z.read k = ReadOut.bytes x xs none z1 ∧ z1.src = T := by
  have htn : t ≠ [] := by
    intro h; rw [h] at hkt; simp at hkt
  have hdn : t.drop k ≠ [] := by
    intro h
    have := congrArg List.length h
    simp only [List.length_drop, List.length_nil] at this
    omega
  obtain ⟨x, xs, hx⟩ := take_eq_cons k t hk htn
  refine ⟨x, xs, ?_⟩
  simp only [Lib.Reader.read, hz, Lib.Reader.readLoop, Lib.Reader.flateRead, hf]
  simp only [Lib.Reader.ended, ne_eq, htn, not_false_eq_true, if_true, hdn, if_false, hx,
    reduceCtorEq]
  exact ⟨_, trivial, rfl, rfl⟩

/-- A `Read` that finds a window handed over inside the body: bytes and no
error. -/
theorem Lib.Reader.read_mid (z : Lib.Reader) (k c : Nat) (st : Lib.FlateStep)
    (d t src : List Byte) (hz : z.err = none) (hk : 1 ≤ k) (ht : t ≠ [])
    (hf : Lib.Reader.fill z.fillFuel z = Lib.Reader.mid st d [] t c src) :
    ∃ x xs, t.take k = x :: xs ∧
      z.read k = ReadOut.bytes x xs none
        (Lib.Reader.mid st (d ++ t.take k) [] (t.drop k) c src) := by
  obtain ⟨x, xs, hx⟩ := take_eq_cons k t hk ht
  refine ⟨x, xs, hx, ?_⟩
  simp only [Lib.Reader.read, hz, Lib.Reader.readLoop, Lib.Reader.flateRead, hf]
  simp only [Lib.Reader.mid, ne_eq, ht, not_false_eq_true, if_true, ite_self, hx, reduceCtorEq]

theorem Lib.Reader.AtBody.exists_mid {d t b T : List Byte} {z : Lib.Reader}
    (h : Lib.Reader.AtBody d t b T z) :
    ∃ st c src, z = Lib.Reader.mid st d [] t c src ∧ src ≠ [] ∧
      (∀ d1 t1, Lib.Reader.AtBody d1 t1 b T (Lib.Reader.mid st d1 [] t1 c src)) ∧
      (b = [] → src = Lib.finalBlock ++ T) := by
  rcases h with h | ⟨c, hc, h⟩
  · refine ⟨_, _, _, h, ?_, fun d1 t1 => Or.inl rfl, ?_⟩
    · simp [Lib.finalBlock]
    · intro hb; subst hb; rw [blocks_nil, List.nil_append]
  · refine ⟨_, _, _, h, ?_, fun d1 t1 => Or.inr ⟨c, hc, rfl⟩, ?_⟩
    · simp [Lib.finalBlock]
    · intro hb; subst hb; simp [blocks_nil]

theorem copyLimited_zero {ω : Type} (rd : ω → Nat → ReadOut ω) (fuel : Nat) (w : ω)
    (buf : List Byte) : copyLimited rd fuel 0 w buf = (buf, none, w) := by
  cases fuel <;> simp [copyLimited]

theorem mod_window_sub (m : Nat) (h : Lib.windowSize ≤ m) :
    (m - Lib.windowSize) % Lib.windowSize = m % Lib.windowSize := by
  have hW : Lib.windowSize = 32768 := rfl
  rw [hW] at h ⊢
  omega

theorem mod_window_self : Lib.windowSize % Lib.windowSize = 0 := Nat.mod_self _

/-- Copying at most `n ≥ 1` bytes of a member whose body still has the bytes `b`
to give: the copy returns nil and holds the first `n` bytes of `b`. When the
reader met the end of the body (`b` is shorter than `n`, or as long as `n` and
not a whole number of windows) the source is left after the trailer. When `b` is
longer than `n` the source is left inside the member. When `b` is as long as `n`
and a whole number of windows, the source is left before the final block. -/
theorem copyLimited_body (fuel : Nat) : ∀ (n : Nat) (d b buf rest : List Byte) (z : Lib.Reader),
    1 ≤ n → n ≤ fuel →
    Lib.Reader.AtBody d [] b (Lib.gzipTrailer (d ++ b) ++ rest) z →
    ∃ z1, copyLimited Lib.Reader.read fuel n z buf = (buf ++ b.take n, none, z1) ∧
      ((b.length < n ∨ (b.length = n ∧ b.length % Lib.windowSize ≠ 0)) → z1.src = rest) ∧
      (n < b.length → z1.src ≠ []) ∧
      ((b.length = n ∧ b.length % Lib.windowSize = 0) →
        z1.src = Lib.finalBlock ++ (Lib.gzipTrailer (d ++ b) ++ rest)) := by
  have hW : Lib.windowSize = 32768 := rfl
  induction fuel with
  | zero => intro n d b buf rest z h1 h2; omega
  | succ fuel ih =>
    intro n d b buf rest z h1 h2 hz
    have hn0 : ¬ n = 0 := by omega
    obtain ⟨st0, c0, src0, hz0, _, _, _⟩ := hz.exists_mid
    have herr : z.err = none := by rw [hz0]; rfl
    have hfuel : z.fillFuel = 2 * z.src.length + 3 := rfl
    have hfb := Lib.Reader.fill_body (2 * z.src.length) d b _ z hz
    rw [← hfuel] at hfb
    by_cases hsmall : b.length < Lib.windowSize
    · have hf := hfb.1 hsmall
      have hmod : b.length % Lib.windowSize = b.length := Nat.mod_eq_of_lt hsmall
      cases b with
      | nil =>
        rw [List.append_nil] at hf
        obtain ⟨z1, hr, hs⟩ := Lib.Reader.read_ended_nil z n _ d rest herr hf
        refine ⟨z1, ?_, fun _ => hs, fun h => by simp at h, fun h => ?_⟩
        · simp [copyLimited, hn0, hr]
        · simp only [List.length_nil] at h; omega
      | cons x xs =>
        by_cases hall : (x :: xs).length ≤ n
        · obtain ⟨z1, hr, hs⟩ := Lib.Reader.read_ended_all z n _ d rest x xs herr hall hf
          have htk : (x :: xs).take n = x :: xs := List.take_of_length_le hall
          refine ⟨z1, ?_, fun _ => hs, fun h => by omega, fun h => ?_⟩
          · simp [copyLimited, hn0, hr, htk]
          · rw [hmod] at h; simp at h
        · have hlt : n < (x :: xs).length := Nat.lt_of_not_le hall
          obtain ⟨y, ys, z1, hy, hr, hs⟩ :=
            Lib.Reader.read_ended_some z n _ d (x :: xs) _ herr h1 hlt hf
          have hyl : (y :: ys).length = n := by
            rw [← hy, List.length_take]; omega
          have htk : (y :: ys).take n = y :: ys := List.take_of_length_le (le_of_eq hyl)
          refine ⟨z1, ?_, fun h => by omega, fun _ => ?_, fun h => by omega⟩
          · simp only [copyLimited, hn0, if_false, hr, htk, hyl, Nat.sub_self, copyLimited_zero, hy]
          · rw [hs]
            intro h
            have := congrArg List.length h
            simp [Lib.gzipTrailer_length] at this
    · have hbig : Lib.windowSize ≤ b.length := Nat.le_of_not_lt hsmall
      obtain ⟨st, c, src, hm, hsrc, hupd, hnil⟩ := (hfb.2 hbig).exists_mid
      have htn : b.take Lib.windowSize ≠ [] := by
        intro h
        have := congrArg List.length h
        simp only [List.length_take, List.length_nil] at this
        omega
      obtain ⟨y, ys, hy, hr⟩ := Lib.Reader.read_mid z n c st d _ src herr h1 htn hm
      have hyl : (y :: ys).length = min n Lib.windowSize := by
        rw [← hy, List.length_take, List.length_take]; omega
      have htk : (y :: ys).take n = y :: ys :=
        List.take_of_length_le (by rw [hyl]; exact Nat.min_le_left _ _)
      have hcopy : copyLimited Lib.Reader.read (fuel + 1) n z buf =
          copyLimited Lib.Reader.read fuel (n - min n Lib.windowSize)
            (Lib.Reader.mid st (d ++ (b.take Lib.windowSize).take n) []
              ((b.take Lib.windowSize).drop n) c src)
            (buf ++ (b.take Lib.windowSize).take n) := by
        simp only [copyLimited, hn0, if_false, hr, htk, hyl, hy]
      rw [hcopy, List.take_take]
      by_cases hnw : n < Lib.windowSize
      · -- the limit ends inside the window
        rw [Nat.min_eq_left (Nat.le_of_lt hnw), Nat.sub_self, copyLimited_zero]
        exact ⟨_, rfl, fun h => by omega, fun _ => hsrc, fun h => by omega⟩
      · have hwn : Lib.windowSize ≤ n := Nat.le_of_not_lt hnw
        have hdr : (b.take Lib.windowSize).drop n = [] :=
          List.drop_of_length_le (by rw [List.length_take]; omega)
        rw [Nat.min_eq_right hwn, hdr]
        by_cases hn1 : n - Lib.windowSize = 0
        · have hnw2 : n = Lib.windowSize := by omega
          rw [hn1, copyLimited_zero, hnw2]
          refine ⟨_, rfl, fun h => ?_, fun _ => hsrc, fun h => ?_⟩
          · rcases h with h | ⟨h, h'⟩
            · omega
            · rw [h, mod_window_self] at h'; exact absurd rfl h'
          · have hb0 : b.drop Lib.windowSize = [] := List.drop_of_length_le (le_of_eq h.1)
            show src = _
            exact hnil hb0
        · have hT : Lib.gzipTrailer (d ++ b) ++ rest =
              Lib.gzipTrailer ((d ++ b.take Lib.windowSize) ++ b.drop Lib.windowSize) ++ rest := by
            rw [List.append_assoc, List.take_append_drop]
          have hz2 := hupd (d ++ b.take Lib.windowSize) []
          rw [hT] at hz2
          obtain ⟨z1, hc1, hA, hB, hC⟩ := ih (n - Lib.windowSize) (d ++ b.take Lib.windowSize)
            (b.drop Lib.windowSize) (buf ++ b.take Lib.windowSize) rest _ (by omega) (by omega) hz2
          have hlen : (b.drop Lib.windowSize).length = b.length - Lib.windowSize :=
            List.length_drop _ _
          have hmod := mod_window_sub b.length hbig
          rw [hlen, hmod] at hA hC
          rw [hlen] at hB
          refine ⟨z1, ?_, fun h => hA ?_, fun h => hB (by omega), fun h => ?_⟩
          · rw [hc1, List.append_assoc, ← List.take_add, Nat.add_sub_cancel' hwn]
          · rcases h with h | ⟨h, h'⟩
            · left; omega
            · right; exact ⟨by omega, h'⟩
          · rw [hT]; exact hC ⟨by omega, h.2⟩

/-! ## Decoder: member after member -/

theorem member_eq (b : Blob) : member b = Lib.gzipHeader ++ memberBody b := rfl

theorem Lib.readHeader_nil : Lib.readHeader [] = ([], some Error.EOF) := rfl

theorem Lib.readHeader_gzipHeader (X : List Byte) :
    Lib.readHeader (Lib.gzipHeader ++ X) = (X, none) := by
  simp [Lib.readHeader, Lib.gzipHeader, Lib.readHeaderFields]

theorem Lib.readString_ne_eof (n : Nat) : ∀ (acc s : List Byte),
    (Lib.readString n acc s).2.2 ≠ some Error.EOF := by
  induction n with
  | zero => intro acc s; simp [Lib.readString]
  | succ n ih =>
    intro acc s
    cases s with
    | nil => simp [Lib.readString]
    | cons c s =>
      simp only [Lib.readString]
      split
      · simp
      · exact ih _ _

theorem triple_err_ne {α β : Type} (x y : α × β × Option Error) (e : Error)
    (hx : x.2.2 ≠ some Error.EOF) (h : x = y) (hy : y.2.2 = some e) : e ≠ Error.EOF := by
  subst h
  intro he
  rw [he] at hy
  exact hx hy

theorem Lib.readHeaderFields_ne_eof (hdr src : List Byte) :
    (Lib.readHeaderFields hdr src).2 ≠ some Error.EOF := by
  unfold Lib.readHeaderFields
  simp only
  split
  · rename_i e he
    have hx := triple_err_ne _ _ e (by split_ifs <;> simp) he rfl
    simpa using hx
  · split
    · rename_i e he
      have hx := triple_err_ne _ _ e
        (by split_ifs
            · exact Lib.readString_ne_eof 512 _ _
            · simp) he rfl
      simpa using hx
    · split
      · rename_i e he
        have hx := triple_err_ne _ _ e
          (by split_ifs
              · exact Lib.readString_ne_eof 512 _ _
              · simp) he rfl
        simpa using hx
      · split_ifs <;> simp

theorem Lib.readHeader_ne_eof (src : List Byte) (h : src ≠ []) :
    (Lib.readHeader src).2 ≠ some Error.EOF := by
  unfold Lib.readHeader
  rw [if_neg h]
  split
  · simp
  · split
    · simp
    · exact Lib.readHeaderFields_ne_eof _ _

/-- The copy of one member body, from the state `Reset` and `Multistream(false)`
leave the reader in. -/
theorem copy_member (n : Nat) (b rest : List Byte) (h1 : 1 ≤ n) :
    ∃ z1, copyLimited Lib.gzipReader.read n n
        (Lib.gzipReader.multistream (Lib.Reader.fresh (memberBody b ++ rest) none) false) [] =
        (b.take n, none, z1) ∧
      (Fits n b → z1.src = rest) ∧
      (n < b.length → z1.src ≠ []) ∧
      ((b.length = n ∧ b.length % Lib.windowSize = 0) →
        z1.src = Lib.finalBlock ++ (Lib.gzipTrailer b ++ rest)) := by
  have hz : Lib.Reader.AtBody [] [] b (Lib.gzipTrailer ([] ++ b) ++ rest)
      (Lib.gzipReader.multistream (Lib.Reader.fresh (memberBody b ++ rest) none) false) := by
    left
    show Lib.Reader.mid Lib.FlateStep.nextBlock [] [] [] 0 (memberBody b ++ rest) = _
    rw [memberBody, List.append_assoc, List.append_assoc]
    rfl
  obtain ⟨z1, hc, hA, hB, hC⟩ := copyLimited_body n n [] b [] rest _ h1 (le_refl _) hz
  exact ⟨z1, hc, hA, hB, hC⟩

theorem Fits.take_eq {n : Nat} {b : Blob} (h : Fits n b) : b.take n = b := by
  apply List.take_of_length_le
  rcases h with h | ⟨h, _⟩ <;> omega

/-- One round of the loop on a member that is read to its end, when the consumer
stops. -/
theorem decodeLoop_member_stop (limit : Int) (yield : Consumer) (fuel : Nat)
    (b rest : List Byte) (tr : List Elt) (h1 : 1 ≤ limit.toNat) (hf : Fits limit.toNat b)
    (hy : yield (tr ++ [Elt.ok b]) = false) :
    ∃ z1, decodeLoop Lib.gzipReader limit yield (fuel + 1)
        (Lib.Reader.fresh (memberBody b ++ rest) none) tr = ⟨tr ++ [Elt.ok b], z1, true⟩ ∧
      z1.src = rest := by
  obtain ⟨z1, hc, hA, _, _⟩ := copy_member limit.toNat b rest h1
  rw [hf.take_eq] at hc
  refine ⟨z1, ?_, hA hf⟩
  simp only [decodeLoop, hc, hy]
  rfl

/-- One round of the loop on a member that is read to its end, when the consumer
goes on: the next header is read from what follows the member. -/
theorem decodeLoop_member_go (limit : Int) (yield : Consumer) (fuel : Nat)
    (b rest : List Byte) (tr : List Elt) (h1 : 1 ≤ limit.toNat) (hf : Fits limit.toNat b)
    (hy : yield (tr ++ [Elt.ok b]) = true) :
    decodeLoop Lib.gzipReader limit yield (fuel + 1)
        (Lib.Reader.fresh (memberBody b ++ rest) none) tr =
      match (Lib.readHeader rest).2 with
      | none => decodeLoop Lib.gzipReader limit yield fuel
          (Lib.Reader.fresh (Lib.readHeader rest).1 none) (tr ++ [Elt.ok b])
      | some e => ⟨tr ++ [Elt.ok b] ++ closing e,
          Lib.Reader.fresh (Lib.readHeader rest).1 (some e), true⟩ := by
  obtain ⟨z1, hc, hA, _, _⟩ := copy_member limit.toNat b rest h1
  rw [hf.take_eq] at hc
  have hs := hA hf
  have hr : Lib.gzipReader.reset z1 =
      (Lib.Reader.fresh (Lib.readHeader rest).1 (Lib.readHeader rest).2,
        (Lib.readHeader rest).2) := by
    show Lib.Reader.reset z1 = _
    rw [Lib.Reader.reset, hs]
  simp only [decodeLoop, hc, hy, if_true, hr]
  cases hh : (Lib.readHeader rest).2 with
  | none => rfl
  | some e =>
    by_cases he : e = Error.EOF
    · simp [he, closing]; rfl
    · simp [he, closing]; rfl

theorem stream_cons_append (b : Blob) (bs : List Blob) (g : List Byte) :
    stream (b :: bs) ++ g = Lib.gzipHeader ++ (memberBody b ++ (stream bs ++ g)) := by
  rw [stream_cons, member_eq, List.append_assoc, List.append_assoc]

theorem length_le_stream (bs : List Blob) : bs.length ≤ (stream bs).length := by
  induction bs with
  | nil => simp
  | cons b bs ih =>
    rw [stream_cons, member_eq]
    simp only [List.length_cons, List.length_append, Lib.gzipHeader]
    omega

/-- The loop over members that are all read to their end, with a consumer that
never stops: the blobs in order, then what reading the header of the rest
gives. -/
theorem decodeLoop_members (limit : Int) (h1 : 1 ≤ limit.toNat) (g : List Byte) (e : Error)
    (hg : (Lib.readHeader g).2 = some e) :
    ∀ (bs : List Blob) (b : Blob) (tr : List Elt) (fuel : Nat),
      (∀ x ∈ b :: bs, Fits limit.toNat x) → bs.length ≤ fuel →
      decodeLoop Lib.gzipReader limit drain (fuel + 1)
          (Lib.Reader.fresh (memberBody b ++ (stream bs ++ g)) none) tr =
        ⟨tr ++ (b :: bs).map Elt.ok ++ closing e,
          Lib.Reader.fresh (Lib.readHeader g).1 (some e), true⟩ := by
  intro bs
  induction bs with
  | nil =>
    intro b tr fuel hf _
    rw [decodeLoop_member_go limit drain fuel b _ tr h1 (hf b (List.mem_cons_self _ _)) rfl]
    simp only [stream_nil, List.nil_append, hg, List.map_cons, List.map_nil]
  | cons b2 bs ih =>
    intro b tr fuel hf hfuel
    cases fuel with
    | zero => simp at hfuel
    | succ fuel =>
      rw [decodeLoop_member_go limit drain (fuel + 1) b _ tr h1
        (hf b (List.mem_cons_self _ _)) rfl, stream_cons_append, Lib.readHeader_gzipHeader]
      simp only
      rw [ih b2 (tr ++ [Elt.ok b]) fuel (fun x hx => hf x (List.mem_cons_of_mem _ hx))
        (by simpa using hfuel)]
      simp only [List.map_cons, List.append_assoc, List.singleton_append]

/-- Decoding a stream of blobs that are all read to the end of their member,
followed by bytes `g` whose header read gives the error `e` (`io.EOF` when `g` is
empty): the blobs in order with nil errors, then nothing at `io.EOF` and the
error otherwise; the function returns. -/
theorem decode_stream (limit : Int) (h1 : 1 ≤ limit.toNat) (bs : List Blob) (g : List Byte)
    (e : Error) (hg : (Lib.readHeader g).2 = some e)
    (hf : ∀ x ∈ bs, Fits limit.toNat x) :
    decode limit (stream bs ++ g) drain =
      ⟨bs.map Elt.ok ++ closing e, Lib.Reader.fresh (Lib.readHeader g).1 (some e), true⟩ := by
  cases bs with
  | nil =>
    have hn : Lib.gzipReader.newReader g =
        (Lib.Reader.fresh (Lib.readHeader g).1 (some e), some e) := by
      show Lib.Reader.reset (Lib.Reader.fresh g none) = _
      rw [Lib.Reader.reset]
      show (Lib.Reader.fresh (Lib.readHeader g).1 (Lib.readHeader g).2, (Lib.readHeader g).2) = _
      rw [hg]
    simp only [decode, stream_nil, List.nil_append, GzipToBlobsLimited, hn, List.map_nil, closing]
    split <;> rfl
  | cons b bs =>
    have hn : Lib.gzipReader.newReader (stream (b :: bs) ++ g) =
        (Lib.Reader.fresh (memberBody b ++ (stream bs ++ g)) none, none) := by
      show Lib.Reader.reset (Lib.Reader.fresh (stream (b :: bs) ++ g) none) = _
      rw [Lib.Reader.reset]
      show (Lib.Reader.fresh (Lib.readHeader (stream (b :: bs) ++ g)).1
        (Lib.readHeader (stream (b :: bs) ++ g)).2, (Lib.readHeader (stream (b :: bs) ++ g)).2) = _
      rw [stream_cons_append, Lib.readHeader_gzipHeader]
    have hlen : bs.length ≤ (stream (b :: bs) ++ g).length := by
      have := length_le_stream (b :: bs)
      simp only [List.length_cons, List.length_append] at this ⊢
      omega
    simp only [decode, GzipToBlobsLimited, hn]
    rw [decodeLoop_members limit h1 g e hg bs b [] _ hf hlen]
    simp

/-! ## Decoder: what holds for every reader and every consumer -/

/-- The copy never holds more than `n` bytes beyond what the buffer held. -/
theorem copyLimited_length {ω : Type} (rd : ω → Nat → ReadOut ω) (fuel : Nat) :
    ∀ (n : Nat) (w : ω) (buf : List Byte),
      (copyLimited rd fuel n w buf).1.length ≤ buf.length + n := by
  induction fuel with
  | zero => intro n w buf; simp [copyLimited]
  | succ fuel ih =>
    intro n w buf
    simp only [copyLimited]
    split
    · simp
    · cases hr : rd w n with
      | fail e w1 =>
        simp only
        split <;> simp
      | bytes b bs err w1 =>
        have hlen : ((b :: bs).take n).length ≤ n := by
          rw [List.length_take]; exact Nat.min_le_left _ _
        simp only
        cases err with
        | some e =>
          simp only
          split <;> (simp only [List.length_append]; omega)
        | none =>
          simp only
          have := ih (n - ((b :: bs).take n).length) w1 (buf ++ (b :: bs).take n)
          simp only [List.length_append] at this
          omega

theorem Shape.snoc_ok (limit : Int) (tr last : List Elt) (oks : List Blob) (b : Blob)
    (htr : tr = oks.map Elt.ok) (ho : ∀ x ∈ oks, x.length ≤ limit.toNat)
    (hb : b.length ≤ limit.toNat) (hl : last = [] ∨ ∃ e, last = [Elt.failed e]) :
    Shape limit (tr ++ [Elt.ok b] ++ last) := by
  refine ⟨oks ++ [b], last, by simp [htr], ?_, hl⟩
  intro x hx
  rcases List.mem_append.mp hx with h | h
  · exact ho x h
  · simp only [List.mem_singleton] at h; rw [h]; exact hb

theorem decodeLoop_shape {σ ω : Type} (zr : GzipReader σ ω) (limit : Int) (yield : Consumer)
    (fuel : Nat) : ∀ (w : ω) (tr : List Elt) (oks : List Blob), tr = oks.map Elt.ok →
      (∀ x ∈ oks, x.length ≤ limit.toNat) →
      Shape limit (decodeLoop zr limit yield fuel w tr).trace := by
  induction fuel with
  | zero =>
    intro w tr oks htr ho
    exact ⟨oks, [], by simp [decodeLoop, htr], ho, Or.inl rfl⟩
  | succ fuel ih =>
    intro w tr oks htr ho
    have hlen := copyLimited_length zr.read limit.toNat limit.toNat (zr.multistream w false) []
    simp only [decodeLoop]
    rcases hc : copyLimited zr.read limit.toNat limit.toNat (zr.multistream w false) [] with
      ⟨buf, err, w2⟩
    rw [hc] at hlen
    simp only [List.length_nil, Nat.zero_add] at hlen
    cases err with
    | some e => exact ⟨oks, [Elt.failed e], by simp [htr], ho, Or.inr ⟨e, rfl⟩⟩
    | none =>
      simp only
      split
      · rcases hr : zr.reset w2 with ⟨w3, e3⟩
        cases e3 with
        | none =>
          simp only
          refine ih w3 _ (oks ++ [buf]) (by simp [htr]) ?_
          intro x hx
          rcases List.mem_append.mp hx with h | h
          · exact ho x h
          · simp only [List.mem_singleton] at h; rw [h]; exact hlen
        | some e =>
          simp only
          split
          · have := Shape.snoc_ok limit tr [] oks buf htr ho hlen (Or.inl rfl)
            simpa using this
          · exact Shape.snoc_ok limit tr [Elt.failed e] oks buf htr ho hlen (Or.inr ⟨e, rfl⟩)
      · have := Shape.snoc_ok limit tr [] oks buf htr ho hlen (Or.inl rfl)
        simpa using this

theorem GzipToBlobsLimited_shape {σ ω : Type} (zr : GzipReader σ ω) (limit : Int)
    (fuel : Nat) (rdr : σ) (yield : Consumer) :
    Shape limit (GzipToBlobsLimited zr limit fuel rdr yield).trace := by
  simp only [GzipToBlobsLimited]
  rcases zr.newReader rdr with ⟨w, e⟩
  cases e with
  | some e =>
    simp only
    split
    · exact ⟨[], [], rfl, by simp, Or.inl rfl⟩
    · exact ⟨[], [Elt.failed e], rfl, by simp, Or.inr ⟨e, rfl⟩⟩
  | none => exact decodeLoop_shape zr limit yield fuel w [] [] rfl (by simp)

theorem Shape.blob_le {limit : Int} {tr : List Elt} (h : Shape limit tr) (x : Elt) (b : Blob)
    (hx : x ∈ tr) (hb : x.blob = some b) : b.length ≤ limit.toNat := by
  obtain ⟨oks, last, htr, ho, hl⟩ := h
  rw [htr] at hx
  rcases List.mem_append.mp hx with h1 | h1
  · obtain ⟨y, hy, rfl⟩ := List.mem_map.mp h1
    simp only [Elt.ok, Option.some.injEq] at hb
    rw [← hb]; exact ho y hy
  · rcases hl with hl | ⟨e, hl⟩
    · rw [hl] at h1; simp at h1
    · rw [hl] at h1
      simp only [List.mem_singleton] at h1
      rw [h1] at hb
      simp [Elt.failed] at hb

theorem Shape.err_last {limit : Int} {tr : List Elt} (h : Shape limit tr)
    (pre post : List Elt) (x : Elt) (htr : tr = pre ++ x :: post) (hx : x.err ≠ none) :
    x.blob = none ∧ post = [] := by
  obtain ⟨oks, last, hs, _, hl⟩ := h
  rw [hs] at htr
  rcases List.append_eq_append_iff.mp htr with ⟨a, h1, h2⟩ | ⟨c, h1, h2⟩
  · -- `x` lies in `last`
    rcases hl with hl | ⟨e, hl⟩
    · rw [hl] at h2
      have := congrArg List.length h2
      simp only [List.length_nil, List.length_append, List.length_cons] at this
      omega
    · rw [hl] at h2
      cases a with
      | nil =>
        simp only [List.nil_append, List.cons.injEq] at h2
        obtain ⟨h3, h4⟩ := h2
        subst h3 h4
        exact ⟨rfl, rfl⟩
      | cons y a =>
        have := congrArg List.length h2
        simp only [List.length_singleton, List.length_append, List.length_cons,
          List.length_nil] at this
        omega
  · -- `x` lies among the blobs, or is the first of `last`
    cases c with
    | nil =>
      simp only [List.nil_append] at h2
      rcases hl with hl | ⟨e, hl⟩
      · rw [hl] at h2; simp at h2
      · rw [hl] at h2
        simp only [List.cons.injEq] at h2
        obtain ⟨h3, h4⟩ := h2
        subst h3 h4
        exact ⟨rfl, rfl⟩
    | cons y c =>
      simp only [List.cons_append, List.cons.injEq] at h2
      have hmem : x ∈ oks.map Elt.ok := by
        rw [h1, h2.1]
        simp
      obtain ⟨b, _, rfl⟩ := List.mem_map.mp hmem
      exact absurd rfl hx

theorem encodeLoop_append {σ ω : Type} (gw : GzipWriter σ ω) (pre : List Elt) :
    ∀ (w : ω) (more : List Elt), (encodeLoop gw w pre).err = none →
      (encodeLoop gw w pre).consumed = pre.length ∧
      encodeLoop gw w (pre ++ more) =
        ⟨(encodeLoop gw (encodeLoop gw w pre).world more).err,
         (encodeLoop gw (encodeLoop gw w pre).world more).world,
         (encodeLoop gw (encodeLoop gw w pre).world more).consumed + pre.length⟩ := by
  induction pre with
  | nil => intro w more _; simp [encodeLoop]
  | cons x pre ih =>
    intro w more h
    simp only [encodeLoop, List.cons_append, List.append_eq] at h ⊢
    cases hx : x.err with
    | some e => rw [hx] at h; simp at h
    | none =>
      rw [hx] at h
      simp only at h ⊢
      rcases hw : gw.write w (x.blob.getD []) with ⟨w1, e1⟩
      rw [hw] at h
      cases e1 with
      | some e =>
        simp only [errorsJoin] at h
        cases hc : (gw.close w1).2 <;> rw [hc] at h <;> simp [errorsJoin] at h
      | none =>
        simp only at h ⊢
        rcases hc : gw.close w1 with ⟨w2, e2⟩
        rw [hc] at h
        cases e2 with
        | some e => simp at h
        | none =>
          simp only at h ⊢
          obtain ⟨h1, h2⟩ := ih (gw.reset w2) more h
          rw [h1, h2]
          simp only [List.length_cons, EncodeResult.mk.injEq, true_and]
          omega

theorem errorsIs_self (e : Error) : errorsIs e e = true := by
  cases e <;> simp [errorsIs]

/-- The loop only adds to what was delivered, and a round of the loop delivers at
least one element. -/
theorem decodeLoop_extends {σ ω : Type} (zr : GzipReader σ ω) (limit : Int) (yield : Consumer)
    (fuel : Nat) : ∀ (w : ω) (tr : List Elt),
      ∃ more, (decodeLoop zr limit yield fuel w tr).trace = tr ++ more ∧
        (0 < fuel → more ≠ []) := by
  induction fuel with
  | zero => intro w tr; exact ⟨[], by simp [decodeLoop], fun h => by omega⟩
  | succ fuel ih =>
    intro w tr
    simp only [decodeLoop]
    rcases copyLimited zr.read limit.toNat limit.toNat (zr.multistream w false) [] with
      ⟨buf, err, w2⟩
    cases err with
    | some e => exact ⟨[Elt.failed e], rfl, fun _ => by simp⟩
    | none =>
      simp only
      split
      · rcases zr.reset w2 with ⟨w3, e3⟩
        cases e3 with
        | none =>
          simp only
          obtain ⟨more, h1, _⟩ := ih w3 (tr ++ [Elt.ok buf])
          exact ⟨Elt.ok buf :: more, by rw [h1]; simp, fun _ => by simp⟩
        | some e =>
          simp only
          split
          · exact ⟨[Elt.ok buf], rfl, fun _ => by simp⟩
          · exact ⟨[Elt.ok buf, Elt.failed e], by simp, fun _ => by simp⟩
      · exact ⟨[Elt.ok buf], rfl, fun _ => by simp⟩

theorem newReader_member (b : Blob) (rest : List Byte) :
    Lib.gzipReader.newReader (member b ++ rest) =
      (Lib.Reader.fresh (memberBody b ++ rest) none, none) := by
  show Lib.Reader.reset (Lib.Reader.fresh (member b ++ rest) none) = _
  rw [Lib.Reader.reset]
  show (Lib.Reader.fresh (Lib.readHeader (member b ++ rest)).1
    (Lib.readHeader (member b ++ rest)).2, (Lib.readHeader (member b ++ rest)).2) = _
  rw [member_eq, List.append_assoc, Lib.readHeader_gzipHeader]

theorem encode_single (b : Blob) : encode [Elt.ok b] = member b ++ [] := by
  have h := (BlobsToWriter_oks [b]).2.1
  simp only [List.map_cons, List.map_nil] at h
  rw [h, stream_cons, stream_nil]

/-- Decoding the member of a blob that is as long as the limit and a whole number
of windows: the blob, then `gzip.ErrHeader`, read from the final block and the
trailer that the copy left in the source. -/
theorem decode_exact (limit : Int) (b : Blob) (h1 : 1 ≤ limit.toNat)
    (hb : b.length = limit.toNat) (hm : b.length % Lib.windowSize = 0) :
    (decode limit (encode [Elt.ok b]) drain).trace = [Elt.ok b, Elt.failed Error.ErrHeader] ∧
    (decode limit (encode [Elt.ok b]) drain).returned = true := by
  obtain ⟨z1, hc, _, _, hC⟩ := copy_member limit.toNat b [] h1
  have hs := hC ⟨hb, hm⟩
  rw [List.take_of_length_le (le_of_eq hb)] at hc
  have hr : Lib.gzipReader.reset z1 =
      (Lib.Reader.fresh ((Lib.finalBlock ++ (Lib.gzipTrailer b ++ [])).drop 10)
        (some Error.ErrHeader), some Error.ErrHeader) := by
    show Lib.Reader.reset z1 = _
    rw [Lib.Reader.reset, hs]
    simp [Lib.readHeader, Lib.finalBlock, Lib.gzipTrailer, Lib.le32]
  have hfuel : (member b ++ ([] : List Byte)).length + 1 =
      (member b ++ ([] : List Byte)).length - 1 + 1 + 1 := by
    rw [member_eq]
    simp only [List.length_append, Lib.gzipHeader, List.length_cons, List.length_nil]
    omega
  simp only [decode, GzipToBlobsLimited, encode_single, newReader_member]
  rw [hfuel]
  simp only [decodeLoop, hc, drain, if_true, hr]
  simp

theorem fits_of_lt (limit : Int) (b : Blob) (h : (b.length : Int) < limit) :
    Fits limit.toNat b := by
  left
  omega

theorem toNat_pos (limit : Int) (h : 0 < limit) : 1 ≤ limit.toNat := by omega

/-- Round trip: blobs that are all read to the end of their member come back as
they were written, in order, with nil errors, and the sequence then ends. -/
theorem round_trip (limit : Int) (bs : List Blob) (h1 : 1 ≤ limit.toNat)
    (hf : ∀ b ∈ bs, Fits limit.toNat b) :
    decode limit (encode (bs.map Elt.ok)) drain =
      ⟨bs.map Elt.ok, Lib.Reader.fresh [] (some Error.EOF), true⟩ := by
  have h := decode_stream limit h1 bs [] Error.EOF rfl hf
  rw [List.append_nil] at h
  rw [(BlobsToWriter_oks bs).2.1, h]
  simp [closing, Lib.readHeader_nil]

/-! ## Decoder: the storage of the buffer, member after member -/

/-- Reading one member of at most 512 bytes, shorter than the limit, into a buffer
that `grow` leaves on the array `m` of 512 bytes with length zero: the body
overwrites the front of `m`; no other array is touched. -/
theorem readFrom_member (fuel n : Nat) (a rest m : List Byte) (h : Heap) (b : Buffer)
    (hg : b.grow h = ([m], ⟨some 0, 512, 0⟩)) (ha : a.length ≤ 512) (hn : a.length < n) :
    ∃ z1, readFromLimited Lib.gzipReader.read (fuel + 1) n
        (Lib.gzipReader.multistream (Lib.Reader.fresh (memberBody a ++ rest) none) false) h b =
        ([a ++ m.drop a.length], ⟨some 0, 512, a.length⟩, none, z1) ∧ z1.src = rest := by
  have hW : Lib.windowSize = 32768 := rfl
  have hz : Lib.Reader.AtBody [] [] a (Lib.gzipTrailer ([] ++ a) ++ rest)
      (Lib.gzipReader.multistream (Lib.Reader.fresh (memberBody a ++ rest) none) false) := by
    left
    show Lib.Reader.mid Lib.FlateStep.nextBlock [] [] [] 0 (memberBody a ++ rest) = _
    rw [memberBody, List.append_assoc, List.append_assoc]
    rfl
  have hn0 : ¬ n = 0 := by omega
  have hfb := (Lib.Reader.fill_body
    (2 * (Lib.gzipReader.multistream
      (Lib.Reader.fresh (memberBody a ++ rest) none) false).src.length) [] a _ _ hz).1 (by omega)
  have herr : (Lib.gzipReader.multistream
      (Lib.Reader.fresh (memberBody a ++ rest) none) false).err = none := rfl
  have hrd : Lib.gzipReader.read = Lib.Reader.read := rfl
  cases a with
  | nil =>
    simp only [List.nil_append, List.length_nil] at hfb
    obtain ⟨z1, hr, hs⟩ := Lib.Reader.read_ended_nil _ (min (512 - 0) n) 0 [] rest herr hfb
    refine ⟨z1, ?_, hs⟩
    rw [readFromLimited]
    simp only [hg, hn0, if_false, hrd, hr]
    rw [if_pos trivial]
    rfl
  | cons x xs =>
    simp only [List.nil_append] at hfb
    have hk : (x :: xs).length ≤ min (512 - 0) n := by
      simp only [Nat.sub_zero]; omega
    obtain ⟨z1, hr, hs⟩ :=
      Lib.Reader.read_ended_all _ (min (512 - 0) n) _ [] rest x xs herr hk hfb
    refine ⟨z1, ?_, hs⟩
    simp only [readFromLimited, hg, hn0, if_false, hrd, hr, if_true,
      List.take_of_length_le hk, Buffer.store]
    simp only [List.getD_cons_zero, List.take_zero, List.nil_append, Nat.zero_add,
      List.set_cons_zero, List.cons_append]

theorem Buffer.grow_zero :
    Buffer.zero.reset.grow [] = ([List.replicate 512 0], ⟨some 0, 512, 0⟩) := by
  rfl

theorem Buffer.grow_full (m : List Byte) (k : Nat) :
    (Buffer.reset ⟨some 0, 512, k⟩).grow [m] = ([m], ⟨some 0, 512, 0⟩) := by
  simp [Buffer.grow, Buffer.reset]

/-- The loop with the storage only adds to the calls made so far. -/
theorem decodeLoopShared_extends {σ ω : Type} (zr : GzipReader σ ω) (limit : Int)
    (yield : Consumer) (fuel : Nat) : ∀ (w : ω) (h : Heap) (b : Buffer) (tr : List Yield),
      ∃ more, (decodeLoopShared zr limit yield fuel w h b tr).1 = tr ++ more := by
  induction fuel with
  | zero => intro w h b tr; exact ⟨[], by simp [decodeLoopShared]⟩
  | succ fuel ih =>
    intro w h b tr
    simp only [decodeLoopShared]
    rcases readFromLimited zr.read (limit.toNat + 1) limit.toNat (zr.multistream w false) h
      b.reset with ⟨h2, b2, err, w2⟩
    cases err with
    | some e => exact ⟨_, rfl⟩
    | none =>
      simp only
      split
      · rcases zr.reset w2 with ⟨w3, e3⟩
        cases e3 with
        | none =>
          simp only
          obtain ⟨more, h1⟩ := ih w3 h2 b2 (tr ++ [Yield.mk b2.bytes none h2])
          exact ⟨Yield.mk b2.bytes none h2 :: more, by rw [h1]; simp⟩
        | some e =>
          simp only
          split
          · exact ⟨_, rfl⟩
          · exact ⟨[Yield.mk b2.bytes none h2, Yield.mk none (some e) h2], by simp⟩
      · exact ⟨_, rfl⟩

/-- One round of the loop with the storage, on a member of at most 512 bytes that
is shorter than the limit, with a consumer that goes on: the body is yielded as
the slice `arr0[0:len]` of the array the buffer already has. -/
theorem decodeLoopShared_member (limit : Int) (fuel : Nat) (a rest m : List Byte) (h : Heap)
    (b : Buffer) (tr : List Yield) (hg : b.reset.grow h = ([m], ⟨some 0, 512, 0⟩))
    (ha : a.length ≤ 512) (hn : a.length < limit.toNat) :
    decodeLoopShared Lib.gzipReader limit drain (fuel + 1)
        (Lib.Reader.fresh (memberBody a ++ rest) none) h b tr =
      match (Lib.readHeader rest).2 with
      | none => decodeLoopShared Lib.gzipReader limit drain fuel
          (Lib.Reader.fresh (Lib.readHeader rest).1 none) [a ++ m.drop a.length]
          ⟨some 0, 512, a.length⟩
          (tr ++ [Yield.mk (some ⟨0, a.length⟩) none [a ++ m.drop a.length]])
      | some e =>
        if e = Error.EOF then
          (tr ++ [Yield.mk (some ⟨0, a.length⟩) none [a ++ m.drop a.length]],
            Lib.Reader.fresh (Lib.readHeader rest).1 (some e), true)
        else
          (tr ++ [Yield.mk (some ⟨0, a.length⟩) none [a ++ m.drop a.length]] ++
            [Yield.mk none (some e) [a ++ m.drop a.length]],
            Lib.Reader.fresh (Lib.readHeader rest).1 (some e), true) := by
  obtain ⟨z1, hc, hs⟩ := readFrom_member limit.toNat limit.toNat a rest m h b.reset hg ha hn
  have hr : Lib.gzipReader.reset z1 =
      (Lib.Reader.fresh (Lib.readHeader rest).1 (Lib.readHeader rest).2,
        (Lib.readHeader rest).2) := by
    show Lib.Reader.reset z1 = _
    rw [Lib.Reader.reset, hs]
  rw [decodeLoopShared]
  simp only [hc, drain, if_true, hr, Buffer.bytes, Option.map_some']
  cases (Lib.readHeader rest).2 with
  | none => rfl
  | some e => rfl

theorem view_first (a m : List Byte) :
    Heap.view [a ++ m.drop a.length] ⟨0, a.length⟩ = a := by
  simp [Heap.view]

theorem view_overwritten (a b Z : List Byte) :
    Heap.view [b ++ (a ++ Z).drop b.length] ⟨0, a.length⟩ =
      (b ++ a.drop b.length).take a.length := by
  simp only [Heap.view, List.getD_cons_zero, List.take_append_eq_append_take]
  congr 1
  by_cases hle : b.length ≤ a.length
  · rw [List.drop_append_of_le_length hle,
      List.take_append_of_le_length (by rw [List.length_drop])]
  · have h0 : a.length - b.length = 0 := by omega
    rw [h0, List.take_zero, List.take_zero]

/-- The first two calls of `yield` on a stream that begins with two members of at
most 512 bytes each, both shorter than the limit: the two blobs are slices of the
same array, which holds the first body and then, overwritten from the front, the
second. -/
theorem shared_two_members (limit : Int) (a b : Blob) (rest : List Byte)
    (ha : a.length < limit.toNat) (hb : b.length < limit.toNat)
    (ha5 : a.length ≤ 512) (hb5 : b.length ≤ 512) :
    ∃ more, decodeShared limit (member a ++ (member b ++ rest)) drain =
        Yield.mk (some ⟨0, a.length⟩) none [a ++ (List.replicate 512 0).drop a.length] ::
        Yield.mk (some ⟨0, b.length⟩) none
          [b ++ (a ++ (List.replicate 512 0).drop a.length).drop b.length] :: more ∧
      (rest = [] → more = []) := by
  have hfuel : (member a ++ (member b ++ rest)).length + 1 =
      (member a ++ (member b ++ rest)).length - 1 + 1 + 1 := by
    rw [member_eq]
    simp only [List.length_append, Lib.gzipHeader, List.length_cons, List.length_nil]
    omega
  simp only [decodeShared, newReader_member]
  rw [hfuel]
  generalize (member a ++ (member b ++ rest)).length - 1 = f
  rw [decodeLoopShared_member limit (f + 1) a (member b ++ rest) (List.replicate 512 0) []
    Buffer.zero [] Buffer.grow_zero ha5 ha]
  have hh : Lib.readHeader (member b ++ rest) = (memberBody b ++ rest, none) := by
    rw [member_eq, List.append_assoc, Lib.readHeader_gzipHeader]
  simp only [hh, List.nil_append]
  rw [decodeLoopShared_member limit f b rest (a ++ (List.replicate 512 0).drop a.length) _
    ⟨some 0, 512, a.length⟩ _ (Buffer.grow_full _ _) hb5 hb]
  generalize List.replicate 512 0 = Z
  cases he : (Lib.readHeader rest).2 with
  | none =>
    simp only
    obtain ⟨more, hm⟩ := decodeLoopShared_extends Lib.gzipReader limit drain f
      (Lib.Reader.fresh (Lib.readHeader rest).1 none)
      [b ++ (a ++ Z.drop a.length).drop b.length]
      ⟨some 0, 512, b.length⟩
      ([Yield.mk (some ⟨0, a.length⟩) none [a ++ Z.drop a.length]] ++
        [Yield.mk (some ⟨0, b.length⟩) none
          [b ++ (a ++ Z.drop a.length).drop b.length]])
    refine ⟨more, by rw [hm]; simp, ?_⟩
    intro hr
    rw [hr, Lib.readHeader_nil] at he
    simp at he
  | some e =>
    simp only
    by_cases hee : e = Error.EOF
    · rw [if_pos hee]
      exact ⟨[], by simp, fun _ => rfl⟩
    · rw [if_neg hee]
      refine ⟨[Yield.mk none (some e)
        [b ++ (a ++ Z.drop a.length).drop b.length]], by simp, ?_⟩
      intro hr
      rw [hr, Lib.readHeader_nil] at he
      simp only [Option.some.injEq] at he
      exact absurd he.symm hee

theorem AllSucceed_cons {σ ω : Type} (gw : GzipWriter σ ω) (w : ω) (x : Elt)
    (rest : List Elt) :
    AllSucceed gw w (x :: rest) ↔ EltSucceeds gw w x ∧ AllSucceed gw (gw.finish w x) rest := by
  constructor
  · intro h
    refine ⟨h 0 (by simp), fun k hk => ?_⟩
    have := h (k + 1) (by simpa using hk)
    simpa using this
  · rintro ⟨h0, hr⟩ k hk
    cases k with
    | zero => simpa using h0
    | succ k =>
      have := hr k (by simpa using hk)
      simpa using this

theorem encodeLoop_err_none_iff {σ ω : Type} (gw : GzipWriter σ ω) (blobs : List Elt) :
    ∀ w : ω, (encodeLoop gw w blobs).err = none ↔ AllSucceed gw w blobs := by
  induction blobs with
  | nil => intro w; simp [encodeLoop, AllSucceed]
  | cons x rest ih =>
    intro w
    rw [AllSucceed_cons, ← ih]
    simp only [encodeLoop, EltSucceeds, GzipWriter.finish]
    cases hx : x.err with
    | some e => simp
    | none =>
      rcases hw : gw.write w (x.blob.getD []) with ⟨w1, e1⟩
      cases e1 with
      | some e =>
        cases hc : (gw.close w1).2 <;> simp [errorsJoin, hc]
      | none =>
        rcases hc : gw.close w1 with ⟨w2, e2⟩
        cases e2 <;> simp [hc]

/-! ## The command: typed copies -/

theorem SetResource_fold (r : ResourceKeys) (f : FlatLog) (keys : List GoString) :
    ∀ i : LogItem,
      keys.foldl (fun i key =>
        match f.get key with
        | none => i
        | some (JVal.str s) => r.SetStr key s i
        | some (JVal.num s) => r.SetInt key (int64OfFloat64 s) i
        | some (JVal.bool s) => r.SetBool key s i
        | some _ => i) i =
      { i with Resource := ⟨i.Resource.Strs ++ copiedStrs f keys,
          i.Resource.Ints ++ copiedInts f keys,
          i.Resource.Bools ++ copiedBools f keys⟩ } := by
  induction keys with
  | nil => intro i; simp [copiedStrs, copiedInts, copiedBools]
  | cons key keys ih =>
    intro i
    rw [List.foldl_cons, ih]
    cases hk : f.get key with
    | none => simp [copiedStrs, copiedInts, copiedBools, hk]
    | some v =>
      cases v <;>
        simp [copiedStrs, copiedInts, copiedBools, hk, ResourceKeys.SetStr,
          ResourceKeys.SetInt, ResourceKeys.SetBool]

theorem SetResource_eq (r : ResourceKeys) (f : FlatLog) (i : LogItem) :
    r.SetResource f i =
      { i with Resource := ⟨i.Resource.Strs ++ copiedStrs f r.order,
          i.Resource.Ints ++ copiedInts f r.order,
          i.Resource.Bools ++ copiedBools f r.order⟩ } :=
  SetResource_fold r f r.order i

theorem SetAttrs_fold (a : AttributeKeys) (f : FlatLog) (keys : List GoString) :
    ∀ i : LogItem,
      keys.foldl (fun i key =>
        match f.get key with
        | none => i
        | some (JVal.str s) => a.SetStr key s i
        | some (JVal.num s) => a.SetInt key (int64OfFloat64 s) i
        | some (JVal.bool s) => a.SetBool key s i
        | some _ => i) i =
      { i with Attributes := ⟨i.Attributes.Strs ++ copiedStrs f keys,
          i.Attributes.Ints ++ copiedInts f keys,
          i.Attributes.Bools ++ copiedBools f keys⟩ } := by
  induction keys with
  | nil => intro i; simp [copiedStrs, copiedInts, copiedBools]
  | cons key keys ih =>
    intro i
    rw [List.foldl_cons, ih]
    cases hk : f.get key with
    | none => simp [copiedStrs, copiedInts, copiedBools, hk]
    | some v =>
      cases v <;>
        simp [copiedStrs, copiedInts, copiedBools, hk, AttributeKeys.SetStr,
          AttributeKeys.SetInt, AttributeKeys.SetBool]

theorem SetAttrs_eq (a : AttributeKeys) (f : FlatLog) (i : LogItem) :
    a.SetAttrs f i =
      { i with Attributes := ⟨i.Attributes.Strs ++ copiedStrs f a.order,
          i.Attributes.Ints ++ copiedInts f a.order,
          i.Attributes.Bools ++ copiedBools f a.order⟩ } :=
  SetAttrs_fold a f a.order i

theorem mem_copiedStrs (f : FlatLog) (keys : List GoString) (key val : GoString) :
    (⟨key, val⟩ : KeyValS) ∈ copiedStrs f keys ↔
      key ∈ keys ∧ f.get key = some (JVal.str val) := by
  simp only [copiedStrs, List.mem_filterMap]
  constructor
  · rintro ⟨k, hk, h⟩
    cases hv : f.get k with
    | none => simp [hv] at h
    | some v =>
      cases v <;> simp [hv] at h
      obtain ⟨rfl, rfl⟩ := h
      exact ⟨hk, hv⟩
  · rintro ⟨hk, hv⟩
    exact ⟨key, hk, by simp [hv]⟩

theorem mem_copiedInts (f : FlatLog) (keys : List GoString) (key : GoString) (val : Int) :
    (⟨key, val⟩ : KeyValI) ∈ copiedInts f keys ↔
      key ∈ keys ∧ ∃ x, f.get key = some (JVal.num x) ∧ val = int64OfFloat64 x := by
  simp only [copiedInts, List.mem_filterMap]
  constructor
  · rintro ⟨k, hk, h⟩
    cases hv : f.get k with
    | none => simp [hv] at h
    | some v =>
      cases v <;> simp [hv] at h
      obtain ⟨rfl, rfl⟩ := h
      exact ⟨hk, _, hv, rfl⟩
  · rintro ⟨hk, x, hv, rfl⟩
    exact ⟨key, hk, by simp [hv]⟩

theorem mem_copiedBools (f : FlatLog) (keys : List GoString) (key : GoString) (val : Bool) :
    (⟨key, val⟩ : KeyValB) ∈ copiedBools f keys ↔
      key ∈ keys ∧ f.get key = some (JVal.bool val) := by
  simp only [copiedBools, List.mem_filterMap]
  constructor
  · rintro ⟨k, hk, h⟩
    cases hv : f.get k with
    | none => simp [hv] at h
    | some v =>
      cases v <;> simp [hv] at h
      obtain ⟨rfl, rfl⟩ := h
      exact ⟨hk, hv⟩
  · rintro ⟨hk, hv⟩
    exact ⟨key, hk, by simp [hv]⟩

theorem filterMap_key_sublist {β : Type} (key : β → GoString) (g : GoString → Option β)
    (hg : ∀ k b, g k = some b → key b = k) (keys : List GoString) :
    ((keys.filterMap g).map key).Sublist keys := by
  induction keys with
  | nil => simp
  | cons k keys ih =>
    rw [List.filterMap_cons]
    cases h : g k with
    | none => exact ih.cons k
    | some b =>
      simp only [List.map_cons, hg k b h]
      exact ih.cons₂ k

theorem copiedStrs_nodup (f : FlatLog) (keys : List GoString) (h : keys.Nodup) :
    (copiedStrs f keys).Nodup := by
  refine List.Nodup.of_map KeyValS.Key (h.sublist (filterMap_key_sublist _ _ ?_ keys))
  intro k b hb
  cases hv : f.get k with
  | none => simp [hv] at hb
  | some v => cases v <;> simp [hv] at hb; rw [← hb]

theorem copiedInts_nodup (f : FlatLog) (keys : List GoString) (h : keys.Nodup) :
    (copiedInts f keys).Nodup := by
  refine List.Nodup.of_map KeyValI.Key (h.sublist (filterMap_key_sublist _ _ ?_ keys))
  intro k b hb
  cases hv : f.get k with
  | none => simp [hv] at hb
  | some v => cases v <;> simp [hv] at hb; rw [← hb]

theorem copiedBools_nodup (f : FlatLog) (keys : List GoString) (h : keys.Nodup) :
    (copiedBools f keys).Nodup := by
  refine List.Nodup.of_map KeyValB.Key (h.sublist (filterMap_key_sublist _ _ ?_ keys))
  intro k b hb
  cases hv : f.get k with
  | none => simp [hv] at hb
  | some v => cases v <;> simp [hv] at hb; rw [← hb]

/-! ## The command: converting a record -/

theorem WithMessage_fields (sprintv : JVal → GoString) (l : LogItem) (msg : JVal) :
    (l.WithMessage sprintv msg).Timestamp = l.Timestamp ∧
    (l.WithMessage sprintv msg).Severity = l.Severity ∧
    (l.WithMessage sprintv msg).Resource = l.Resource ∧
    (l.WithMessage sprintv msg).Attributes = l.Attributes := by
  cases msg <;> exact ⟨rfl, rfl, rfl, rfl⟩

theorem SetTime_fields (l : LogToTime) (f : FlatLog) (i : LogItem) :
    (LogToTime.SetTime l f i).Severity = i.Severity ∧
    (LogToTime.SetTime l f i).Message = i.Message ∧
    (LogToTime.SetTime l f i).Resource = i.Resource ∧
    (LogToTime.SetTime l f i).Attributes = i.Attributes := by
  simp only [LogToTime.SetTime]
  rcases l f with ⟨t, e⟩
  cases e <;> exact ⟨rfl, rfl, rfl, rfl⟩

/-- The item `Convert` builds, field by field: the groups hold the typed copies
for the enumerated keys, in enumeration order. -/
theorem Convert_fields (sprintv : JVal → GoString) (c : FlatToAsn1) (f : FlatLog) :
    (c.Convert sprintv f).Timestamp = (LogToTime.SetTime c.LogToTime f LogItem.zero).Timestamp ∧
    (c.Convert sprintv f).Severity = c.LogToSev f ∧
    (c.Convert sprintv f).Message =
      (LogItem.zero.WithMessage sprintv (f.index c.MessageKey)).Message ∧
    (c.Convert sprintv f).Resource =
      ⟨copiedStrs f c.ResourceKeys.order, copiedInts f c.ResourceKeys.order,
        copiedBools f c.ResourceKeys.order⟩ ∧
    (c.Convert sprintv f).Attributes =
      ⟨copiedStrs f c.AttributeKeys.order, copiedInts f c.AttributeKeys.order,
        copiedBools f c.AttributeKeys.order⟩ := by
  have h : c.Convert sprintv f =
      c.AttributeKeys.SetAttrs f (c.ResourceKeys.SetResource f
        (SetMsg sprintv c.MessageKey f
          (LogToSev.SetSeverity c.LogToSev f (LogToTime.SetTime c.LogToTime f LogItem.zero)))) :=
    rfl
  obtain ⟨t1, t2, t3, t4⟩ := SetTime_fields c.LogToTime f LogItem.zero
  obtain ⟨m1, m2, m3, m4⟩ := WithMessage_fields sprintv
    (LogToSev.SetSeverity c.LogToSev f (LogToTime.SetTime c.LogToTime f LogItem.zero))
    (f.index c.MessageKey)
  rw [h, SetAttrs_eq, SetResource_eq]
  simp only [SetMsg, m1, m2, m3, m4]
  simp only [LogToSev.SetSeverity, LogItem.WithSeverity, t3, t4]
  refine ⟨trivial, trivial, ?_, by simp [LogItem.zero], by simp [LogItem.zero]⟩
  cases f.index c.MessageKey <;> rfl

theorem perm_eq_of_length_le_one {α : Type} {l l' : List α} (h : l.Perm l')
    (hl : l.length ≤ 1) : l = l' := by
  match l, hl with
  | [], _ => exact (List.nil_perm.mp h).symm
  | [x], _ => exact List.singleton_perm.mp h

/-! ## The command: what the sequences deliver -/

theorem forEach_collect {α : Type} (yield : List α → Bool) (l : List α) :
    ∀ tr : List α,
      ∃ n, forEach (fun tr x => (tr ++ [x], yield (tr ++ [x]))) tr l = tr ++ l.take n := by
  induction l with
  | nil => intro tr; exact ⟨0, by simp [forEach]⟩
  | cons x xs ih =>
    intro tr
    simp only [forEach]
    cases hy : yield (tr ++ [x]) with
    | true =>
      obtain ⟨n, hn⟩ := ih (tr ++ [x])
      exact ⟨n + 1, by simp [hn]⟩
    | false => exact ⟨1, by simp⟩

theorem forEach_collect_all {α : Type} (l : List α) :
    ∀ tr : List α, forEach (fun tr x => (tr ++ [x], (fun _ => true) (tr ++ [x]))) tr l = tr ++ l := by
  induction l with
  | nil => intro tr; simp [forEach]
  | cons x xs ih => intro tr; simp [forEach, ih]

theorem LinesToFlatLogs_forEach (unmarshal : List Byte → FlatLog → FlatLog × Option Error)
    {σ : Type} (yield : σ → FlatLog × Option Error → σ × Bool) (lines : List (List Byte)) :
    ∀ (s : σ) (buf : FlatLog),
      (forEach (fun (sb : σ × FlatLog) line =>
        (((yield sb.1 (unmarshal line sb.2.clear)).1, (unmarshal line sb.2.clear).1),
          (yield sb.1 (unmarshal line sb.2.clear)).2)) (s, buf) lines).1 =
      forEach yield s (yieldedLogs unmarshal buf lines) := by
  induction lines with
  | nil => intro s buf; rfl
  | cons line rest ih =>
    intro s buf
    simp only [forEach, yieldedLogs]
    rcases hy : yield s (unmarshal line buf.clear) with ⟨s1, b⟩
    cases b with
    | true => exact ih s1 _
    | false => rfl

theorem FlatLogsToItems_forEach (sprintv : JVal → GoString) (c : FlatToAsn1) {σ : Type}
    (yield : σ → LogItem × Option Error → σ × Bool) (fl : List (FlatLog × Option Error)) :
    ∀ s : σ,
      forEach (fun s (x : FlatLog × Option Error) =>
        match x.2 with
        | some e => ((yield s (LogItem.zero, some e)).1, false)
        | none => yield s (c.Convert sprintv x.1, none)) s fl =
      forEach yield s (yieldedItems sprintv c fl) := by
  induction fl with
  | nil => intro s; rfl
  | cons x rest ih =>
    intro s
    obtain ⟨f, e⟩ := x
    cases e with
    | some e =>
      simp only [forEach, yieldedItems]
      rcases yield s (LogItem.zero, some e) with ⟨s1, b⟩
      cases b <;> rfl
    | none =>
      simp only [forEach, yieldedItems]
      rcases yield s (c.Convert sprintv f, none) with ⟨s1, b⟩
      cases b with
      | true => exact ih s1
      | false => rfl

/-- The elements `ToBlobs` delivers over a list of items, after `tr0`: each comes
from the item at its index; the element of an item with an upstream error is the
last one, and the element of an item without one is what `ToDerBytes` gives, and
is followed by another one only when the consumer answered to go on. -/
theorem ToBlobs_forEach (marshal : LogItem → Blob) (yield : Consumer)
    (items : List (LogItem × Option Error)) :
    ∀ tr0 : List Elt, ∃ new : List Elt,
      forEach (fun tr (x : LogItem × Option Error) =>
        match x.2 with
        | some e => ((tr ++ [(⟨none, some e⟩ : Elt)], yield (tr ++ [⟨none, some e⟩])).1, false)
        | none =>
          (tr ++ [(⟨(x.1.ToDerBytes marshal).1, (x.1.ToDerBytes marshal).2⟩ : Elt)],
            yield (tr ++ [⟨(x.1.ToDerBytes marshal).1, (x.1.ToDerBytes marshal).2⟩])))
        tr0 items = tr0 ++ new ∧
      ∀ (pre post : List Elt) (x : Elt), new = pre ++ x :: post →
        (∃ it, items.get? pre.length = some it ∧
          ((∃ e, it.2 = some e ∧ x = ⟨none, some e⟩ ∧ post = []) ∨
           (it.2 = none ∧ it.1.ToDerBytes marshal = (x.blob, x.err) ∧
             (post ≠ [] → yield (tr0 ++ pre ++ [x]) = true)))) := by
  induction items with
  | nil =>
    intro tr0
    refine ⟨[], by simp [forEach], ?_⟩
    intro pre post x h
    simp at h
  | cons it rest ih =>
    intro tr0
    obtain ⟨i, e⟩ := it
    cases e with
    | some e =>
      refine ⟨[⟨none, some e⟩], by simp [forEach], ?_⟩
      intro pre post x h
      cases pre with
      | nil =>
        simp only [List.nil_append, List.cons.injEq] at h
        exact ⟨(i, some e), rfl, Or.inl ⟨e, rfl, h.1.symm, h.2.symm⟩⟩
      | cons p pre => simp at h
    | none =>
      simp only [forEach]
      cases hy : yield (tr0 ++ [⟨(i.ToDerBytes marshal).1, (i.ToDerBytes marshal).2⟩]) with
      | false =>
        refine ⟨[⟨(i.ToDerBytes marshal).1, (i.ToDerBytes marshal).2⟩], rfl, ?_⟩
        intro pre post x h
        cases pre with
        | nil =>
          simp only [List.nil_append, List.cons.injEq] at h
          obtain ⟨hx, hp⟩ := h
          refine ⟨(i, none), rfl, Or.inr ⟨rfl, by rw [← hx], fun hne => absurd hp.symm hne⟩⟩
        | cons p pre => simp at h
      | true =>
        obtain ⟨new, hnew, hrest⟩ :=
          ih (tr0 ++ [⟨(i.ToDerBytes marshal).1, (i.ToDerBytes marshal).2⟩])
        refine ⟨⟨(i.ToDerBytes marshal).1, (i.ToDerBytes marshal).2⟩ :: new, ?_, ?_⟩
        · simp only at hnew ⊢
          rw [hnew]
          simp
        · intro pre post x h
          cases pre with
          | nil =>
            simp only [List.nil_append, List.cons.injEq] at h
            obtain ⟨hx, _⟩ := h
            refine ⟨(i, none), rfl, Or.inr ⟨rfl, by rw [← hx], fun _ => ?_⟩⟩
            rw [← hx]
            simpa using hy
          | cons p pre =>
            simp only [List.cons_append, List.cons.injEq] at h
            obtain ⟨hp, hn⟩ := h
            obtain ⟨it, hit, hcase⟩ := hrest pre post x hn
            refine ⟨it, by simpa using hit, ?_⟩
            rcases hcase with h1 | ⟨h1, h2, h3⟩
            · exact Or.inl h1
            · refine Or.inr ⟨h1, h2, fun hne => ?_⟩
              have := h3 hne
              rw [← hp]
              simpa using this

theorem ToBlobs_run (marshal : LogItem → Blob) (yield : Consumer)
    (items : List (LogItem × Option Error)) (pre post : List Elt) (x : Elt)
    (h : (LogItems.ToBlobs marshal (Iter.ofList items)).run yield = pre ++ x :: post) :
    ∃ it, items.get? pre.length = some it ∧
      ((∃ e, it.2 = some e ∧ x = ⟨none, some e⟩ ∧ post = []) ∨
       (it.2 = none ∧ it.1.ToDerBytes marshal = (x.blob, x.err) ∧
         (post ≠ [] → yield (pre ++ [x]) = true))) := by
  obtain ⟨new, hnew, hall⟩ := ToBlobs_forEach marshal yield items []
  have hrun : (LogItems.ToBlobs marshal (Iter.ofList items)).run yield = [] ++ new := hnew
  rw [List.nil_append] at hrun
  rw [hrun] at h
  have := hall pre post x h
  simpa using this

theorem LinesToBlobs_run (sprintv : JVal → GoString)
    (marshal : LogItem → Blob)
    (unmarshal : List Byte → FlatLog → FlatLog × Option Error) (c : FlatToAsn1)
    (lines : List (List Byte)) (yield : Consumer) :
    (c.LinesToBlobs sprintv marshal unmarshal (Iter.ofList lines)).run yield =
      (LogItems.ToBlobs marshal
        (Iter.ofList (yieldedItems sprintv c (yieldedLogs unmarshal none lines)))).run yield := by
  exact (LinesToFlatLogs_forEach unmarshal
    (fun (s : List Elt) (x : FlatLog × Option Error) =>
      match x.2 with
      | some e =>
        (((fun (s : List Elt) (x : LogItem × Option Error) =>
          match x.2 with
          | some e => ((s ++ [Elt.mk none (some e)], yield (s ++ [Elt.mk none (some e)])).1, false)
          | none =>
            (s ++ [Elt.mk (x.1.ToDerBytes marshal).1 (x.1.ToDerBytes marshal).2],
              yield (s ++ [Elt.mk (x.1.ToDerBytes marshal).1 (x.1.ToDerBytes marshal).2])))
          s (LogItem.zero, some e)).1, false)
      | none =>
        (fun (s : List Elt) (x : LogItem × Option Error) =>
          match x.2 with
          | some e => ((s ++ [Elt.mk none (some e)], yield (s ++ [Elt.mk none (some e)])).1, false)
          | none =>
            (s ++ [Elt.mk (x.1.ToDerBytes marshal).1 (x.1.ToDerBytes marshal).2],
              yield (s ++ [Elt.mk (x.1.ToDerBytes marshal).1 (x.1.ToDerBytes marshal).2])))
          s (c.Convert sprintv x.1, none))
    lines [] none).trans
    (FlatLogsToItems_forEach sprintv c
      (fun (s : List Elt) (x : LogItem × Option Error) =>
        match x.2 with
        | some e => ((s ++ [Elt.mk none (some e)], yield (s ++ [Elt.mk none (some e)])).1, false)
        | none =>
          (s ++ [Elt.mk (x.1.ToDerBytes marshal).1 (x.1.ToDerBytes marshal).2],
            yield (s ++ [Elt.mk (x.1.ToDerBytes marshal).1 (x.1.ToDerBytes marshal).2])))
      (yieldedLogs unmarshal none lines) [])

/-! ## The command: the reused record buffer -/

theorem storeAll_apply (kvs : List (GoString × JVal)) :
    ∀ (m : GoString → Option JVal) (key : GoString),
      storeAll m kvs key = (kvs.reverse.lookup key).or (m key) := by
  induction kvs with
  | nil => intro m key; simp [storeAll]
  | cons kv rest ih =>
    intro m key
    have h : storeAll m (kv :: rest) = storeAll (FlatLog.set m kv.1 kv.2) rest := rfl
    rw [h, ih, List.reverse_cons, List.lookup_append, Option.or_assoc]
    congr 1
    obtain ⟨k, v⟩ := kv
    simp only [FlatLog.set, List.lookup_cons, List.lookup_nil]
    by_cases hk : key = k
    · simp [hk]
    · have hb : (key == k) = false := by simpa using hk
      simp [hk, hb]

mutual
theorem decodeValue_fits : ∀ v : JText, (decodeValue v).2 = none ↔ fitsValue v = true
  | JText.null => by simp [decodeValue, fitsValue]
  | JText.bool _ => by simp [decodeValue, fitsValue]
  | JText.num _ => by simp [decodeValue, fitsValue]
  | JText.bigNum _ => by simp [decodeValue, fitsValue]
  | JText.str _ => by simp [decodeValue, fitsValue]
  | JText.arr xs => by simp [decodeValue, fitsValue, decodeElems_fits xs]
  | JText.obj kvs => by simp [decodeValue, fitsValue, decodeMembers_fits kvs]
theorem decodeElems_fits : ∀ xs : List JText, (decodeElems xs).2 = none ↔ fitsElems xs = true
  | [] => by simp [decodeElems, fitsElems]
  | x :: xs => by
    have h1 := decodeValue_fits x
    have h2 := decodeElems_fits xs
    simp only [decodeElems, fitsElems, Bool.and_eq_true, ← h1, ← h2]
    cases (decodeValue x).2 <;> simp
theorem decodeMembers_fits : ∀ kvs : List (GoString × JText),
    (decodeMembers kvs).2 = none ↔ fitsMembers kvs = true
  | [] => by simp [decodeMembers, fitsMembers]
  | (k, v) :: kvs => by
    have h1 := decodeValue_fits v
    have h2 := decodeMembers_fits kvs
    simp only [decodeMembers, fitsMembers, Bool.and_eq_true, ← h1, ← h2]
    cases (decodeValue v).2 <;> simp
end

theorem decodeMembers_fst (kvs : List (GoString × JText)) :
    (decodeMembers kvs).1 = kvs.map fun kv => (kv.1, (decodeValue kv.2).1) := by
  induction kvs with
  | nil => simp [decodeMembers]
  | cons kv rest ih =>
    obtain ⟨k, v⟩ := kv
    simp [decodeMembers, ih]

theorem lookup_map_snd {β γ : Type} (g : β → γ) (key : GoString) (l : List (GoString × β)) :
    (l.map fun kv => (kv.1, g kv.2)).lookup key = (l.lookup key).map g := by
  induction l with
  | nil => simp
  | cons kv rest ih =>
    obtain ⟨k, v⟩ := kv
    simp only [List.map_cons, List.lookup_cons]
    cases key == k <;> simp [ih]

theorem objectMap_get (members : List (GoString × JText)) (key : GoString) :
    (objectMap members).get key =
      (members.reverse.lookup key).map fun v => (decodeValue v).1 := by
  show storeAll (fun _ => none) _ key = _
  rw [storeAll_apply, Option.or_none, ← List.map_reverse]
  exact lookup_map_snd (fun v => (decodeValue v).1) key members.reverse

theorem FlatLog.clear_entries (buf : FlatLog) : buf.clear.entries = fun _ => none := by
  cases buf <;> rfl

/-- Lines that are JSON objects: whatever the buffer held, each yielded record
holds the members of its own line and nothing else, and comes with the error the
decoder saved for that line. -/
theorem yieldedLogs_objects (parse : List Byte → Parsed) :
    ∀ (lines : List (List Byte)) (objs : List (List (GoString × JText))) (buf : FlatLog),
      lines.map parse = objs.map Parsed.object →
      yieldedLogs (jsonUnmarshal parse) buf lines =
        objs.map fun members => (objectMap members, (decodeMembers members).2) := by
  intro lines
  induction lines with
  | nil =>
    intro objs buf h
    cases objs with
    | nil => rfl
    | cons o os => simp at h
  | cons line rest ih =>
    intro objs buf h
    cases objs with
    | nil => simp at h
    | cons o os =>
      simp only [List.map_cons, List.cons.injEq] at h
      obtain ⟨h1, h2⟩ := h
      have hu : jsonUnmarshal parse line buf.clear = (objectMap o, (decodeMembers o).2) := by
        simp only [jsonUnmarshal, h1, FlatLog.clear_entries, objectMap, decodeMembers_fst]
      simp only [yieldedLogs, hu, List.map_cons]
      rw [ih os _ h2]

theorem LinesToFlatLogs_run (unmarshal : List Byte → FlatLog → FlatLog × Option Error)
    (lines : List (List Byte)) (yield : List (FlatLog × Option Error) → Bool) :
    (LinesToFlatLogs unmarshal (Iter.ofList lines)).run yield =
      forEach (fun tr x => (tr ++ [x], yield (tr ++ [x]))) [] (yieldedLogs unmarshal none lines) :=
  LinesToFlatLogs_forEach unmarshal (fun tr x => (tr ++ [x], yield (tr ++ [x]))) lines [] none

/-! ## The claims -/

/-- C2. Empty round trip: `BlobsToWriter` on the sequence that yields nothing
returns nil and leaves the sink as it found it (zero bytes written, so an empty
buffer stays empty); `GzipToBlobsLimited(limit)`, for every limit and every
consumer, on a source with zero bytes invokes the callback zero times, and
returns. -/
theorem C2_empty_round_trip (wtr : Lib.Sink) (limit : Int) (yield : Consumer) :
    (BlobsToWriter Lib.gzipWriter wtr []).err = none ∧
    (BlobsToWriter Lib.gzipWriter wtr []).world.sink = wtr ∧
    encode [] = [] ∧
    (decode limit [] yield).trace = [] ∧
    (decode limit [] yield).returned = true :=
  ⟨rfl, rfl, rfl, rfl, rfl⟩

/-- C6. Per-blob memory bound: for every reader behaviour (so for every source, be
it valid, corrupt or adversarial), every limit `≥ 0`, every consumer and every
bound on the number of members, every blob `GzipToBlobsLimited(limit)` yields has
length at most `limit`. -/
theorem C6_blob_length_bound {σ ω : Type} (zr : GzipReader σ ω) (limit : Int) (fuel : Nat)
    (rdr : σ) (yield : Consumer) (x : Elt) (b : Blob) (hl : 0 ≤ limit)
    (hx : x ∈ (GzipToBlobsLimited zr limit fuel rdr yield).trace) (hb : x.blob = some b) :
    (b.length : Int) ≤ limit := by
  have h := (GzipToBlobsLimited_shape zr limit fuel rdr yield).blob_le x b hx hb
  have h2 : ((limit.toNat : Nat) : Int) = limit := Int.toNat_of_nonneg hl
  omega

set_option maxRecDepth 100000 in
theorem C6_blob_length_bound_witness :
    (0 : Int) ≤ 2 ∧
    Elt.ok [7, 8] ∈ (GzipToBlobsLimited Lib.gzipReader 2 40
      (encode [Elt.ok [7, 8, 9]]) drain).trace ∧
    (([7, 8] : Blob).length : Int) ≤ 2 :=
  ⟨by decide, by decide,
    C6_blob_length_bound Lib.gzipReader 2 40 (encode [Elt.ok [7, 8, 9]]) drain (Elt.ok [7, 8])
      [7, 8] (by decide) (by decide) rfl⟩

/-- C8. Decoder errors are terminal: for every reader behaviour, limit and
consumer (also one that always answers to go on), an element delivered with a
non-nil error has a nil blob and is the last element delivered; and when the copy
of a member body fails with `e`, the loop delivers `(nil, e)` for that member and
nothing after it. -/
theorem C8_errors_terminal {σ ω : Type} (zr : GzipReader σ ω) (limit : Int) (fuel : Nat)
    (rdr : σ) (yield : Consumer) :
    (∀ (pre post : List Elt) (x : Elt),
      (GzipToBlobsLimited zr limit fuel rdr yield).trace = pre ++ x :: post →
      x.err ≠ none → x.blob = none ∧ post = []) ∧
    (∀ (w w2 : ω) (tr : List Elt) (buf : List Byte) (e : Error),
      copyLimited zr.read limit.toNat limit.toNat (zr.multistream w false) [] =
        (buf, some e, w2) →
      (decodeLoop zr limit yield (fuel + 1) w tr).trace = tr ++ [Elt.failed e] ∧
      (decodeLoop zr limit yield (fuel + 1) w tr).returned = true) := by
  refine ⟨fun pre post x h hx =>
    (GzipToBlobsLimited_shape zr limit fuel rdr yield).err_last pre post x h hx, ?_⟩
  intro w w2 tr buf e h
  simp only [decodeLoop, h, and_self]

set_option maxRecDepth 100000 in
theorem C8_errors_terminal_witness :
    (GzipToBlobsLimited Lib.gzipReader 4 40 (encode [Elt.ok [7, 8]] ++ [1, 2, 3]) drain).trace =
      [Elt.ok [7, 8]] ++ Elt.failed Error.ErrUnexpectedEOF :: [] ∧
    (Elt.failed Error.ErrUnexpectedEOF).err ≠ none ∧
    ((Elt.failed Error.ErrUnexpectedEOF).blob = none ∧ ([] : List Elt) = []) :=
  ⟨by decide, by decide,
    (C8_errors_terminal Lib.gzipReader 4 40 (encode [Elt.ok [7, 8]] ++ [1, 2, 3]) drain).1
      [Elt.ok [7, 8]] [] (Elt.failed Error.ErrUnexpectedEOF) (by decide) (by decide)⟩

/-- C10. Composite error on a failed body write: for every writer behaviour, when
the sequence is processed without error up to an element whose `gw.Write` fails
with `e1`, `BlobsToWriter` returns `errors.Join(e1, gw.Close())`: an error that
contains `e1`, and that also contains `e2` when `gw.Close()` fails with `e2`; and
the failing element is the last one pulled from the sequence. -/
theorem C10_composite_error {σ ω : Type} (gw : GzipWriter σ ω) (wtr : σ)
    (pre rest : List Elt) (x : Elt) (w1 : ω) (e1 : Error)
    (hpre : (BlobsToWriter gw wtr pre).err = none) (hx : x.err = none)
    (hw : gw.write (BlobsToWriter gw wtr pre).world (x.blob.getD []) = (w1, some e1)) :
    (BlobsToWriter gw wtr (pre ++ x :: rest)).err = errorsJoin (some e1) (gw.close w1).2 ∧
    (∃ r, (BlobsToWriter gw wtr (pre ++ x :: rest)).err = some r ∧ errorsIs r e1 = true ∧
      ∀ e2, (gw.close w1).2 = some e2 → errorsIs r e2 = true) ∧
    (BlobsToWriter gw wtr (pre ++ x :: rest)).consumed = pre.length + 1 := by
  simp only [BlobsToWriter] at hpre hw ⊢
  obtain ⟨_, h2⟩ := encodeLoop_append gw pre (gw.newWriter wtr) (x :: rest) hpre
  rw [h2]
  simp only [encodeLoop, hx, hw]
  refine ⟨trivial, ?_, by omega⟩
  cases hc : (gw.close w1).2 with
  | none =>
    refine ⟨Error.join1 e1, rfl, ?_, fun e2 h => by simp at h⟩
    simp [errorsIs, errorsIs_self]
  | some e =>
    refine ⟨Error.join2 e1 e, rfl, ?_, fun e2 h => ?_⟩
    · simp [errorsIs, errorsIs_self]
    · simp only [Option.some.injEq] at h
      subst h
      simp [errorsIs, errorsIs_self]

theorem C10_composite_error_witness :
    (BlobsToWriter Lib.gzipWriter (⟨[], some 30, Error.other 7⟩ : Lib.Sink)
        ([Elt.ok [1]] ++ Elt.ok [2] :: [Elt.ok [3]])).err =
      errorsJoin (some (Error.other 7))
        (Lib.gzipWriter.close
          (Lib.gzipWriter.write
            (BlobsToWriter Lib.gzipWriter (⟨[], some 30, Error.other 7⟩ : Lib.Sink)
              [Elt.ok [1]]).world [2]).1).2 ∧
    (∃ r, (BlobsToWriter Lib.gzipWriter (⟨[], some 30, Error.other 7⟩ : Lib.Sink)
        ([Elt.ok [1]] ++ Elt.ok [2] :: [Elt.ok [3]])).err = some r ∧
      errorsIs r (Error.other 7) = true ∧
      ∀ e2, (Lib.gzipWriter.close
          (Lib.gzipWriter.write
            (BlobsToWriter Lib.gzipWriter (⟨[], some 30, Error.other 7⟩ : Lib.Sink)
              [Elt.ok [1]]).world [2]).1).2 = some e2 → errorsIs r e2 = true) ∧
    (BlobsToWriter Lib.gzipWriter (⟨[], some 30, Error.other 7⟩ : Lib.Sink)
        ([Elt.ok [1]] ++ Elt.ok [2] :: [Elt.ok [3]])).consumed = [Elt.ok [1]].length + 1 :=
  C10_composite_error Lib.gzipWriter ⟨[], some 30, Error.other 7⟩ [Elt.ok [1]] [Elt.ok [3]]
    (Elt.ok [2]) _ (Error.other 7) (by decide) rfl (by decide)

/-- C1 (broken by the code at the limit). The claim promises the round trip for
every blob of length at most `limit`, a blob of length exactly `limit` included.
With `limit = 32768` and one blob of 32768 zero bytes, `BlobsToWriter` returns
nil, and the decoder yields the blob and then an element carrying
`gzip.ErrHeader`: the limited copy stops after `limit` bytes without the reader
having met the end of the member, so the next header is read from the final block
and the trailer. -/
theorem C1_exact_limit_breaks_round_trip :
    (BlobsToWriter Lib.gzipWriter Lib.Sink.buffer [Elt.ok (List.replicate 32768 0)]).err = none ∧
    (decode 32768 (encode [Elt.ok (List.replicate 32768 0)]) drain).trace =
      [Elt.ok (List.replicate 32768 0), Elt.failed Error.ErrHeader] ∧
    (decode 32768 (encode [Elt.ok (List.replicate 32768 0)]) drain).returned = true := by
  have h := decode_exact 32768 (List.replicate 32768 0) (by decide)
    (by rw [List.length_replicate]; rfl) (by rw [List.length_replicate]; rfl)
  exact ⟨(BlobsToWriter_oks [List.replicate 32768 0]).1, h.1, h.2⟩

/-- C3 (as stated, false). With `limit = 1` and the blob `"ab"`, the decoder
yields `"a"` with a nil error and then an element carrying
`io.ErrUnexpectedEOF`. -/
theorem C3_counterexample :
    (decode 1 (encode [Elt.ok [97, 98]]) drain).trace =
      [Elt.ok [97], Elt.failed Error.ErrUnexpectedEOF] := by
  decide

/-- C3 (amended). Oversized blob truncation: for every limit `> 0` and every blob
`b` longer than the limit, decoding the stream written for `[b]` yields, as its
first element, the blob `b[0:limit]` with a nil error; the reader is then inside
the unfinished member, and at least one more element is delivered. -/
theorem C3_truncation (limit : Int) (b : Blob) (hl : 0 < limit)
    (hb : limit < (b.length : Int)) :
    ∃ more, (decode limit (encode [Elt.ok b]) drain).trace =
        Elt.ok (b.take limit.toNat) :: more ∧ more ≠ [] := by
  have h1 := toNat_pos limit hl
  obtain ⟨z1, hc, _, hB, _⟩ := copy_member limit.toNat b [] h1
  have hs := hB (by omega)
  have hfuel : (member b ++ ([] : List Byte)).length + 1 =
      (member b ++ ([] : List Byte)).length - 1 + 1 + 1 := by
    rw [member_eq]
    simp only [List.length_append, Lib.gzipHeader, List.length_cons, List.length_nil]
    omega
  have hne := Lib.readHeader_ne_eof z1.src hs
  have hr : Lib.gzipReader.reset z1 =
      (Lib.Reader.fresh (Lib.readHeader z1.src).1 (Lib.readHeader z1.src).2,
        (Lib.readHeader z1.src).2) := rfl
  simp only [decode, GzipToBlobsLimited, encode_single, newReader_member]
  rw [hfuel]
  generalize (member b ++ ([] : List Byte)).length - 1 = f
  rw [decodeLoop]
  simp only [hc, drain, if_true, hr, List.nil_append]
  cases he : (Lib.readHeader z1.src).2 with
  | none =>
    simp only
    obtain ⟨more, hm, hm2⟩ := decodeLoop_extends Lib.gzipReader limit drain
      (f + 1) (Lib.Reader.fresh (Lib.readHeader z1.src).1 none) [Elt.ok (b.take limit.toNat)]
    exact ⟨more, by rw [hm]; rfl, hm2 (by omega)⟩
  | some e =>
    have : e ≠ Error.EOF := fun h => hne (by rw [he, h])
    simp only [this, if_false]
    exact ⟨[Elt.failed e], rfl, by simp⟩

theorem C3_truncation_witness :
    (0 : Int) < 1 ∧ (1 : Int) < (([97, 98] : Blob).length : Int) ∧
    ∃ more, (decode 1 (encode [Elt.ok [97, 98]]) drain).trace =
        Elt.ok (([97, 98] : Blob).take (1 : Int).toNat) :: more ∧ more ≠ [] :=
  ⟨by decide, by decide, C3_truncation 1 [97, 98] (by decide) (by decide)⟩

/-- C4. Mid-sequence producer error: when the sequence yields `k` blobs with nil
errors and then an element carrying the error `e`, `BlobsToWriter` (on an empty
buffer) returns exactly `e`, pulls nothing after that element, and the sink holds
exactly the bytes written for the `k` blobs alone; so decoding the sink, with a
limit above the length of every blob, yields those `k` blobs and then ends with
no error. -/
theorem C4_producer_error (bs : List Blob) (x : Option Blob) (e : Error) (rest : List Elt) :
    (BlobsToWriter Lib.gzipWriter Lib.Sink.buffer (bs.map Elt.ok ++ ⟨x, some e⟩ :: rest)).err =
      some e ∧
    encode (bs.map Elt.ok ++ ⟨x, some e⟩ :: rest) = encode (bs.map Elt.ok) ∧
    (BlobsToWriter Lib.gzipWriter Lib.Sink.buffer
      (bs.map Elt.ok ++ ⟨x, some e⟩ :: rest)).consumed = bs.length + 1 ∧
    (∀ limit : Int, 0 < limit → (∀ b ∈ bs, (b.length : Int) < limit) →
      (decode limit (encode (bs.map Elt.ok ++ ⟨x, some e⟩ :: rest)) drain).trace =
        bs.map Elt.ok ∧
      (decode limit (encode (bs.map Elt.ok ++ ⟨x, some e⟩ :: rest)) drain).returned = true) := by
  have h := encodeLoop_oks bs Lib.Sink.buffer (⟨x, some e⟩ :: rest) rfl
  have hn : Lib.gzipWriter.newWriter Lib.Sink.buffer = Lib.Writer.new Lib.Sink.buffer := rfl
  have henc : encode (bs.map Elt.ok ++ ⟨x, some e⟩ :: rest) = encode (bs.map Elt.ok) := by
    rw [(BlobsToWriter_oks bs).2.1]
    simp only [encode, BlobsToWriter, hn, h]
    simp [encodeLoop, Lib.Writer.new, Lib.Sink.buffer]
  refine ⟨?_, henc, ?_, ?_⟩
  · simp only [BlobsToWriter, hn, h]
    simp [encodeLoop]
  · simp only [BlobsToWriter, hn, h]
    simp only [encodeLoop]
    omega
  · intro limit hl hb
    rw [henc, round_trip limit bs (toNat_pos limit hl) (fun b hx => fits_of_lt limit b (hb b hx))]
    exact ⟨rfl, rfl⟩

theorem C4_producer_error_witness :
    (0 : Int) < 5 ∧ (∀ b ∈ ([[1, 2]] : List Blob), (b.length : Int) < 5) ∧
    (decode 5 (encode (([[1, 2]] : List Blob).map Elt.ok ++
        ⟨none, some (Error.other 3)⟩ :: [Elt.ok [4]])) drain).trace =
      ([[1, 2]] : List Blob).map Elt.ok ∧
    (decode 5 (encode (([[1, 2]] : List Blob).map Elt.ok ++
        ⟨none, some (Error.other 3)⟩ :: [Elt.ok [4]])) drain).returned = true :=
  ⟨by decide, by decide,
    (C4_producer_error [[1, 2]] none (Error.other 3) [Elt.ok [4]]).2.2.2 5 (by decide)
      (by decide)⟩

/-- C7. Clean end-of-stream is told apart from every other failure at a member
boundary: for every limit `> 0`, blobs each shorter than the limit, and bytes `g`
after their stream, decoding yields the blobs in order with nil errors and then
(i) ends with no error element when `g` is empty; (ii) yields exactly one final
element, carrying the non-nil error `e` of the header read, when `g` is not empty
and does not begin with a complete valid member header; in particular
`io.ErrUnexpectedEOF` for a `g` of one to nine bytes. -/
theorem C7_clean_end_of_stream (limit : Int) (bs : List Blob) (g : List Byte) (hl : 0 < limit)
    (hb : ∀ b ∈ bs, (b.length : Int) < limit) :
    (g = [] →
      (decode limit (encode (bs.map Elt.ok) ++ g) drain).trace = bs.map Elt.ok ∧
      (decode limit (encode (bs.map Elt.ok) ++ g) drain).returned = true) ∧
    (g ≠ [] → ∀ e, (Lib.readHeader g).2 = some e →
      e ≠ Error.EOF ∧
      (decode limit (encode (bs.map Elt.ok) ++ g) drain).trace =
        bs.map Elt.ok ++ [Elt.failed e] ∧
      (decode limit (encode (bs.map Elt.ok) ++ g) drain).returned = true) ∧
    (g ≠ [] → g.length < 10 →
      (decode limit (encode (bs.map Elt.ok) ++ g) drain).trace =
        bs.map Elt.ok ++ [Elt.failed Error.ErrUnexpectedEOF]) := by
  have h1 := toNat_pos limit hl
  have hf : ∀ b ∈ bs, Fits limit.toNat b := fun b hx => fits_of_lt limit b (hb b hx)
  have hne : g ≠ [] → ∀ e, (Lib.readHeader g).2 = some e →
      e ≠ Error.EOF ∧
      (decode limit (encode (bs.map Elt.ok) ++ g) drain).trace =
        bs.map Elt.ok ++ [Elt.failed e] ∧
      (decode limit (encode (bs.map Elt.ok) ++ g) drain).returned = true := by
    intro hg e he
    have hee : e ≠ Error.EOF := fun h => Lib.readHeader_ne_eof g hg (by rw [he, h])
    rw [(BlobsToWriter_oks bs).2.1, decode_stream limit h1 bs g e he hf]
    simp [closing, hee]
  refine ⟨?_, hne, ?_⟩
  · intro hg
    subst hg
    rw [List.append_nil, round_trip limit bs h1 hf]
    exact ⟨rfl, rfl⟩
  · intro hg hlen
    have he : (Lib.readHeader g).2 = some Error.ErrUnexpectedEOF := by
      simp [Lib.readHeader, hg, hlen]
    exact (hne hg _ he).2.1

theorem C7_clean_end_of_stream_witness :
    (0 : Int) < 5 ∧ (∀ b ∈ ([[1, 2], []] : List Blob), (b.length : Int) < 5) ∧
    (([9] : List Byte) ≠ [] → ([9] : List Byte).length < 10 →
      (decode 5 (encode (([[1, 2], []] : List Blob).map Elt.ok) ++ [9]) drain).trace =
        ([[1, 2], []] : List Blob).map Elt.ok ++ [Elt.failed Error.ErrUnexpectedEOF]) :=
  ⟨by decide, by decide,
    (C7_clean_end_of_stream 5 [[1, 2], []] [9] (by decide) (by decide)).2.2⟩

/-- C9. Early stop is respected: for a stream of two or more members whose bodies
are each shorter than the limit, a consumer that answers `false` on the first blob
is not called again, the function returns, and the source is left with exactly
the bytes of the members after the first. -/
theorem C9_early_stop (limit : Int) (b1 b2 : Blob) (bs : List Blob) (yield : Consumer)
    (hl : 0 < limit) (hb : ∀ b ∈ b1 :: b2 :: bs, (b.length : Int) < limit)
    (hy : yield [Elt.ok b1] = false) :
    (decode limit (encode ((b1 :: b2 :: bs).map Elt.ok)) yield).trace = [Elt.ok b1] ∧
    (decode limit (encode ((b1 :: b2 :: bs).map Elt.ok)) yield).world.src =
      encode ((b2 :: bs).map Elt.ok) ∧
    (decode limit (encode ((b1 :: b2 :: bs).map Elt.ok)) yield).returned = true := by
  have h1 := toNat_pos limit hl
  have hf : Fits limit.toNat b1 := fits_of_lt limit b1 (hb b1 (List.mem_cons_self _ _))
  rw [(BlobsToWriter_oks (b1 :: b2 :: bs)).2.1, (BlobsToWriter_oks (b2 :: bs)).2.1,
    stream_cons b1]
  obtain ⟨z1, hd, hs⟩ := decodeLoop_member_stop limit yield
    (member b1 ++ stream (b2 :: bs)).length b1 (stream (b2 :: bs)) [] h1 hf hy
  simp only [decode, GzipToBlobsLimited, newReader_member, hd]
  exact ⟨rfl, hs, trivial⟩

theorem C9_early_stop_witness :
    (0 : Int) < 5 ∧ (∀ b ∈ ([1, 2] : Blob) :: [3] :: [[4]], (b.length : Int) < 5) ∧
    (fun _ => false : Consumer) [Elt.ok [1, 2]] = false ∧
    (decode 5 (encode ((([1, 2] : Blob) :: [3] :: [[4]]).map Elt.ok)) (fun _ => false)).trace =
      [Elt.ok [1, 2]] ∧
    (decode 5 (encode ((([1, 2] : Blob) :: [3] :: [[4]]).map Elt.ok))
      (fun _ => false)).world.src = encode ((([3] : Blob) :: [[4]]).map Elt.ok) ∧
    (decode 5 (encode ((([1, 2] : Blob) :: [3] :: [[4]]).map Elt.ok))
      (fun _ => false)).returned = true :=
  ⟨by decide, by decide, rfl,
    C9_early_stop 5 [1, 2] [3] [[4]] (fun _ => false) (by decide) (by decide) rfl⟩

/-- C5 (as stated, false). Two members with the bodies `"aaaa"` and `"bb"`, limit
10: both blobs are the slice `arr0[0:len]` of the same backing array of the
buffer; the first blob reads `"aaaa"` when it is handed over and `"bbaa"` once the
decoder has produced the second blob. -/
theorem C5_counterexample :
    ∃ h1 h2, decodeShared 10 (encode [Elt.ok [97, 97, 97, 97], Elt.ok [98, 98]]) drain =
        [Yield.mk (some ⟨0, 4⟩) none h1, Yield.mk (some ⟨0, 2⟩) none h2] ∧
      h1.view ⟨0, 4⟩ = [97, 97, 97, 97] ∧
      h2.view ⟨0, 4⟩ = [98, 98, 97, 97] ∧
      h2.view ⟨0, 4⟩ ≠ [97, 97, 97, 97] := by
  obtain ⟨more, hm, hnil⟩ := shared_two_members 10 [97, 97, 97, 97] [98, 98] []
    (by decide) (by decide) (by decide) (by decide)
  have henc : encode [Elt.ok [97, 97, 97, 97], Elt.ok [98, 98]] =
      member [97, 97, 97, 97] ++ (member [98, 98] ++ []) := by
    have h := (BlobsToWriter_oks [[97, 97, 97, 97], [98, 98]]).2.1
    simp only [List.map_cons, List.map_nil] at h
    rw [h, stream_cons, stream_cons, stream_nil]
  rw [hnil rfl] at hm
  have hv := view_overwritten [97, 97, 97, 97] [98, 98]
    ((List.replicate 512 0).drop ([97, 97, 97, 97] : List Byte).length)
  refine ⟨_, _, by rw [henc, hm]; rfl, view_first [97, 97, 97, 97] _, ?_, ?_⟩
  · exact hv.trans rfl
  · intro h
    exact absurd (hv.symm.trans h) (by decide)

/-- C5 (amended). A blob holds the body of its member when it is handed to the
consumer, and only until the decoder goes on: the decoder reuses the storage of
its buffer. For a stream of two or more members whose first two bodies `a` and
`b` are shorter than the limit and at most 512 bytes long, both blobs are slices
of the same array; the first reads `a` when handed over, the second reads `b`,
and, once the second is produced, the first reads `(b ++ a[len(b):])[0:len(a)]`:
the bytes of `b` as far as they reach. -/
theorem C5_storage_reused (limit : Int) (a b : Blob) (bs : List Blob)
    (ha : (a.length : Int) < limit) (hb : (b.length : Int) < limit)
    (ha5 : a.length ≤ 512) (hb5 : b.length ≤ 512) :
    ∃ h1 h2 more, decodeShared limit (encode ((a :: b :: bs).map Elt.ok)) drain =
        Yield.mk (some ⟨0, a.length⟩) none h1 :: Yield.mk (some ⟨0, b.length⟩) none h2 :: more ∧
      h1.view ⟨0, a.length⟩ = a ∧
      h2.view ⟨0, b.length⟩ = b ∧
      h2.view ⟨0, a.length⟩ = (b ++ a.drop b.length).take a.length := by
  obtain ⟨more, hm, _⟩ := shared_two_members limit a b (stream bs)
    (by omega) (by omega) ha5 hb5
  have henc : encode ((a :: b :: bs).map Elt.ok) = member a ++ (member b ++ stream bs) := by
    rw [(BlobsToWriter_oks (a :: b :: bs)).2.1, stream_cons, stream_cons]
  exact ⟨_, _, more, by rw [henc, hm], view_first a _, view_first b _,
    view_overwritten a b _⟩

theorem C5_storage_reused_witness :
    (([1, 2, 3] : Blob).length : Int) < 10 ∧ (([7] : Blob).length : Int) < 10 ∧
    ([1, 2, 3] : Blob).length ≤ 512 ∧ ([7] : Blob).length ≤ 512 ∧
    ∃ h1 h2 more, decodeShared 10 (encode ((([1, 2, 3] : Blob) :: [7] :: []).map Elt.ok)) drain =
        Yield.mk (some ⟨0, ([1, 2, 3] : Blob).length⟩) none h1 ::
          Yield.mk (some ⟨0, ([7] : Blob).length⟩) none h2 :: more ∧
      h1.view ⟨0, ([1, 2, 3] : Blob).length⟩ = [1, 2, 3] ∧
      h2.view ⟨0, ([7] : Blob).length⟩ = [7] ∧
      h2.view ⟨0, ([1, 2, 3] : Blob).length⟩ =
        (([7] : Blob) ++ ([1, 2, 3] : Blob).drop ([7] : Blob).length).take
          ([1, 2, 3] : Blob).length :=
  ⟨by decide, by decide, by decide, by decide,
    C5_storage_reused 10 [1, 2, 3] [7] [] (by decide) (by decide) (by decide) (by decide)⟩

/-- C11. Encoder result: for every writer behaviour, sink and finite sequence,
`BlobsToWriter` returns nil if and only if no element of the sequence carries an
error and, for every blob, both `gw.Write` and `gw.Close` succeed; on the
sequence that yields nothing it returns nil without calling the writer, and the
sink holds the bytes it held before. -/
theorem C11_encoder_result {σ ω : Type} (gw : GzipWriter σ ω) (wtr : σ) (blobs : List Elt) :
    ((BlobsToWriter gw wtr blobs).err = none ↔ AllSucceed gw (gw.newWriter wtr) blobs) ∧
    (BlobsToWriter gw wtr []).err = none ∧
    (BlobsToWriter gw wtr []).world = gw.newWriter wtr ∧
    (BlobsToWriter gw wtr []).consumed = 0 ∧
    ∀ s : Lib.Sink, (BlobsToWriter Lib.gzipWriter s []).world.sink = s :=
  ⟨encodeLoop_err_none_iff gw blobs _, rfl, rfl, rfl, fun _ => rfl⟩

/-- C12. One standalone member per blob, back to back, with no extra framing: on
a sink that does not fail, the bytes `BlobsToWriter` writes for `xs ++ ys` are the
bytes it writes for `xs` followed by the bytes it writes for `ys`; the stream of a
list of blobs is the concatenation of the streams of its one-blob sequences; the
bytes are appended to whatever the sink held before; and the bytes written for a
blob `b` are the stream of the one-blob sequence `[b]`, whatever blobs were
written before it and whatever the sink held: they depend on `b` only. -/
theorem C12_members_concatenate (xs ys : List Blob) :
    encode ((xs ++ ys).map Elt.ok) = encode (xs.map Elt.ok) ++ encode (ys.map Elt.ok) ∧
    encode (xs.map Elt.ok) = (xs.map fun b => encode [Elt.ok b]).flatten ∧
    (∀ (data : List Byte) (fault : Error),
      (BlobsToWriter Lib.gzipWriter ⟨data, none, fault⟩ (xs.map Elt.ok)).world.sink.data =
        data ++ encode (xs.map Elt.ok)) ∧
    (∀ (b : Blob) (data : List Byte) (fault : Error),
      (BlobsToWriter Lib.gzipWriter ⟨data, none, fault⟩
        ((xs ++ [b]).map Elt.ok)).world.sink.data =
      (BlobsToWriter Lib.gzipWriter ⟨data, none, fault⟩ (xs.map Elt.ok)).world.sink.data ++
        encode [Elt.ok b]) := by
  have hs : ∀ bs : List Blob, encode (bs.map Elt.ok) = stream bs :=
    fun bs => (BlobsToWriter_oks bs).2.1
  have h1 : ∀ b : Blob, encode [Elt.ok b] = member b := fun b => by
    rw [encode_single, List.append_nil]
  have h3 : ∀ (bs : List Blob) (data : List Byte) (fault : Error),
      (BlobsToWriter Lib.gzipWriter ⟨data, none, fault⟩ (bs.map Elt.ok)).world.sink.data =
        data ++ stream bs := by
    intro bs data fault
    have h := encodeLoop_oks bs ⟨data, none, fault⟩ [] rfl
    simp only [List.append_nil] at h
    have hn : Lib.gzipWriter.newWriter ⟨data, none, fault⟩ =
        Lib.Writer.new ⟨data, none, fault⟩ := rfl
    simp only [BlobsToWriter, hn, h]
    simp [encodeLoop, Lib.Writer.new]
  refine ⟨?_, ?_, ?_, ?_⟩
  · rw [hs, hs, hs]
    simp [stream]
  · rw [hs]
    simp only [stream]
    congr 1
    exact List.map_congr_left fun b _ => (h1 b).symm
  · intro data fault
    rw [hs]
    exact h3 xs data fault
  · intro b data fault
    rw [h3, h3, h1]
    simp [stream]

/-- C17. Default ceiling: for every reader behaviour, source and consumer,
`GzipToBlobs` is `GzipToBlobsLimited(1048576)`; `BlobSizeMaxDefault` is 1048576;
every blob it yields has at most 1048576 bytes; and the limit bounds each member
by itself, not the stream: blobs that are each shorter than 1048576 bytes all
come back, however many there are. -/
theorem C17_default_ceiling {σ ω : Type} (zr : GzipReader σ ω) (fuel : Nat) (rdr : σ)
    (yield : Consumer) :
    GzipToBlobs zr fuel rdr yield = GzipToBlobsLimited zr 1048576 fuel rdr yield ∧
    BlobSizeMaxDefault = 1048576 ∧
    (∀ (x : Elt) (b : Blob), x ∈ (GzipToBlobs zr fuel rdr yield).trace → x.blob = some b →
      b.length ≤ 1048576) ∧
    (∀ bs : List Blob, (∀ b ∈ bs, b.length < 1048576) →
      (GzipToBlobs Lib.gzipReader ((encode (bs.map Elt.ok)).length + 1)
        (encode (bs.map Elt.ok)) drain).trace = bs.map Elt.ok) := by
  have ht : (1048576 : Int).toNat = 1048576 := rfl
  refine ⟨rfl, rfl, fun x b hx hb => ?_, fun bs hbs => ?_⟩
  · have h := (GzipToBlobsLimited_shape zr 1048576 fuel rdr yield).blob_le x b hx hb
    rw [ht] at h
    exact h
  · have hf : ∀ b ∈ bs, Fits (1048576 : Int).toNat b := fun b hb => by
      rw [ht]
      exact Or.inl (hbs b hb)
    have h1 : 1 ≤ (1048576 : Int).toNat := by
      rw [ht]
      exact Nat.succ_le_of_lt (by norm_num)
    have h := round_trip 1048576 bs h1 hf
    show (decode 1048576 (encode (bs.map Elt.ok)) drain).trace = _
    rw [h]

theorem C17_default_ceiling_witness :
    (∀ b ∈ ([[1], [2, 3]] : List Blob), b.length < 1048576) ∧
    (GzipToBlobs Lib.gzipReader ((encode (([[1], [2, 3]] : List Blob).map Elt.ok)).length + 1)
      (encode (([[1], [2, 3]] : List Blob).map Elt.ok)) drain).trace =
        ([[1], [2, 3]] : List Blob).map Elt.ok :=
  ⟨by decide, (C17_default_ceiling Lib.gzipReader 0 [] drain).2.2.2 [[1], [2, 3]] (by decide)⟩

/-- C15. Severity mapping with default: for every table `m`, key `k` and record
`f`, `SeverityStringToEnumFromMap(m).LogToSeverity(k)(f)` is `m[s]` when `f[k]` is
a string `s` that is a key of `m`, and `SeverityUnspecified`, which is 0, when `k`
is absent from `f`, when `f[k]` is not a string, and when it is a string that is
not a key of `m`; `SetSeverity` sets the field `Severity` and leaves the other
fields of the item as they were. -/
theorem C15_severity_mapping (m : GoString → Option Severity) (k : GoString) (f : FlatLog) :
    (∀ s v, f.get k = some (JVal.str s) → m s = some v →
      LogToSeverity (SeverityStringToEnumFromMap m) k f = v) ∧
    (f.get k = none →
      LogToSeverity (SeverityStringToEnumFromMap m) k f = SeverityUnspecified) ∧
    (∀ val, f.get k = some val → (∀ s, val ≠ JVal.str s) →
      LogToSeverity (SeverityStringToEnumFromMap m) k f = SeverityUnspecified) ∧
    (∀ s, f.get k = some (JVal.str s) → m s = none →
      LogToSeverity (SeverityStringToEnumFromMap m) k f = SeverityUnspecified) ∧
    SeverityUnspecified = 0 ∧
    (∀ (l : LogToSev) (i : LogItem),
      LogToSev.SetSeverity l f i = ⟨i.Timestamp, l f, i.Message, i.Resource, i.Attributes⟩) := by
  refine ⟨?_, ?_, ?_, ?_, rfl, fun _ _ => rfl⟩
  · intro s v hs hv
    simp [LogToSeverity, FlatLog.index, hs, SeverityStringToEnumFromMap, hv]
  · intro h
    simp [LogToSeverity, FlatLog.index, h]
  · intro val h hne
    cases val with
    | str s => exact absurd rfl (hne s)
    | _ => simp [LogToSeverity, FlatLog.index, h]
  · intro s hs hm
    simp [LogToSeverity, FlatLog.index, hs, SeverityStringToEnumFromMap, hm]

theorem C15_severity_mapping_witness :
    FlatLog.get (some fun key => if key = [115] then some (JVal.str [105]) else none) [115] =
      some (JVal.str [105]) ∧
    (fun s : GoString => if s = [105] then some SeverityInfo else none) [105] = some 9 ∧
    LogToSeverity
      (SeverityStringToEnumFromMap fun s => if s = [105] then some SeverityInfo else none) [115]
      (some fun key => if key = [115] then some (JVal.str [105]) else none) = 9 :=
  ⟨rfl, rfl,
    (C15_severity_mapping (fun s => if s = [105] then some SeverityInfo else none) [115]
      (some fun key => if key = [115] then some (JVal.str [105]) else none)).1 [105] 9 rfl rfl⟩

/-- C16. Typed copy of configured fields: for every key set, record `f` and item
`i`, `SetResource(f, i)` is `i` with the Resource group extended, after the
entries it had, by the entries for the enumerated keys: in `Strs`, `Ints` and
`Bools` one entry for each key of the set that `f` holds with a string, a number
(converted with `int64`) or a boolean, holding that key and value, and nothing
for keys that are absent from `f` or hold null, an array or an object;
`Timestamp`, `Severity`, `Message` and the Attributes group are unchanged.
`SetAttrs` does the same to the Attributes group and leaves the Resource group
unchanged. -/
theorem C16_typed_copy (r : ResourceKeys) (a : AttributeKeys) (f : FlatLog) (i : LogItem) :
    r.SetResource f i = ⟨i.Timestamp, i.Severity, i.Message,
      ⟨i.Resource.Strs ++ copiedStrs f r.order, i.Resource.Ints ++ copiedInts f r.order,
        i.Resource.Bools ++ copiedBools f r.order⟩, i.Attributes⟩ ∧
    a.SetAttrs f i = ⟨i.Timestamp, i.Severity, i.Message, i.Resource,
      ⟨i.Attributes.Strs ++ copiedStrs f a.order, i.Attributes.Ints ++ copiedInts f a.order,
        i.Attributes.Bools ++ copiedBools f a.order⟩⟩ ∧
    (∀ keys : List GoString, keys.Nodup →
      (∀ key val, (⟨key, val⟩ : KeyValS) ∈ copiedStrs f keys ↔
        key ∈ keys ∧ f.get key = some (JVal.str val)) ∧
      (∀ key val, (⟨key, val⟩ : KeyValI) ∈ copiedInts f keys ↔
        key ∈ keys ∧ ∃ x, f.get key = some (JVal.num x) ∧ val = int64OfFloat64 x) ∧
      (∀ key val, (⟨key, val⟩ : KeyValB) ∈ copiedBools f keys ↔
        key ∈ keys ∧ f.get key = some (JVal.bool val)) ∧
      (copiedStrs f keys).Nodup ∧ (copiedInts f keys).Nodup ∧ (copiedBools f keys).Nodup) :=
  ⟨SetResource_eq r f i, SetAttrs_eq a f i, fun keys h =>
    ⟨mem_copiedStrs f keys, mem_copiedInts f keys, mem_copiedBools f keys,
      copiedStrs_nodup f keys h, copiedInts_nodup f keys h, copiedBools_nodup f keys h⟩⟩

theorem C16_typed_copy_witness :
    ([[97], [98]] : List GoString).Nodup ∧
    (copiedStrs (some fun key => if key = [97] then some (JVal.str [120]) else none)
      [[97], [98]]).Nodup :=
  ⟨by decide,
    ((C16_typed_copy ⟨[[97], [98]]⟩ ⟨[]⟩
      (some fun key => if key = [97] then some (JVal.str [120]) else none) LogItem.zero).2.2
      [[97], [98]] (by decide)).2.2.2.1⟩

/-- C14 (as stated, false). The key set `{"a", "b"}` and the record
`{"a": "x", "b": "y"}`: enumerating the set as `a, b` gives the item with `Strs`
`[(a, x), (b, y)]`, enumerating it as `b, a` gives `[(b, y), (a, x)]`; the two
items differ, and so do their bytes under every encoder that tells items
apart. -/
theorem C14_counterexample :
    ([[97], [98]] : List GoString).Perm [[98], [97]] ∧
    FlatToAsn1.Convert (fun _ => [])
        ⟨[109], ⟨[[97], [98]]⟩, ⟨[]⟩, fun _ => (0, none), fun _ => 0⟩
        (some fun key => if key = [97] then some (JVal.str [120])
          else if key = [98] then some (JVal.str [121]) else none) ≠
      FlatToAsn1.Convert (fun _ => [])
        ⟨[109], ⟨[[98], [97]]⟩, ⟨[]⟩, fun _ => (0, none), fun _ => 0⟩
        (some fun key => if key = [97] then some (JVal.str [120])
          else if key = [98] then some (JVal.str [121]) else none) ∧
    ∀ marshal : LogItem → Blob, Function.Injective marshal →
      (FlatToAsn1.Convert (fun _ => [])
        ⟨[109], ⟨[[97], [98]]⟩, ⟨[]⟩, fun _ => (0, none), fun _ => 0⟩
        (some fun key => if key = [97] then some (JVal.str [120])
          else if key = [98] then some (JVal.str [121]) else none)).ToDerBytes marshal ≠
      (FlatToAsn1.Convert (fun _ => [])
        ⟨[109], ⟨[[98], [97]]⟩, ⟨[]⟩, fun _ => (0, none), fun _ => 0⟩
        (some fun key => if key = [97] then some (JVal.str [120])
          else if key = [98] then some (JVal.str [121]) else none)).ToDerBytes marshal := by
  refine ⟨List.Perm.swap _ _ _, by decide, fun marshal hm h => ?_⟩
  simp only [LogItem.ToDerBytes, Prod.mk.injEq, Option.some.injEq, and_true] at h
  exact absurd (hm h) (by decide)

/-- C14 (amended). Record encoding is fixed up to the order of the entries of a
list: for a fixed message key, time and severity functions and record `f`, and two
enumerations of the same resource key set and of the same attribute key set,
`Convert(f)` gives items with the same `Timestamp`, `Severity` and `Message` and,
in each of the six lists, the same entries in the order of the enumeration; when
in each group at most one configured key of each value type is present in `f`, the
two items are equal and `ToDerBytes` gives the same result. -/
theorem C14_determinism_up_to_order (sprintv : JVal → GoString)
    (marshal : LogItem → Blob) (m : GoString) (t : LogToTime)
    (s : LogToSev) (r r2 a a2 : List GoString) (f : FlatLog)
    (hr : r.Perm r2) (ha : a.Perm a2) :
    (FlatToAsn1.Convert sprintv ⟨m, ⟨r⟩, ⟨a⟩, t, s⟩ f).Timestamp =
      (FlatToAsn1.Convert sprintv ⟨m, ⟨r2⟩, ⟨a2⟩, t, s⟩ f).Timestamp ∧
    (FlatToAsn1.Convert sprintv ⟨m, ⟨r⟩, ⟨a⟩, t, s⟩ f).Severity =
      (FlatToAsn1.Convert sprintv ⟨m, ⟨r2⟩, ⟨a2⟩, t, s⟩ f).Severity ∧
    (FlatToAsn1.Convert sprintv ⟨m, ⟨r⟩, ⟨a⟩, t, s⟩ f).Message =
      (FlatToAsn1.Convert sprintv ⟨m, ⟨r2⟩, ⟨a2⟩, t, s⟩ f).Message ∧
    (FlatToAsn1.Convert sprintv ⟨m, ⟨r⟩, ⟨a⟩, t, s⟩ f).Resource =
      ⟨copiedStrs f r, copiedInts f r, copiedBools f r⟩ ∧
    (FlatToAsn1.Convert sprintv ⟨m, ⟨r⟩, ⟨a⟩, t, s⟩ f).Attributes =
      ⟨copiedStrs f a, copiedInts f a, copiedBools f a⟩ ∧
    (copiedStrs f r).Perm (copiedStrs f r2) ∧ (copiedInts f r).Perm (copiedInts f r2) ∧
    (copiedBools f r).Perm (copiedBools f r2) ∧
    (copiedStrs f a).Perm (copiedStrs f a2) ∧ (copiedInts f a).Perm (copiedInts f a2) ∧
    (copiedBools f a).Perm (copiedBools f a2) ∧
    ((copiedStrs f r).length ≤ 1 → (copiedInts f r).length ≤ 1 →
      (copiedBools f r).length ≤ 1 → (copiedStrs f a).length ≤ 1 →
      (copiedInts f a).length ≤ 1 → (copiedBools f a).length ≤ 1 →
      FlatToAsn1.Convert sprintv ⟨m, ⟨r⟩, ⟨a⟩, t, s⟩ f =
        FlatToAsn1.Convert sprintv ⟨m, ⟨r2⟩, ⟨a2⟩, t, s⟩ f ∧
      (FlatToAsn1.Convert sprintv ⟨m, ⟨r⟩, ⟨a⟩, t, s⟩ f).ToDerBytes marshal =
        (FlatToAsn1.Convert sprintv ⟨m, ⟨r2⟩, ⟨a2⟩, t, s⟩ f).ToDerBytes marshal) := by
  obtain ⟨h1, h2, h3, h4, h5⟩ := Convert_fields sprintv ⟨m, ⟨r⟩, ⟨a⟩, t, s⟩ f
  obtain ⟨g1, g2, g3, g4, g5⟩ := Convert_fields sprintv ⟨m, ⟨r2⟩, ⟨a2⟩, t, s⟩ f
  have p1 : (copiedStrs f r).Perm (copiedStrs f r2) := hr.filterMap _
  have p2 : (copiedInts f r).Perm (copiedInts f r2) := hr.filterMap _
  have p3 : (copiedBools f r).Perm (copiedBools f r2) := hr.filterMap _
  have p4 : (copiedStrs f a).Perm (copiedStrs f a2) := ha.filterMap _
  have p5 : (copiedInts f a).Perm (copiedInts f a2) := ha.filterMap _
  have p6 : (copiedBools f a).Perm (copiedBools f a2) := ha.filterMap _
  refine ⟨h1.trans g1.symm, h2.trans g2.symm, h3.trans g3.symm, h4, h5,
    p1, p2, p3, p4, p5, p6, fun l1 l2 l3 l4 l5 l6 => ?_⟩
  have he : FlatToAsn1.Convert sprintv ⟨m, ⟨r⟩, ⟨a⟩, t, s⟩ f =
      FlatToAsn1.Convert sprintv ⟨m, ⟨r2⟩, ⟨a2⟩, t, s⟩ f := by
    have e4 := h4
    have e5 := h5
    simp only at e4 e5 g4 g5
    rw [perm_eq_of_length_le_one p1 l1, perm_eq_of_length_le_one p2 l2,
      perm_eq_of_length_le_one p3 l3, ← g4] at e4
    rw [perm_eq_of_length_le_one p4 l4, perm_eq_of_length_le_one p5 l5,
      perm_eq_of_length_le_one p6 l6, ← g5] at e5
    have q1 := h1.trans g1.symm
    have q2 := h2.trans g2.symm
    have q3 := h3.trans g3.symm
    cases hx : FlatToAsn1.Convert sprintv ⟨m, ⟨r⟩, ⟨a⟩, t, s⟩ f
    cases hy : FlatToAsn1.Convert sprintv ⟨m, ⟨r2⟩, ⟨a2⟩, t, s⟩ f
    rw [hx, hy] at q1 q2 q3 e4 e5
    simp only at q1 q2 q3 e4 e5
    rw [q1, q2, q3, e4, e5]
  exact ⟨he, by rw [he]⟩

theorem C14_determinism_up_to_order_witness :
    ([[97], [98]] : List GoString).Perm [[98], [97]] ∧ ([] : List GoString).Perm [] ∧
    (copiedStrs (some fun key => if key = [97] then some (JVal.str [120])
        else if key = [98] then some (JVal.str [121]) else none) [[97], [98]]).Perm
      (copiedStrs (some fun key => if key = [97] then some (JVal.str [120])
        else if key = [98] then some (JVal.str [121]) else none) [[98], [97]]) :=
  ⟨List.Perm.swap _ _ _, List.Perm.nil,
    (C14_determinism_up_to_order (fun _ => []) (fun _ => []) [109] (fun _ => (0, none))
      (fun _ => 0) [[97], [98]] [[98], [97]] [] []
      (some fun key => if key = [97] then some (JVal.str [120])
        else if key = [98] then some (JVal.str [121]) else none)
      (List.Perm.swap _ _ _) List.Perm.nil).2.2.2.2.2.1⟩

/-- C13. Producers obey the error rule: for every sequence of items, every
sequence of lines and every consumer, also one that answers to go on after an
error, an element that `LogItems.ToBlobs` (and so `FlatToAsn1.LinesToBlobs`)
delivers with a non-nil error is the last element delivered. It is `(nil, e)` for
the error `e` that the upstream sequence delivered at that index; encoding a
record to bytes gives no error, as `asn1.Marshal` has none for a `LogItem`. -/
theorem C13_error_rule (sprintv : JVal → GoString) (marshal : LogItem → Blob)
    (unmarshal : List Byte → FlatLog → FlatLog × Option Error) (c : FlatToAsn1)
    (items : List (LogItem × Option Error)) (lines : List (List Byte)) (yield : Consumer) :
    (∀ (pre post : List Elt) (x : Elt),
      (LogItems.ToBlobs marshal (Iter.ofList items)).run yield = pre ++ x :: post →
      x.err ≠ none →
      post = [] ∧ ∃ i e, items.get? pre.length = some (i, some e) ∧ x = ⟨none, some e⟩) ∧
    (∀ (pre post : List Elt) (x : Elt),
      (c.LinesToBlobs sprintv marshal unmarshal (Iter.ofList lines)).run yield =
        pre ++ x :: post →
      x.err ≠ none → post = [] ∧ x.blob = none) ∧
    (∀ item : LogItem, (item.ToDerBytes marshal).2 = none) := by
  have key : ∀ (its : List (LogItem × Option Error)) (pre post : List Elt) (x : Elt),
      (LogItems.ToBlobs marshal (Iter.ofList its)).run yield = pre ++ x :: post →
      x.err ≠ none →
      post = [] ∧ ∃ i e, its.get? pre.length = some (i, some e) ∧ x = ⟨none, some e⟩ := by
    intro its pre post x h hx
    obtain ⟨it, hit, hc⟩ := ToBlobs_run marshal yield its pre post x h
    rcases hc with ⟨e, h1, h2, h3⟩ | ⟨_, h2, _⟩
    · obtain ⟨i, e2⟩ := it
      simp only at h1
      subst h1
      exact ⟨h3, i, e, hit, h2⟩
    · simp only [LogItem.ToDerBytes, Prod.mk.injEq] at h2
      exact absurd h2.2.symm hx
  refine ⟨key items, ?_, fun _ => rfl⟩
  intro pre post x h hx
  rw [LinesToBlobs_run] at h
  obtain ⟨hp, _, _, _, hxe⟩ := key _ pre post x h hx
  exact ⟨hp, by rw [hxe]⟩

theorem C13_error_rule_witness :
    (LogItems.ToBlobs (fun i => i.Message)
      (Iter.ofList [(LogItem.zero, some Error.EOF), (LogItem.zero, none)])).run (fun _ => true) =
      [] ++ (⟨none, some Error.EOF⟩ : Elt) :: [] ∧
    (⟨none, some Error.EOF⟩ : Elt).err ≠ none ∧
    (([] : List Elt) = [] ∧
      ∃ i e, ([(LogItem.zero, some Error.EOF), (LogItem.zero, none)] :
          List (LogItem × Option Error)).get? ([] : List Elt).length = some (i, some e) ∧
        (⟨none, some Error.EOF⟩ : Elt) = ⟨none, some e⟩) :=
  ⟨by decide, by decide,
    (C13_error_rule (fun _ => []) (fun i => i.Message) (fun _ b => (b, none))
      ⟨[], ⟨[]⟩, ⟨[]⟩, fun _ => (0, none), fun _ => 0⟩
      [(LogItem.zero, some Error.EOF), (LogItem.zero, none)] [] (fun _ => true)).1
      [] [] ⟨none, some Error.EOF⟩ (by decide) (by decide)⟩

/-- C18 (as stated, false). The line `{"b":1e999,"c":3}` is a valid JSON object,
and `LinesToFlatLogs` yields its record with a non-nil error: the error of the
decoder for the number `1e999`, which does not fit `float64`. The record holds
the key `b` with nil and the key `c` with 3. -/
theorem C18_counterexample :
    parseBigNumber lineBigNumber = Parsed.object membersBigNumber ∧
    ((LinesToFlatLogs (jsonUnmarshal parseBigNumber) (Iter.ofList [lineBigNumber])).run
      (fun _ => true)).map Prod.snd = [some (Error.other 1)] ∧
    (∃ rec e, (LinesToFlatLogs (jsonUnmarshal parseBigNumber) (Iter.ofList [lineBigNumber])).run
        (fun _ => true) = [(rec, some e)] ∧
      rec.get [98] = some JVal.null ∧ rec.get [99] = some (JVal.num 0x4008000000000000)) :=
  ⟨rfl, by decide, _, _, rfl, rfl, rfl⟩

/-- C18 (amended). No field leaks between lines: for every sequence of lines that
are each a valid JSON object, the records `LinesToFlatLogs` yields are, in order,
the records of the lines: the `k`-th record holds for every key the value the
`k`-th line gives it (the last one when the line repeats the key, nil for a number
that does not fit `float64`) and no other key, whatever the lines before it held;
this holds from the first line on, where the buffer is the nil map. A record is
yielded with the error the decoder saved for its line, which is nil exactly when
every number in the line fits `float64`. A consumer that stops receives a prefix
of these elements. -/
theorem C18_no_field_leaks (parse : List Byte → Parsed) (lines : List (List Byte))
    (objs : List (List (GoString × JText))) (yield : List (FlatLog × Option Error) → Bool)
    (h : lines.map parse = objs.map Parsed.object) :
    (LinesToFlatLogs (jsonUnmarshal parse) (Iter.ofList lines)).run (fun _ => true) =
      (objs.map fun members => (objectMap members, (decodeMembers members).2)) ∧
    (∃ n, (LinesToFlatLogs (jsonUnmarshal parse) (Iter.ofList lines)).run yield =
      (objs.map fun members => (objectMap members, (decodeMembers members).2)).take n) ∧
    (∀ (members : List (GoString × JText)) (key : GoString),
      (objectMap members).get key =
        (members.reverse.lookup key).map fun v => (decodeValue v).1) ∧
    (∀ (members : List (GoString × JText)) (key : GoString),
      ((objectMap members).get key).isSome = true ↔ key ∈ members.map Prod.fst) ∧
    (∀ members : List (GoString × JText),
      (decodeMembers members).2 = none ↔ fitsMembers members = true) := by
  refine ⟨?_, ?_, objectMap_get, ?_, decodeMembers_fits⟩
  · rw [LinesToFlatLogs_run, yieldedLogs_objects parse lines objs none h, forEach_collect_all]
    simp
  · rw [LinesToFlatLogs_run, yieldedLogs_objects parse lines objs none h]
    obtain ⟨n, hn⟩ := forEach_collect yield
      (objs.map fun members => (objectMap members, (decodeMembers members).2)) []
    exact ⟨n, by rw [hn]; simp⟩
  · intro members key
    rw [objectMap_get, Option.isSome_map', List.lookup_isSome_iff]
    simp only [List.mem_reverse, beq_iff_eq, List.mem_map]
    constructor
    · rintro ⟨p, hp, rfl⟩
      exact ⟨p, hp, rfl⟩
    · rintro ⟨p, hp, rfl⟩
      exact ⟨p, hp, rfl⟩

theorem C18_no_field_leaks_witness :
    [lineBigNumber, [123, 125]].map parseBigNumber =
      [membersBigNumber, []].map Parsed.object ∧
    (LinesToFlatLogs (jsonUnmarshal parseBigNumber)
      (Iter.ofList [lineBigNumber, [123, 125]])).run (fun _ => true) =
      ([membersBigNumber, []].map fun members =>
        (objectMap members, (decodeMembers members).2)) :=
  ⟨rfl,
    (C18_no_field_leaks parseBigNumber [lineBigNumber, [123, 125]] [membersBigNumber, []]
      (fun _ => true) rfl).1⟩

end Blobs2Gzip
